import Mathlib

/-!
# Verification of `neuralnet` (`src/programs/neuralnet/private/main.cpp`)

A shallow embedding of the genotype codec (`parseGenotype`), the expression
evaluator (`objective`), the fitness function (`fitness`), the selection
engine (`select`) and the generation loop of `main`, followed by theorems
about them.

Conventions of the embedding.

* `size_t` codes and digit values are natural numbers; no arithmetic on them
  can overflow (`gene - 10` is only computed when `10 ≤ gene < 14`).
* A `double` is a value of `Dbl`: a finite value carried by a rational, `+∞`,
  `-∞` or NaN.  The special values follow IEEE-754.  The operations `Dbl.add`,
  `Dbl.sub`, `Dbl.mul` and `Dbl.div` deliver the exact result; rounding is a
  separate step, `Dbl.round rnd`.  `fitness` and `select` are embedded in the
  form `fitnessWith rnd`, `selectWith rnd`, in which every arithmetic result is
  rounded by `rnd`, and in the exact form `fitness`, `select`, which is the
  case `rnd = Dbl.fin`; `round64` is rounding to binary64, to nearest with ties
  to even, with overflow to infinity.  `objective` is embedded in exact form
  only.  Statements about the exact forms are statements in exact arithmetic.
  Zero is unsigned and a zero divisor behaves as `+0.0`; every divisor of the
  program is a `size_t` converted to `double`, the result of `fabs`, or a sum
  starting from `0.0`, none of which can be `-0.0`.
* A C++ vector is a `List`; `std::multimap<double, Sample>` is a list of
  key/value pairs kept in iteration order.
* Undefined behaviour and the bare `throw;` are values of `Fault`, returned
  through `Except`.
-/

namespace NeuralNet

/-! ## Data model (lines 11-33) -/

/-- Kind tag of a parsed gene: `enum class Type`. -/
inductive GeneType where
  | NUMBER
  | OPERATOR
  deriving DecidableEq, Repr

/-- Arithmetic operators: `enum class Operator`, numbered from `PLUS = 0`. -/
inductive Operator where
  | PLUS
  | MINUS
  | MULTIPLY
  | DIVIDE
  deriving DecidableEq, Repr

/-- A parsed gene.  The C++ `struct Gene` has the fields `m_type`, `m_number`
and `m_operator`, of which `parseGenotype` initialises `m_type` and exactly the
one field that matches it; the other field stays uninitialised.  The embedding
is therefore the tagged sum: `number n` is `{NUMBER, n, <unset>}` and
`operator o` is `{OPERATOR, <unset>, o}`. -/
inductive Gene where
  | number (m_number : Nat)
  | operator (m_operator : Operator)
  deriving DecidableEq, Repr

/-- Field `m_type`. -/
def Gene.m_type : Gene → GeneType
  | .number _ => .NUMBER
  | .operator _ => .OPERATOR

/-- Field `m_number`; `none` when the field was never written. -/
def Gene.m_number : Gene → Option Nat
  | .number n => some n
  | .operator _ => none

/-- Field `m_operator`; `none` when the field was never written. -/
def Gene.m_operator : Gene → Option Operator
  | .number _ => none
  | .operator o => some o

/-- An unparsed genotype, `typedef std::vector<size_t> Sample`. -/
abbrev Sample := List Nat

/-- A parsed genotype, `typedef std::vector<Gene> Genotype`. -/
abbrev Genotype := List Gene

/-! ## Genotype codec (lines 35-72) -/

/-- The conversion `static_cast<Operator>(gene - 10)` of line 64, applied to
the difference `gene - 10`.  It is reached only under `10 ≤ gene < 14`, so the
argument is one of 0, 1, 2, 3. -/
def castOperator : Nat → Operator
  | 0 => .PLUS
  | 1 => .MINUS
  | 2 => .MULTIPLY
  | _ => .DIVIDE

/-- Value of `parsedGenotype.back().m_type`, when the vector is non-empty. -/
def backType (parsedGenotype : Genotype) : Option GeneType :=
  parsedGenotype.getLast?.map Gene.m_type

/-- One iteration of the loop of `parseGenotype` (lines 41-69): the vector
`parsedGenotype` after the code `gene` has been looked at. -/
def parseStep (parsedGenotype : Genotype) (gene : Nat) : Genotype :=
  if gene < 10 then
    if parsedGenotype.length = 0 ∨ backType parsedGenotype = some .OPERATOR then
      parsedGenotype ++ [Gene.number gene]
    else
      parsedGenotype
  else if gene < 14 then
    if parsedGenotype.length ≠ 0 ∧ backType parsedGenotype = some .NUMBER then
      parsedGenotype ++ [Gene.operator (castOperator (gene - 10))]
    else
      parsedGenotype
  else
    parsedGenotype

/-- The function `parseGenotype` (lines 35-72): the range-for loop over the
codes, starting from the empty vector. -/
def parseGenotype (genotype : Sample) : Genotype :=
  genotype.foldl parseStep []

/-! ## The `double` type -/

/-- A `double`: a finite value (exact rational), `+∞`, `-∞` or NaN. -/
inductive Dbl where
  | fin (q : ℚ)
  | pinf
  | ninf
  | nan
  deriving DecidableEq

namespace Dbl

/-- Conversion of a `size_t` to `double`. -/
def ofNat (n : Nat) : Dbl := fin (n : ℚ)

/-- Unary minus. -/
def neg : Dbl → Dbl
  | fin a => fin (-a)
  | pinf => ninf
  | ninf => pinf
  | nan => nan

/-- Addition: `∞ + (-∞)` is NaN, an infinity absorbs finite values. -/
def add : Dbl → Dbl → Dbl
  | nan, _ => nan
  | _, nan => nan
  | pinf, ninf => nan
  | ninf, pinf => nan
  | pinf, _ => pinf
  | _, pinf => pinf
  | ninf, _ => ninf
  | _, ninf => ninf
  | fin a, fin b => fin (a + b)

/-- Subtraction, `a - b = a + (-b)`. -/
def sub (a b : Dbl) : Dbl := add a (neg b)

/-- Sign rule for the product or quotient of an infinity with a non-zero
finite value: `pos` tells whether the infinity is `+∞`. -/
def signedInf (pos : Bool) (b : ℚ) : Dbl :=
  if 0 < b then (if pos then pinf else ninf) else (if pos then ninf else pinf)

/-- Multiplication: `∞ * 0` is NaN. -/
def mul : Dbl → Dbl → Dbl
  | nan, _ => nan
  | _, nan => nan
  | fin a, fin b => fin (a * b)
  | pinf, fin b => if b = 0 then nan else signedInf true b
  | ninf, fin b => if b = 0 then nan else signedInf false b
  | fin a, pinf => if a = 0 then nan else signedInf true a
  | fin a, ninf => if a = 0 then nan else signedInf false a
  | pinf, pinf => pinf
  | pinf, ninf => ninf
  | ninf, pinf => ninf
  | ninf, ninf => pinf

/-- Division.  `x / 0` is `±∞` by the sign of `x` for `x` non-zero and NaN
for `x = 0`; `∞ / ∞` is NaN; a finite value over an infinity is zero. -/
def div : Dbl → Dbl → Dbl
  | nan, _ => nan
  | _, nan => nan
  | pinf, pinf => nan
  | pinf, ninf => nan
  | ninf, pinf => nan
  | ninf, ninf => nan
  | pinf, fin b => if b < 0 then ninf else pinf
  | ninf, fin b => if b < 0 then pinf else ninf
  | fin _, pinf => fin 0
  | fin _, ninf => fin 0
  | fin a, fin b =>
    if b = 0 then
      if a = 0 then nan else if 0 < a then pinf else ninf
    else fin (a / b)

/-- The function `fabs`. -/
def fabs : Dbl → Dbl
  | fin a => fin |a|
  | pinf => pinf
  | ninf => pinf
  | nan => nan

/-- Comparison `==`: false as soon as one side is NaN. -/
def eq : Dbl → Dbl → Bool
  | nan, _ => false
  | _, nan => false
  | a, b => decide (a = b)

/-- Comparison `!=`, the negation of `==`. -/
def ne (a b : Dbl) : Bool := !(eq a b)

/-- Comparison `<`: false as soon as one side is NaN. -/
def lt : Dbl → Dbl → Bool
  | nan, _ => false
  | _, nan => false
  | _, ninf => false
  | pinf, _ => false
  | ninf, _ => true
  | _, pinf => true
  | fin a, fin b => decide (a < b)

/-- Comparison `>`, that is `<` with the sides exchanged. -/
def gt (a b : Dbl) : Bool := lt b a

/-- Comparison `>=`: false as soon as one side is NaN. -/
def ge : Dbl → Dbl → Bool
  | nan, _ => false
  | _, nan => false
  | pinf, _ => true
  | _, ninf => true
  | _, pinf => false
  | ninf, _ => false
  | fin a, fin b => decide (b ≤ a)

end Dbl

/-! ## Rounding

Every arithmetic operation on `double` delivers the exact result rounded to
the nearest representable value.  The functions of the program that do
arithmetic are embedded twice: in the form `fWith rnd`, where every finite
arithmetic result passes through the rounding function `rnd`, and in the exact
form `f`, which is `fWith Dbl.fin`.  For `rnd = round64` the form `fWith rnd`
is the arithmetic of IEEE-754 binary64 in the default rounding mode. -/

/-- The result of an arithmetic operation after rounding: a finite exact
result is rounded by `rnd`, infinities and NaN pass unchanged. -/
def Dbl.round (rnd : ℚ → Dbl) : Dbl → Dbl
  | .fin q => rnd q
  | x => x

/-- Rounding to the nearest integer, ties to the even one. -/
def roundHalfEven (x : ℚ) : ℤ :=
  if x - ⌊x⌋ < 1 / 2 then ⌊x⌋
  else if 1 / 2 < x - ⌊x⌋ then ⌊x⌋ + 1
  else if ⌊x⌋ % 2 = 0 then ⌊x⌋
  else ⌊x⌋ + 1

/-- Exponent of the binade of a positive `q` in binary64: `⌊log₂ q⌋`, and
`-1022` throughout the subnormal range. -/
def binade (q : ℚ) : ℤ :=
  max (Int.log 2 q) (-1022)

/-- The multiple of the unit in the last place of the binade of `q` (53
significant bits) that is nearest to the non-negative rational `q`, ties to
even. -/
def nearest (q : ℚ) : ℚ :=
  roundHalfEven (q / 2 ^ (binade q - 52)) * 2 ^ (binade q - 52)

/-- Rounding of a non-negative rational to binary64, to nearest with ties to
even; a result of `2 ^ 1024` or more is `+∞`. -/
def roundMagnitude (q : ℚ) : Dbl :=
  if (2 : ℚ) ^ (1024 : ℤ) ≤ nearest q then Dbl.pinf else Dbl.fin (nearest q)

/-- Rounding of a rational to binary64, symmetric about zero. -/
def round64 (q : ℚ) : Dbl :=
  if q < 0 then Dbl.neg (roundMagnitude (-q)) else roundMagnitude q

/-- The quotient `1.0 / d` in binary64. -/
def reciprocal64 (d : Dbl) : Dbl :=
  Dbl.round round64 (Dbl.div (Dbl.fin 1) d)

/-! ## Faults -/

/-- Ways in which the program leaves defined, normal execution. -/
inductive Fault where
  /-- Line 137: `throw;` with no exception being handled. -/
  | bareThrow
  /-- Line 80 or 93: a field or variable is read before it was written. -/
  | uninitialisedRead
  /-- Line 185: `it->second` on the end iterator. -/
  | endIterator
  /-- Line 244: `scores.rbegin()` is dereferenced on an empty map. -/
  | emptyMap
  deriving DecidableEq, Repr

/-! ## Expression evaluator (lines 74-118) -/

/-- The compound assignment selected by `switch (lastOper)` (lines 93-112),
with the second operand `gene.m_number` converted to `double`. -/
def applyOperator (lastOper : Operator) (evaluatedGenotype : Dbl) (m_number : Nat) : Dbl :=
  match lastOper with
  | .PLUS => Dbl.add evaluatedGenotype (Dbl.ofNat m_number)
  | .MINUS => Dbl.sub evaluatedGenotype (Dbl.ofNat m_number)
  | .MULTIPLY => Dbl.mul evaluatedGenotype (Dbl.ofNat m_number)
  | .DIVIDE => Dbl.div evaluatedGenotype (Dbl.ofNat m_number)

/-- One iteration of the loop of `objective` (lines 85-113).  The state is
`evaluatedGenotype` together with `lastOper`, which is `none` until the first
assignment of line 89. -/
def objectiveStep (st : Dbl × Option Operator) (gene : Gene) :
    Except Fault (Dbl × Option Operator) :=
  match gene with
  | .operator o => .ok (st.1, some o)
  | .number n =>
    match st.2 with
    | none => .error .uninitialisedRead
    | some lastOper => .ok (applyOperator lastOper st.1 n, st.2)

/-- The function `objective` (lines 74-118). -/
def objective (parsedGenotype : Genotype) : Except Fault Dbl :=
  match parsedGenotype with
  | [] => .ok (Dbl.fin 0)
  | front :: rest =>
    match front.m_number with
    | none => .error .uninitialisedRead
    | some n => (rest.foldlM objectiveStep (Dbl.ofNat n, none)).map Prod.fst

/-! ## Fitness function (lines 120-131) -/

/-- The function `fitness` (lines 120-131). -/
def fitness (objectiveValue target : Dbl) : Dbl :=
  if Dbl.eq objectiveValue (Dbl.fin 0) || Dbl.ne objectiveValue objectiveValue then
    Dbl.fin 0
  else
    Dbl.div (Dbl.fin 1) (Dbl.fabs (Dbl.sub target objectiveValue))

/-! ## Ordered multimap and random generator -/

/-- A `std::multimap<double, Sample>`, as the list of its entries in iteration
order (ascending keys, equal keys in insertion order). -/
abbrev Multimap := List (Dbl × Sample)

/-- The member `insert`: the new entry goes to the upper bound of its key,
that is right before the first entry whose key is strictly greater.  Keys are
compared with `<` on `double`. -/
def Multimap.insert : Multimap → Dbl × Sample → Multimap
  | [], value => [value]
  | entry :: rest, value =>
    if Dbl.lt value.1 entry.1 then value :: entry :: rest
    else entry :: Multimap.insert rest value

/-- State of the process-wide `generator` as seen through
`std::uniform_real_distribution<double>(0.0, 1.0)`: the stream of numbers it
is going to deliver and how many of them have been consumed. -/
structure Generator where
  stream : Nat → ℚ
  consumed : Nat

/-- One call `distribution(generator)` (line 176). -/
def Generator.draw (generator : Generator) : ℚ × Generator :=
  (generator.stream generator.consumed,
   { stream := generator.stream, consumed := generator.consumed + 1 })

/-! ## Selection engine (lines 134-189) -/

/-- The sum of lines 145-149. -/
def fitnessTotal (map : Multimap) : Dbl :=
  map.foldl (fun total genotype => Dbl.add total genotype.1) (Dbl.fin 0)

/-- The map `normalisedFitness` built by lines 152-156. -/
def normalisedFitness (map : Multimap) : Multimap :=
  map.foldl
    (fun normalised genotype =>
      Multimap.insert normalised (Dbl.div genotype.1 (fitnessTotal map), genotype.2))
    []

/-- One iteration of lines 160-166; the state is `accumulatedFitness` together
with `lastFitness`. -/
def accumulateStep (st : Multimap × Dbl) (genotype : Dbl × Sample) : Multimap × Dbl :=
  let fitness := Dbl.add genotype.1 st.2
  (Multimap.insert st.1 (fitness, genotype.2), fitness)

/-- The map `accumulatedFitness` built by lines 159-166. -/
def accumulatedFitness (map : Multimap) : Multimap :=
  ((normalisedFitness map).foldl accumulateStep ([], Dbl.fin 0)).1

/-- The sampling loop of lines 171-186, with `remaining` iterations to go and
`data` collected so far. -/
def selectLoop (accumulated : Multimap) :
    Nat → List Sample → Generator → Except Fault (List Sample) × Generator
  | 0, data, generator => (.ok data, generator)
  | remaining + 1, data, generator =>
    let n := generator.draw.1
    match accumulated.find? (fun sample => Dbl.ge sample.1 (Dbl.fin n)) with
    | none => (.error .endIterator, generator.draw.2)
    | some it => selectLoop accumulated remaining (data ++ [it.2]) generator.draw.2

/-- The function `select` (lines 134-189).  The result comes with the state
in which the call leaves the generator. -/
def select (map : Multimap) (count : Int) (generator : Generator) :
    Except Fault (List Sample) × Generator :=
  if count < 0 then
    (.error .bareThrow, generator)
  else
    selectLoop (accumulatedFitness map) count.toNat [] generator

/-! ## Fitness and selection with rounding

The same functions with every finite arithmetic result rounded by `rnd`. -/

/-- The function `fitness` (lines 120-131): the difference of line 128 and
the quotient of line 128 are both rounded. -/
def fitnessWith (rnd : ℚ → Dbl) (objectiveValue target : Dbl) : Dbl :=
  if Dbl.eq objectiveValue (Dbl.fin 0) || Dbl.ne objectiveValue objectiveValue then
    Dbl.fin 0
  else
    Dbl.round rnd
      (Dbl.div (Dbl.fin 1) (Dbl.fabs (Dbl.round rnd (Dbl.sub target objectiveValue))))

/-- The sum of lines 145-149, each addition rounded. -/
def fitnessTotalWith (rnd : ℚ → Dbl) (map : Multimap) : Dbl :=
  map.foldl (fun total genotype => Dbl.round rnd (Dbl.add total genotype.1)) (Dbl.fin 0)

/-- The map `normalisedFitness` built by lines 152-156, each quotient
rounded. -/
def normalisedFitnessWith (rnd : ℚ → Dbl) (map : Multimap) : Multimap :=
  map.foldl
    (fun normalised genotype =>
      Multimap.insert normalised
        (Dbl.round rnd (Dbl.div genotype.1 (fitnessTotalWith rnd map)), genotype.2))
    []

/-- One iteration of lines 160-166, the addition rounded. -/
def accumulateStepWith (rnd : ℚ → Dbl) (st : Multimap × Dbl) (genotype : Dbl × Sample) :
    Multimap × Dbl :=
  let fitness := Dbl.round rnd (Dbl.add genotype.1 st.2)
  (Multimap.insert st.1 (fitness, genotype.2), fitness)

/-- The map `accumulatedFitness` built by lines 159-166. -/
def accumulatedFitnessWith (rnd : ℚ → Dbl) (map : Multimap) : Multimap :=
  ((normalisedFitnessWith rnd map).foldl (accumulateStepWith rnd) ([], Dbl.fin 0)).1

/-- The function `select` (lines 134-189); the sampling loop does no
arithmetic and is `selectLoop`. -/
def selectWith (rnd : ℚ → Dbl) (map : Multimap) (count : Int) (generator : Generator) :
    Except Fault (List Sample) × Generator :=
  if count < 0 then
    (.error .bareThrow, generator)
  else
    selectLoop (accumulatedFitnessWith rnd map) count.toNat [] generator

/-! ## Generation loop of `main` (lines 222-257) -/

/-- The constant `TARGET_NUMBER` (line 194), as passed to `fitness`. -/
def TARGET_NUMBER : Dbl := Dbl.fin 42

/-- A line written by `printf` (lines 246 and 250). -/
inductive Printed where
  | foundSolution (value : Dbl)
  | bestValue (value : Dbl)
  deriving DecidableEq

/-- What the generation loop reads and writes: the vector `samples`, the
generator, and the lines printed so far. -/
structure Driver where
  samples : List Sample
  generator : Generator
  printed : List Printed

/-- The value `fitnessValue` computed for one genotype by lines 229-236:
parse, evaluate the objective, evaluate the fitness against `target`. -/
def fitnessValue (genotype : Sample) (target : Dbl) : Except Fault Dbl :=
  match objective (parseGenotype genotype) with
  | .error fault => .error fault
  | .ok objectiveValue => .ok (fitness objectiveValue target)

/-- One iteration of the scoring loop (lines 227-240). -/
def scoreStep (scores : Multimap) (genotype : Sample) : Except Fault Multimap :=
  match fitnessValue genotype TARGET_NUMBER with
  | .error fault => .error fault
  | .ok value => .ok (Multimap.insert scores (value, genotype))

/-- The map `scores` of one generation (lines 225-240). -/
def scorePopulation (samples : List Sample) : Except Fault Multimap :=
  samples.foldlM scoreStep []

/-- The body of the generation loop (lines 224-256). -/
def generation (st : Driver) : Except Fault Driver :=
  match scorePopulation st.samples with
  | .error fault => .error fault
  | .ok scores =>
    match scores.getLast? with
    | none => .error .emptyMap
    | some last =>
      match objective (parseGenotype last.2) with
      | .error fault => .error fault
      | .ok value =>
        if Dbl.eq last.1 Dbl.pinf then
          .ok { st with printed := st.printed ++ [Printed.foundSolution value] }
        else
          match select scores 2 st.generator with
          | (.error fault, _) => .error fault
          | (.ok data, generator) =>
            .ok { samples := data, generator := generator,
                  printed := st.printed ++ [Printed.bestValue value] }

/-- The first `budget` iterations of the generation loop. -/
def generations : Nat → Driver → Except Fault Driver
  | 0, st => .ok st
  | budget + 1, st =>
    match generation st with
    | .error fault => .error fault
    | .ok next => generations budget next

/-- The loop `for (int i = 0; i < 10; ++i)` of lines 222-257. -/
def generationLoop (st : Driver) : Except Fault Driver :=
  generations 10 st

/-! ## Reference definitions, written from the specification -/

/-- Number of an operator in the enumeration (`PLUS = 0`, then in order). -/
def Operator.toNat : Operator → Nat
  | .PLUS => 0
  | .MINUS => 1
  | .MULTIPLY => 2
  | .DIVIDE => 3

/-- Symbolic code of a token: a digit is its own code, an operator is 10 plus
its number. -/
def encode : Gene → Nat
  | .number d => d
  | .operator k => 10 + k.toNat

/-- Operator denoted by a symbolic code: 10, 11, 12, 13 denote plus, minus,
multiply, divide, in that order. -/
def operatorOfCode (c : Nat) : Option Operator :=
  if c = 10 then some .PLUS
  else if c = 11 then some .MINUS
  else if c = 12 then some .MULTIPLY
  else if c = 13 then some .DIVIDE
  else none

/-- Reference decoder of the specification: scan left to right, `last` being
the kind of the last accepted token (`none` when nothing was accepted yet).
A code in 0..9 is accepted as a digit when nothing was accepted or the last
accepted token is an operator; a code in 10..13 is accepted as an operator
when the last accepted token is a digit; everything else is dropped. -/
def decodeFrom (last : Option GeneType) : List Nat → List Gene
  | [] => []
  | c :: cs =>
    match operatorOfCode c with
    | some o =>
      if last = some .NUMBER then Gene.operator o :: decodeFrom (some .OPERATOR) cs
      else decodeFrom last cs
    | none =>
      if c ≤ 9 ∧ (last = none ∨ last = some .OPERATOR) then
        Gene.number c :: decodeFrom (some .NUMBER) cs
      else decodeFrom last cs

/-- Reference decoder, started with no accepted token. -/
def decodeRef (genotype : List Nat) : List Gene :=
  decodeFrom none genotype

/-- A token sequence alternates: no two neighbours have the same kind. -/
def Alternates (tokens : List Gene) : Prop :=
  List.Chain' (fun a b => a.m_type ≠ b.m_type) tokens

/-- A token sequence is empty or starts with a digit token. -/
def StartsWithDigit (tokens : List Gene) : Prop :=
  ∀ t ∈ tokens.head?, t.m_type = GeneType.NUMBER

/-- A token sequence is empty or ends with a digit token. -/
def EndsWithDigit (tokens : List Gene) : Prop :=
  ∀ t ∈ tokens.getLast?, t.m_type = GeneType.NUMBER

/-- Every digit token holds a digit 0..9. -/
def DigitsInRange (tokens : List Gene) : Prop :=
  ∀ t ∈ tokens, ∀ d, t = Gene.number d → d ≤ 9

/-- Shape of a token sequence at its end: empty, or a digit token last, or an
operator token last with a digit token right before it. -/
def EndShape (ts : Genotype) : Prop :=
  ts = [] ∨ (∃ pre d, ts = pre ++ [Gene.number d]) ∨
    (∃ pre d o, ts = pre ++ [Gene.number d, Gene.operator o])

/-- The scored population whose entries are the finite scores and genotypes
of `entries`, in that order. -/
def finiteMap (entries : List (ℚ × Sample)) : Multimap :=
  entries.map (fun e => (Dbl.fin e.1, e.2))

/-- Finite value of a `double`, 0 for the infinities and NaN. -/
def Dbl.toRat : Dbl → ℚ
  | .fin q => q
  | _ => 0

/-- The entries of a scored population with their scores read as rationals. -/
def finitePart (map : Multimap) : List (ℚ × Sample) :=
  map.map (fun e => (e.1.toRat, e.2))

/-- The entries with every score divided by `total`. -/
def normalisedEntries (total : ℚ) (entries : List (ℚ × Sample)) : List (ℚ × Sample) :=
  entries.map (fun e => (e.1 / total, e.2))

/-- Running sums of the scores of `entries` on top of `last`, each paired with
the genotype of its entry. -/
def cumulative (last : ℚ) : List (ℚ × Sample) → List (ℚ × Sample)
  | [] => []
  | e :: es => (e.1 + last, e.2) :: cumulative (e.1 + last) es

/-- Sum of the scores of `entries`. -/
def scoreSum (entries : List (ℚ × Sample)) : ℚ :=
  (entries.map Prod.fst).sum

/-- The cumulative value `c_i = (s_1 + ... + s_i) / T` of the specification,
for the entry of index `i` counted from 0, with `T` the sum of all scores. -/
def cumulativeValue (entries : List (ℚ × Sample)) (i : Nat) : ℚ :=
  scoreSum (entries.take (i + 1)) / scoreSum entries

/-- The test of line 181 for the draw `n`: `sample.first >= n`. -/
def reaches (n : ℚ) (sample : Dbl × Sample) : Bool :=
  Dbl.ge sample.1 (Dbl.fin n)

/-- The strict left-to-right arithmetic of the specification on exact
rationals: the accumulator combined with a digit by an operator. -/
def exactApply (o : Operator) (acc : ℚ) (d : Nat) : ℚ :=
  match o with
  | .PLUS => acc + d
  | .MINUS => acc - d
  | .MULTIPLY => acc * d
  | .DIVIDE => acc / d

/-! ## Lemmas on the codec -/

theorem backType_nil : backType [] = none := rfl

theorem backType_concat (ts : Genotype) (x : Gene) :
    backType (ts ++ [x]) = some x.m_type := by
  simp [backType]

theorem backType_eq_none_iff (ts : Genotype) : backType ts = none ↔ ts = [] := by
  simp [backType]

theorem length_eq_zero_iff_backType (ts : Genotype) :
    ts.length = 0 ↔ backType ts = none := by
  rw [backType_eq_none_iff]; exact List.length_eq_zero

theorem operatorOfCode_of_lt_ten {c : Nat} (h : c < 10) : operatorOfCode c = none := by
  unfold operatorOfCode
  rw [if_neg (by omega), if_neg (by omega), if_neg (by omega), if_neg (by omega)]

theorem operatorOfCode_of_ge_fourteen {c : Nat} (h : 14 ≤ c) : operatorOfCode c = none := by
  unfold operatorOfCode
  rw [if_neg (by omega), if_neg (by omega), if_neg (by omega), if_neg (by omega)]

theorem operatorOfCode_of_mid {c : Nat} (h₁ : 10 ≤ c) (h₂ : c < 14) :
    operatorOfCode c = some (castOperator (c - 10)) := by
  interval_cases c <;> rfl

/-- The three outcomes of one loop iteration, by the class of the code and the
kind of the last pushed gene. -/
theorem parseStep_digit_accept {ts : Genotype} {c : Nat} (hc : c < 10)
    (h : backType ts = none ∨ backType ts = some .OPERATOR) :
    parseStep ts c = ts ++ [Gene.number c] := by
  unfold parseStep
  rw [if_pos hc, if_pos]
  rcases h with h | h
  · exact Or.inl ((length_eq_zero_iff_backType ts).2 h)
  · exact Or.inr h

theorem parseStep_digit_drop {ts : Genotype} {c : Nat} (hc : c < 10)
    (h : backType ts = some .NUMBER) : parseStep ts c = ts := by
  unfold parseStep
  rw [if_pos hc, if_neg]
  rw [length_eq_zero_iff_backType, h]
  simp

theorem parseStep_operator_accept {ts : Genotype} {c : Nat} (h₁ : 10 ≤ c) (h₂ : c < 14)
    (h : backType ts = some .NUMBER) :
    parseStep ts c = ts ++ [Gene.operator (castOperator (c - 10))] := by
  unfold parseStep
  rw [if_neg (by omega), if_pos h₂, if_pos]
  refine ⟨?_, h⟩
  rw [Ne, length_eq_zero_iff_backType, h]
  simp

theorem parseStep_operator_drop {ts : Genotype} {c : Nat} (h₁ : 10 ≤ c)
    (h : backType ts ≠ some .NUMBER) : parseStep ts c = ts := by
  unfold parseStep
  rw [if_neg (by omega)]
  split_ifs with h₂ h₃
  · exact absurd h₃.2 h
  · rfl
  · rfl

theorem parseStep_invalid {ts : Genotype} {c : Nat} (h : 14 ≤ c) : parseStep ts c = ts := by
  unfold parseStep
  rw [if_neg (by omega), if_neg (by omega)]

theorem backType_cases (ts : Genotype) :
    backType ts = none ∨ backType ts = some .NUMBER ∨ backType ts = some .OPERATOR := by
  rcases h : backType ts with _ | k
  · exact Or.inl rfl
  · cases k
    · exact Or.inr (Or.inl rfl)
    · exact Or.inr (Or.inr rfl)

theorem parseGenotype_concat (g : Sample) (c : Nat) :
    parseGenotype (g ++ [c]) = parseStep (parseGenotype g) c := by
  simp [parseGenotype, List.foldl_append]

/-- Every loop iteration either leaves the vector alone, pushes a digit after
nothing or an operator, or pushes an operator after a digit. -/
theorem parseStep_cases (ts : Genotype) (c : Nat) :
    parseStep ts c = ts ∨
    (c < 10 ∧ (backType ts = none ∨ backType ts = some .OPERATOR) ∧
      parseStep ts c = ts ++ [Gene.number c]) ∨
    (10 ≤ c ∧ c < 14 ∧ backType ts = some .NUMBER ∧
      parseStep ts c = ts ++ [Gene.operator (castOperator (c - 10))]) := by
  rcases Nat.lt_or_ge c 10 with hc | hc
  · rcases backType_cases ts with h | h | h
    · exact Or.inr (Or.inl ⟨hc, Or.inl h, parseStep_digit_accept hc (Or.inl h)⟩)
    · exact Or.inl (parseStep_digit_drop hc h)
    · exact Or.inr (Or.inl ⟨hc, Or.inr h, parseStep_digit_accept hc (Or.inr h)⟩)
  · rcases Nat.lt_or_ge c 14 with hc' | hc'
    · by_cases h : backType ts = some .NUMBER
      · exact Or.inr (Or.inr ⟨hc, hc', h, parseStep_operator_accept hc hc' h⟩)
      · exact Or.inl (parseStep_operator_drop hc h)
    · exact Or.inl (parseStep_invalid hc')

theorem parseGenotype_induction (P : Genotype → Prop) (h0 : P [])
    (hs : ∀ ts c, P ts → P (parseStep ts c)) (g : Sample) : P (parseGenotype g) := by
  induction g using List.reverseRecOn with
  | nil => exact h0
  | append_singleton g c ih =>
    rw [parseGenotype_concat]
    exact hs _ _ ih

theorem alternates_concat (ts : Genotype) (x : Gene) :
    Alternates (ts ++ [x]) ↔ Alternates ts ∧ backType ts ≠ some x.m_type := by
  unfold Alternates backType
  rw [List.chain'_append]
  constructor
  · rintro ⟨h₁, -, h₃⟩
    refine ⟨h₁, ?_⟩
    intro h
    rcases hl : ts.getLast? with _ | y
    · simp [hl] at h
    · rw [hl] at h
      simp only [Option.map_some', Option.some.injEq] at h
      exact h₃ y (by simp [hl]) x (by simp) h
  · rintro ⟨h₁, h₂⟩
    refine ⟨h₁, List.chain'_singleton x, ?_⟩
    intro y hy z hz
    simp only [List.head?_cons, Option.mem_def, Option.some.injEq] at hz
    subst hz
    intro h
    apply h₂
    rw [Option.mem_def] at hy
    rw [hy]
    simp [h]

theorem startsWithDigit_concat (ts : Genotype) (x : Gene)
    (h : StartsWithDigit ts) (hx : ts = [] → x.m_type = .NUMBER) :
    StartsWithDigit (ts ++ [x]) := by
  unfold StartsWithDigit at *
  cases ts with
  | nil =>
    intro t ht
    simp only [List.nil_append, List.head?_cons, Option.mem_def, Option.some.injEq] at ht
    subst ht
    exact hx rfl
  | cons a rest =>
    intro t ht
    exact h t (by simpa using ht)

theorem parseStep_alternates (ts : Genotype) (c : Nat) (h : Alternates ts) :
    Alternates (parseStep ts c) := by
  rcases parseStep_cases ts c with e | ⟨-, hb, e⟩ | ⟨-, -, hb, e⟩
  · rw [e]; exact h
  · rw [e, alternates_concat]
    refine ⟨h, ?_⟩
    rcases hb with hb | hb <;> rw [hb] <;> simp [Gene.m_type]
  · rw [e, alternates_concat]
    refine ⟨h, ?_⟩
    rw [hb]; simp [Gene.m_type]

theorem parseStep_startsWithDigit (ts : Genotype) (c : Nat) (h : StartsWithDigit ts) :
    StartsWithDigit (parseStep ts c) := by
  rcases parseStep_cases ts c with e | ⟨-, -, e⟩ | ⟨-, -, hb, e⟩
  · rw [e]; exact h
  · rw [e]; exact startsWithDigit_concat ts _ h (fun _ => rfl)
  · rw [e]
    refine startsWithDigit_concat ts _ h (fun hnil => ?_)
    rw [hnil, backType_nil] at hb
    cases hb

theorem parseStep_digitsInRange (ts : Genotype) (c : Nat) (h : DigitsInRange ts) :
    DigitsInRange (parseStep ts c) := by
  rcases parseStep_cases ts c with e | ⟨hc, -, e⟩ | ⟨-, -, -, e⟩
  · rw [e]; exact h
  · rw [e]
    intro t ht d hd
    rcases List.mem_append.1 ht with ht | ht
    · exact h t ht d hd
    · rw [List.mem_singleton] at ht
      rw [ht] at hd
      cases hd
      omega
  · rw [e]
    intro t ht d hd
    rcases List.mem_append.1 ht with ht | ht
    · exact h t ht d hd
    · rw [List.mem_singleton] at ht
      rw [ht] at hd
      cases hd

theorem parseGenotype_alternates (g : Sample) : Alternates (parseGenotype g) :=
  parseGenotype_induction Alternates List.chain'_nil parseStep_alternates g

theorem parseGenotype_startsWithDigit (g : Sample) : StartsWithDigit (parseGenotype g) :=
  parseGenotype_induction StartsWithDigit (by intro t ht; cases ht)
    parseStep_startsWithDigit g

theorem parseGenotype_digitsInRange (g : Sample) : DigitsInRange (parseGenotype g) :=
  parseGenotype_induction DigitsInRange (by intro t ht; cases ht)
    parseStep_digitsInRange g

theorem exists_digit_of_backType_number {ts : Genotype} (h : backType ts = some .NUMBER) :
    ∃ pre d, ts = pre ++ [Gene.number d] := by
  unfold backType at h
  rcases hl : ts.getLast? with _ | y
  · rw [hl] at h; cases h
  · rw [hl] at h
    obtain ⟨pre, hpre⟩ := List.getLast?_eq_some_iff.1 hl
    cases y with
    | number d => exact ⟨pre, d, hpre⟩
    | operator o => simp [Gene.m_type] at h

theorem exists_operator_of_backType_operator {ts : Genotype}
    (h : backType ts = some .OPERATOR) : ∃ pre o, ts = pre ++ [Gene.operator o] := by
  unfold backType at h
  rcases hl : ts.getLast? with _ | y
  · rw [hl] at h; cases h
  · rw [hl] at h
    obtain ⟨pre, hpre⟩ := List.getLast?_eq_some_iff.1 hl
    cases y with
    | number d => simp [Gene.m_type] at h
    | operator o => exact ⟨pre, o, hpre⟩

theorem castOperator_toNat (o : Operator) : castOperator (10 + o.toNat - 10) = o := by
  cases o <;> rfl

theorem operatorOfCode_encode (o : Operator) : operatorOfCode (10 + o.toNat) = some o := by
  cases o <;> rfl

theorem parseStep_endShape (ts : Genotype) (c : Nat) (h : EndShape ts) :
    EndShape (parseStep ts c) := by
  rcases parseStep_cases ts c with e | ⟨-, -, e⟩ | ⟨-, -, hb, e⟩
  · rw [e]; exact h
  · rw [e]; exact Or.inr (Or.inl ⟨ts, c, rfl⟩)
  · rw [e]
    obtain ⟨pre, d, hpre⟩ := exists_digit_of_backType_number hb
    refine Or.inr (Or.inr ⟨pre, d, castOperator (c - 10), ?_⟩)
    rw [hpre]; simp

theorem parseGenotype_endShape (g : Sample) : EndShape (parseGenotype g) :=
  parseGenotype_induction EndShape (Or.inl rfl) parseStep_endShape g

theorem parseStep_digit_ends (ts : Genotype) (c : Nat) (hc : c ≤ 9) :
    ∃ pre d, parseStep ts c = pre ++ [Gene.number d] := by
  have hc' : c < 10 := by omega
  rcases backType_cases ts with h | h | h
  · exact ⟨ts, c, parseStep_digit_accept hc' (Or.inl h)⟩
  · rw [parseStep_digit_drop hc' h]; exact exists_digit_of_backType_number h
  · exact ⟨ts, c, parseStep_digit_accept hc' (Or.inr h)⟩

/-- The source loop started from `acc` appends what the reference decoder
produces when started with the kind of the last gene of `acc`. -/
theorem foldl_parseStep_eq_decodeFrom (g : Sample) :
    ∀ acc : Genotype, g.foldl parseStep acc = acc ++ decodeFrom (backType acc) g := by
  induction g with
  | nil => intro acc; simp [decodeFrom]
  | cons c cs ih =>
    intro acc
    rw [List.foldl_cons, ih]
    rcases Nat.lt_or_ge c 10 with hc | hc
    · have hop := operatorOfCode_of_lt_ten hc
      have hc9 : c ≤ 9 := by omega
      rcases backType_cases acc with h | h | h
      · rw [parseStep_digit_accept hc (Or.inl h), backType_concat]
        simp [decodeFrom, hop, h, hc9, Gene.m_type]
      · rw [parseStep_digit_drop hc h]
        simp [decodeFrom, hop, h, hc9]
      · rw [parseStep_digit_accept hc (Or.inr h), backType_concat]
        simp [decodeFrom, hop, h, hc9, Gene.m_type]
    · rcases Nat.lt_or_ge c 14 with hc' | hc'
      · have hop := operatorOfCode_of_mid hc hc'
        by_cases h : backType acc = some .NUMBER
        · rw [parseStep_operator_accept hc hc' h, backType_concat]
          simp [decodeFrom, hop, h, Gene.m_type]
        · rw [parseStep_operator_drop hc h]
          simp [decodeFrom, hop, h]
      · have hop := operatorOfCode_of_ge_fourteen hc'
        have hc9 : ¬ c ≤ 9 := by omega
        rw [parseStep_invalid hc']
        simp [decodeFrom, hop, hc9]

theorem startsWithDigit_of_concat (ts : Genotype) (x : Gene)
    (h : StartsWithDigit (ts ++ [x])) : StartsWithDigit ts := by
  unfold StartsWithDigit at *
  cases ts with
  | nil => intro t ht; cases ht
  | cons a rest => intro t ht; exact h t (by simpa using ht)

theorem parseGenotype_map_encode (ts : Genotype) :
    Alternates ts → StartsWithDigit ts → DigitsInRange ts →
      parseGenotype (ts.map encode) = ts := by
  induction ts using List.reverseRecOn with
  | nil => intro _ _ _; rfl
  | append_singleton init x ih =>
    intro ha hs hd
    rw [alternates_concat] at ha
    have hinit : parseGenotype (init.map encode) = init :=
      ih ha.1 (startsWithDigit_of_concat init x hs)
        (fun t ht => hd t (List.mem_append_left _ ht))
    rw [List.map_append, List.map_singleton, parseGenotype_concat, hinit]
    cases x with
    | number d =>
      have hd9 : d ≤ 9 := hd _ (by simp) d rfl
      have hb : backType init = none ∨ backType init = some .OPERATOR := by
        rcases backType_cases init with h | h | h
        · exact Or.inl h
        · exact absurd h ha.2
        · exact Or.inr h
      exact parseStep_digit_accept (by simpa [encode] using Nat.lt_succ_of_le hd9) hb
    | operator o =>
      have hne : init ≠ [] := by
        intro hnil
        have := hs (Gene.operator o) (by simp [hnil])
        simp [Gene.m_type] at this
      have hb : backType init = some .NUMBER := by
        rcases backType_cases init with h | h | h
        · exact absurd ((backType_eq_none_iff init).1 h) hne
        · exact h
        · exact absurd h ha.2
      have ht : o.toNat < 4 := by cases o <;> decide
      have h₁ : 10 ≤ 10 + o.toNat := by omega
      have h₂ : 10 + o.toNat < 14 := by omega
      have h := parseStep_operator_accept h₁ h₂ hb
      rw [castOperator_toNat] at h
      exact h

/-! ## Claims on the codec -/

/-- C1: for every genotype, the sequence returned by `parseGenotype` has no
two consecutive tokens of the same kind, and it is empty or its first token is
a digit token. -/
theorem parseGenotype_alternates_from_digit (g : Sample) :
    Alternates (parseGenotype g) ∧
      (parseGenotype g = [] ∨ ∃ d rest, parseGenotype g = Gene.number d :: rest) := by
  refine ⟨parseGenotype_alternates g, ?_⟩
  have h := parseGenotype_startsWithDigit g
  unfold StartsWithDigit at h
  cases hts : parseGenotype g with
  | nil => exact Or.inl rfl
  | cons a rest =>
    right
    rw [hts] at h
    have ha := h a (by simp)
    cases a with
    | number d => exact ⟨d, rest, rfl⟩
    | operator o => simp [Gene.m_type] at ha

/-- C2, as stated, fails: the genotype `[4, 10]` decodes to
`[Digit 4, plus]`, which is not empty and whose last token is an operator. -/
theorem parseGenotype_trailing_operator :
    parseGenotype [4, 10] = [Gene.number 4, Gene.operator .PLUS] ∧
      ¬ (parseGenotype [4, 10] = [] ∨
          ∃ d, (parseGenotype [4, 10]).getLast? = some (Gene.number d)) := by
  have h : parseGenotype [4, 10] = [Gene.number 4, Gene.operator .PLUS] := by decide
  refine ⟨h, ?_⟩
  rw [h]
  simp

/-- C2, amended: for every genotype the decoded sequence is empty, or ends with
a digit token, or ends with an operator token that directly follows a digit
token; and whenever the last code of the genotype is in 0..9 the decoded
sequence ends with a digit token. -/
theorem parseGenotype_end_shape :
    (∀ g : Sample, parseGenotype g = [] ∨
        (∃ pre d, parseGenotype g = pre ++ [Gene.number d]) ∨
        (∃ pre d o, parseGenotype g = pre ++ [Gene.number d, Gene.operator o])) ∧
    (∀ (g : Sample) (c : Nat), c ≤ 9 →
        ∃ pre d, parseGenotype (g ++ [c]) = pre ++ [Gene.number d]) := by
  refine ⟨fun g => parseGenotype_endShape g, fun g c hc => ?_⟩
  rw [parseGenotype_concat]
  exact parseStep_digit_ends _ c hc

/-- Witness of the amended C2 at the genotypes `[4, 10]` and `[4, 10, 2]`. -/
theorem parseGenotype_end_shape_witness :
    (parseGenotype [4, 10] = [] ∨
        (∃ pre d, parseGenotype [4, 10] = pre ++ [Gene.number d]) ∨
        (∃ pre d o, parseGenotype [4, 10] = pre ++ [Gene.number d, Gene.operator o])) ∧
    (2 ≤ 9 ∧ ∃ pre d, parseGenotype ([4, 10] ++ [2]) = pre ++ [Gene.number d]) :=
  ⟨parseGenotype_end_shape.1 [4, 10],
   by decide, parseGenotype_end_shape.2 [4, 10] 2 (by decide)⟩

/-- C3: `parseGenotype` is the reference left-to-right filter.  The empty
genotype decodes to the empty sequence; a code `c` appended to `g` adds
`Digit c` when `c` is in 0..9 and `decode g` is empty or ends with an operator,
adds the operator denoted by `c` when `c` is in 10..13 and `decode g` ends with
a digit, and changes nothing in every other case (every code of 14 or more
included); and `parseGenotype` agrees everywhere with the reference decoder
`decodeRef` written from the specification.  `parseGenotype` is a total
function into token sequences, so no input makes it fail. -/
theorem parseGenotype_is_reference_filter :
    parseGenotype [] = [] ∧
    (∀ (g : Sample) (c : Nat), c ≤ 9 →
        (parseGenotype g = [] ∨ ∃ pre o, parseGenotype g = pre ++ [Gene.operator o]) →
        parseGenotype (g ++ [c]) = parseGenotype g ++ [Gene.number c]) ∧
    (∀ (g : Sample) (c : Nat), 10 ≤ c → c ≤ 13 →
        (∃ pre d, parseGenotype g = pre ++ [Gene.number d]) →
        ∃ o, operatorOfCode c = some o ∧ o.toNat = c - 10 ∧
          parseGenotype (g ++ [c]) = parseGenotype g ++ [Gene.operator o]) ∧
    (∀ (g : Sample) (c : Nat),
        ¬ (c ≤ 9 ∧
            (parseGenotype g = [] ∨ ∃ pre o, parseGenotype g = pre ++ [Gene.operator o])) →
        ¬ (10 ≤ c ∧ c ≤ 13 ∧ ∃ pre d, parseGenotype g = pre ++ [Gene.number d]) →
        parseGenotype (g ++ [c]) = parseGenotype g) ∧
    (∀ (g : Sample) (c : Nat), 14 ≤ c → parseGenotype (g ++ [c]) = parseGenotype g) ∧
    (∀ g : Sample, parseGenotype g = decodeRef g) := by
  refine ⟨rfl, ?_, ?_, ?_, ?_, ?_⟩
  · intro g c hc h
    rw [parseGenotype_concat]
    apply parseStep_digit_accept (by omega)
    rcases h with h | ⟨pre, o, h⟩
    · exact Or.inl ((backType_eq_none_iff _).2 h)
    · right; rw [h, backType_concat]; rfl
  · intro g c h₁ h₂ ⟨pre, d, h⟩
    have hb : backType (parseGenotype g) = some .NUMBER := by
      rw [h, backType_concat]; rfl
    refine ⟨castOperator (c - 10), operatorOfCode_of_mid h₁ (by omega), ?_, ?_⟩
    · interval_cases c <;> rfl
    · rw [parseGenotype_concat]
      exact parseStep_operator_accept h₁ (by omega) hb
  · intro g c hA hB
    rw [parseGenotype_concat]
    rcases parseStep_cases (parseGenotype g) c with e | ⟨hc, hb, -⟩ | ⟨h₁, h₂, hb, -⟩
    · exact e
    · exfalso
      apply hA
      refine ⟨by omega, ?_⟩
      rcases hb with hb | hb
      · exact Or.inl ((backType_eq_none_iff _).1 hb)
      · exact Or.inr (exists_operator_of_backType_operator hb)
    · exfalso
      exact hB ⟨h₁, by omega, exists_digit_of_backType_number hb⟩
  · intro g c hc
    rw [parseGenotype_concat]
    exact parseStep_invalid hc
  · intro g
    unfold parseGenotype decodeRef
    rw [foldl_parseStep_eq_decodeFrom, backType_nil, List.nil_append]

/-- Witness of C3: the three rules at `[] ++ [4]`, `[4] ++ [10]`,
`[4, 10] ++ [10]` and `[4] ++ [15]`. -/
theorem parseGenotype_is_reference_filter_witness :
    parseGenotype ([] ++ [4]) = parseGenotype [] ++ [Gene.number 4] ∧
    (∃ o, operatorOfCode 10 = some o ∧ o.toNat = 10 - 10 ∧
        parseGenotype ([4] ++ [10]) = parseGenotype [4] ++ [Gene.operator o]) ∧
    parseGenotype ([4, 10] ++ [10]) = parseGenotype [4, 10] ∧
    parseGenotype ([4] ++ [15]) = parseGenotype [4] :=
  ⟨parseGenotype_is_reference_filter.2.1 [] 4 (by decide) (Or.inl rfl),
   parseGenotype_is_reference_filter.2.2.1 [4] 10 (by decide) (by decide)
     ⟨[], 4, by decide⟩,
   parseGenotype_is_reference_filter.2.2.2.1 [4, 10] 10 (by rintro ⟨h, -⟩; omega)
     (by
      rintro ⟨-, -, pre, d, h⟩
      have h' : (parseGenotype [4, 10]).getLast? = some (Gene.number d) := by
        rw [h]; simp
      have h2 : (parseGenotype [4, 10]).getLast? = some (Gene.operator .PLUS) := by decide
      rw [h2] at h'
      cases h'),
   parseGenotype_is_reference_filter.2.2.2.2.1 [4] 15 (by decide)⟩

/-- C4: decoding is idempotent on alternating input.  With `encode (Digit d) = d`
and `encode (Operator k) = 10 + k`, every token sequence that alternates,
starts with a digit token and holds digits 0..9 is decoded back from its codes;
in particular re-decoding the codes of a decoded genotype changes nothing. -/
theorem parseGenotype_encode_roundtrip :
    (∀ ts : Genotype, Alternates ts → StartsWithDigit ts → DigitsInRange ts →
        parseGenotype (ts.map encode) = ts) ∧
    (∀ g : Sample, parseGenotype ((parseGenotype g).map encode) = parseGenotype g) :=
  ⟨parseGenotype_map_encode,
   fun g => parseGenotype_map_encode _ (parseGenotype_alternates g)
     (parseGenotype_startsWithDigit g) (parseGenotype_digitsInRange g)⟩

/-- Witness of C4 at the sequence `[Digit 4, plus, Digit 2]`. -/
theorem parseGenotype_encode_roundtrip_witness :
    parseGenotype ([Gene.number 4, Gene.operator .PLUS, Gene.number 2].map encode) =
      [Gene.number 4, Gene.operator .PLUS, Gene.number 2] :=
  parseGenotype_encode_roundtrip.1 [Gene.number 4, Gene.operator .PLUS, Gene.number 2]
    (by unfold Alternates; simp [Gene.m_type])
    (by intro t ht; simp at ht; subst ht; rfl)
    (by
      intro t ht d hd
      subst hd
      simp at ht
      omega)

/-! ## Lemmas on the evaluator -/

theorem objectiveStep_operator (st : Dbl × Option Operator) (o : Operator) :
    objectiveStep st (Gene.operator o) = .ok (st.1, some o) := rfl

theorem objectiveStep_number (acc : Dbl) (o : Operator) (n : Nat) :
    objectiveStep (acc, some o) (Gene.number n) = .ok (applyOperator o acc n, some o) := rfl

theorem foldlM_objectiveStep_nil (st : Dbl × Option Operator) :
    List.foldlM objectiveStep st [] = .ok st := rfl

theorem foldlM_objectiveStep_cons (st : Dbl × Option Operator) (t : Gene) (rest : Genotype) :
    List.foldlM objectiveStep st (t :: rest) =
      match objectiveStep st t with
      | .error fault => .error fault
      | .ok next => List.foldlM objectiveStep next rest := by
  rw [List.foldlM_cons]
  cases objectiveStep st t <;> rfl

theorem foldlM_objectiveStep_append (st : Dbl × Option Operator) (l₁ l₂ : Genotype) :
    List.foldlM objectiveStep st (l₁ ++ l₂) =
      match List.foldlM objectiveStep st l₁ with
      | .error fault => .error fault
      | .ok next => List.foldlM objectiveStep next l₂ := by
  rw [List.foldlM_append]
  cases List.foldlM objectiveStep st l₁ <;> rfl

/-- Once `lastOper` has been assigned the loop runs to its end. -/
theorem foldlM_objectiveStep_some (rest : Genotype) :
    ∀ (acc : Dbl) (o : Operator),
      ∃ v o', List.foldlM objectiveStep (acc, some o) rest = .ok (v, some o') := by
  induction rest with
  | nil => intro acc o; exact ⟨acc, o, rfl⟩
  | cons t rest ih =>
    intro acc o
    rw [foldlM_objectiveStep_cons]
    cases t with
    | number n => rw [objectiveStep_number]; exact ih _ _
    | operator k => rw [objectiveStep_operator]; exact ih _ _

/-- The loop runs to its end from the initial state when the first gene it
meets is an operator. -/
theorem foldlM_objectiveStep_none (rest : Genotype) (acc : Dbl)
    (h : ∀ t ∈ rest.head?, t.m_type = GeneType.OPERATOR) :
    ∃ st, List.foldlM objectiveStep (acc, none) rest = .ok st := by
  cases rest with
  | nil => exact ⟨_, rfl⟩
  | cons t rest =>
    rw [foldlM_objectiveStep_cons]
    cases t with
    | number n =>
      have := h (Gene.number n) (by simp)
      simp [Gene.m_type] at this
    | operator k =>
      rw [objectiveStep_operator]
      obtain ⟨v, o', hv⟩ := foldlM_objectiveStep_some rest acc k
      exact ⟨_, hv⟩

theorem objective_number_cons (n : Nat) (rest : Genotype) :
    objective (Gene.number n :: rest) =
      match List.foldlM objectiveStep (Dbl.ofNat n, none) rest with
      | .error fault => .error fault
      | .ok st => .ok st.1 := by
  show Except.map Prod.fst (List.foldlM objectiveStep (Dbl.ofNat n, none) rest) = _
  cases List.foldlM objectiveStep (Dbl.ofNat n, none) rest <;> rfl

/-- On a sequence that alternates and starts with a digit the evaluator
returns a value, and the loop state it ends in is known. -/
theorem objective_ok_of_alternates (ts : Genotype) (hne : ts ≠ [])
    (ha : Alternates ts) (hs : StartsWithDigit ts) :
    ∃ n rest st, ts = Gene.number n :: rest ∧
      List.foldlM objectiveStep (Dbl.ofNat n, none) rest = .ok st ∧
      objective ts = .ok st.1 := by
  cases ts with
  | nil => exact absurd rfl hne
  | cons t rest =>
    cases t with
    | operator k =>
      have := hs (Gene.operator k) (by simp)
      simp [Gene.m_type] at this
    | number n =>
      have hhead : ∀ t ∈ rest.head?, t.m_type = GeneType.OPERATOR := by
        intro t ht
        cases rest with
        | nil => cases ht
        | cons u rest' =>
          simp only [List.head?_cons, Option.mem_def, Option.some.injEq] at ht
          subst ht
          unfold Alternates at ha
          have hr := (List.chain'_cons.1 ha).1
          cases u with
          | number m => simp [Gene.m_type] at hr
          | operator k => rfl
      obtain ⟨st, hst⟩ := foldlM_objectiveStep_none rest (Dbl.ofNat n) hhead
      refine ⟨n, rest, st, rfl, hst, ?_⟩
      rw [objective_number_cons, hst]

theorem applyOperator_fin (o : Operator) (q : ℚ) (d : Nat)
    (hd : o = Operator.DIVIDE → d ≠ 0) :
    applyOperator o (Dbl.fin q) d = Dbl.fin (exactApply o q d) := by
  cases o with
  | PLUS => rfl
  | MINUS => simp [applyOperator, exactApply, Dbl.sub, Dbl.add, Dbl.neg, Dbl.ofNat, sub_eq_add_neg]
  | MULTIPLY => rfl
  | DIVIDE =>
    have h : (d : ℚ) ≠ 0 := by exact_mod_cast hd rfl
    simp [applyOperator, exactApply, Dbl.div, Dbl.ofNat, h]

theorem objective_snoc (ts : Genotype) (o : Operator) (d : Nat) (hne : ts ≠ [])
    (ha : Alternates ts) (hs : StartsWithDigit ts) :
    ∃ v, objective ts = .ok v ∧
      objective (ts ++ [Gene.operator o, Gene.number d]) = .ok (applyOperator o v d) := by
  obtain ⟨n, rest, st, hts, hst, hobj⟩ := objective_ok_of_alternates ts hne ha hs
  refine ⟨st.1, hobj, ?_⟩
  rw [hts, List.cons_append, objective_number_cons, foldlM_objectiveStep_append, hst]
  simp only [foldlM_objectiveStep_cons, objectiveStep_operator, objectiveStep_number,
    foldlM_objectiveStep_nil]

/-! ## Claims on the evaluator -/

/-- C5: `objective` is the strict left-to-right fold without precedence.  The
empty sequence evaluates to 0 and `[Digit d]` to `d`; for a non-empty
alternating sequence `ts` that starts and ends with a digit token, an operator
`o` and a digit `d` (non-zero when `o` is divide), `ts` evaluates to some `v`
and `ts ++ [Operator o, Digit d]` evaluates to `v o d`, which for a finite
`v = q` is the exact rational `q o d`.  The listed values: `6+3 = 9`,
`6-3 = 3`, `6*3 = 18`, `6/3 = 2` and `2+3*4 = 20`. -/
theorem objective_left_to_right :
    objective [] = .ok (Dbl.fin 0) ∧
    (∀ d : Nat, objective [Gene.number d] = .ok (Dbl.fin d)) ∧
    (∀ (ts : Genotype) (o : Operator) (d : Nat),
        ts ≠ [] → Alternates ts → StartsWithDigit ts → EndsWithDigit ts →
        (o = Operator.DIVIDE → d ≠ 0) →
        ∃ v, objective ts = .ok v ∧
          objective (ts ++ [Gene.operator o, Gene.number d]) = .ok (applyOperator o v d) ∧
          ∀ q : ℚ, v = Dbl.fin q →
            objective (ts ++ [Gene.operator o, Gene.number d]) =
              .ok (Dbl.fin (exactApply o q d))) ∧
    objective [Gene.number 6, Gene.operator .PLUS, Gene.number 3] = .ok (Dbl.fin 9) ∧
    objective [Gene.number 6, Gene.operator .MINUS, Gene.number 3] = .ok (Dbl.fin 3) ∧
    objective [Gene.number 6, Gene.operator .MULTIPLY, Gene.number 3] = .ok (Dbl.fin 18) ∧
    objective [Gene.number 6, Gene.operator .DIVIDE, Gene.number 3] = .ok (Dbl.fin 2) ∧
    objective [Gene.number 2, Gene.operator .PLUS, Gene.number 3,
        Gene.operator .MULTIPLY, Gene.number 4] = .ok (Dbl.fin 20) := by
  refine ⟨rfl, fun d => rfl, ?_, ?_, ?_, ?_, ?_, ?_⟩
  · intro ts o d hne ha hs _ hd
    obtain ⟨v, hv, hsnoc⟩ := objective_snoc ts o d hne ha hs
    refine ⟨v, hv, hsnoc, ?_⟩
    intro q hq
    rw [hsnoc, hq, applyOperator_fin o q d hd]
  all_goals
    simp only [objective_number_cons, foldlM_objectiveStep_cons, objectiveStep_operator,
      objectiveStep_number, foldlM_objectiveStep_nil, applyOperator, Dbl.add, Dbl.sub,
      Dbl.neg, Dbl.mul, Dbl.div, Dbl.ofNat]
    norm_num

/-- Witness of C5: `[2, +, 3]` extended by `* 4` evaluates to `(2 + 3) * 4`. -/
theorem objective_left_to_right_witness :
    ∃ v, objective [Gene.number 2, Gene.operator .PLUS, Gene.number 3] = .ok v ∧
      objective ([Gene.number 2, Gene.operator .PLUS, Gene.number 3] ++
          [Gene.operator .MULTIPLY, Gene.number 4]) =
        .ok (applyOperator .MULTIPLY v 4) ∧
      ∀ q : ℚ, v = Dbl.fin q →
        objective ([Gene.number 2, Gene.operator .PLUS, Gene.number 3] ++
            [Gene.operator .MULTIPLY, Gene.number 4]) =
          .ok (Dbl.fin (exactApply .MULTIPLY q 4)) :=
  objective_left_to_right.2.2.1
    [Gene.number 2, Gene.operator .PLUS, Gene.number 3] .MULTIPLY 4
    (by simp)
    (by unfold Alternates; simp [Gene.m_type])
    (by intro t ht; simp at ht; subst ht; rfl)
    (by intro t ht; simp at ht; subst ht; rfl)
    (by intro h; cases h)

/-! ## Lemmas on the fitness function -/

theorem fitness_zero (target : Dbl) : fitness (Dbl.fin 0) target = Dbl.fin 0 := by
  simp [fitness, Dbl.eq]

theorem fitness_nan (target : Dbl) : fitness Dbl.nan target = Dbl.fin 0 := by
  simp [fitness, Dbl.eq, Dbl.ne]

theorem fitness_viable (value target : Dbl) (h0 : value ≠ Dbl.fin 0) (hn : value ≠ Dbl.nan) :
    fitness value target = Dbl.div (Dbl.fin 1) (Dbl.fabs (Dbl.sub target value)) := by
  cases value with
  | nan => exact absurd rfl hn
  | pinf => simp [fitness, Dbl.eq, Dbl.ne]
  | ninf => simp [fitness, Dbl.eq, Dbl.ne]
  | fin q =>
    have hq : q ≠ 0 := fun h => h0 (by rw [h])
    simp [fitness, Dbl.eq, Dbl.ne, hq]

theorem fitness_fin_ne (v t : ℚ) (h0 : v ≠ 0) (hne : v ≠ t) :
    fitness (Dbl.fin v) (Dbl.fin t) = Dbl.fin (1 / |t - v|) := by
  rw [fitness_viable _ _ (by simpa using h0) (by simp)]
  have h : |t + -v| ≠ 0 := by
    rw [← sub_eq_add_neg]
    exact abs_ne_zero.2 (sub_ne_zero.2 (Ne.symm hne))
  simp [Dbl.sub, Dbl.neg, Dbl.add, Dbl.fabs, Dbl.div, h, sub_eq_add_neg]

theorem fitness_fin_self (t : ℚ) (h0 : t ≠ 0) :
    fitness (Dbl.fin t) (Dbl.fin t) = Dbl.pinf := by
  rw [fitness_viable _ _ (by simpa using h0) (by simp)]
  simp [Dbl.sub, Dbl.neg, Dbl.add, Dbl.fabs, Dbl.div]

theorem fitness_not_finite (v : Dbl) (t : ℚ) (hv : ∀ q, v ≠ Dbl.fin q) :
    fitness v (Dbl.fin t) = Dbl.fin 0 := by
  cases v with
  | fin q => exact absurd rfl (hv q)
  | nan => exact fitness_nan _
  | pinf => simp [fitness, Dbl.eq, Dbl.ne, Dbl.sub, Dbl.neg, Dbl.add, Dbl.fabs, Dbl.div]
  | ninf => simp [fitness, Dbl.eq, Dbl.ne, Dbl.sub, Dbl.neg, Dbl.add, Dbl.fabs, Dbl.div]

/-- A division by the digit 0 never gives a finite value. -/
theorem applyOperator_divide_zero (v : Dbl) :
    ∀ q, applyOperator .DIVIDE v 0 ≠ Dbl.fin q := by
  intro q
  cases v with
  | fin a =>
    simp only [applyOperator, Dbl.ofNat, Dbl.div, Nat.cast_zero, if_true]
    split_ifs <;> simp
  | pinf => simp [applyOperator, Dbl.ofNat, Dbl.div]
  | ninf => simp [applyOperator, Dbl.ofNat, Dbl.div]
  | nan => simp [applyOperator, Dbl.div]

/-- No operator with a digit brings an infinity or NaN back to a finite value. -/
theorem applyOperator_not_finite (o : Operator) (v : Dbl) (d : Nat)
    (hv : ∀ q, v ≠ Dbl.fin q) : ∀ q, applyOperator o v d ≠ Dbl.fin q := by
  intro q
  cases v with
  | fin a => exact absurd rfl (hv a)
  | pinf =>
    cases o <;>
      simp only [applyOperator, Dbl.ofNat, Dbl.add, Dbl.sub, Dbl.neg, Dbl.mul, Dbl.div,
        Dbl.signedInf] <;>
      (try split_ifs) <;> simp
  | ninf =>
    cases o <;>
      simp only [applyOperator, Dbl.ofNat, Dbl.add, Dbl.sub, Dbl.neg, Dbl.mul, Dbl.div,
        Dbl.signedInf] <;>
      (try split_ifs) <;> simp
  | nan =>
    cases o <;> simp [applyOperator, Dbl.add, Dbl.sub, Dbl.mul, Dbl.div]

theorem foldlM_objectiveStep_not_finite (rest : Genotype) :
    ∀ (acc : Dbl) (o : Operator), (∀ q, acc ≠ Dbl.fin q) →
      ∃ v o', List.foldlM objectiveStep (acc, some o) rest = .ok (v, some o') ∧
        ∀ q, v ≠ Dbl.fin q := by
  induction rest with
  | nil => intro acc o h; exact ⟨acc, o, rfl, h⟩
  | cons t rest ih =>
    intro acc o h
    rw [foldlM_objectiveStep_cons]
    cases t with
    | number n =>
      rw [objectiveStep_number]
      exact ih _ _ (applyOperator_not_finite o acc n h)
    | operator k =>
      rw [objectiveStep_operator]
      exact ih _ _ h

/-- An alternating, digit-first sequence that divides by the digit 0 somewhere
evaluates to an infinity or NaN. -/
theorem objective_divide_zero (ts pre post : Genotype) (ha : Alternates ts)
    (hs : StartsWithDigit ts)
    (hts : ts = pre ++ [Gene.operator .DIVIDE, Gene.number 0] ++ post) :
    ∃ v, objective ts = .ok v ∧ ∀ q, v ≠ Dbl.fin q := by
  have hpre : pre ≠ [] := by
    intro hnil
    have := hs (Gene.operator .DIVIDE) (by rw [hts, hnil]; simp)
    simp [Gene.m_type] at this
  have hapre : Alternates pre := by
    unfold Alternates at ha ⊢
    rw [hts, List.append_assoc] at ha
    exact (List.chain'_append.1 ha).1
  have hspre : StartsWithDigit pre := by
    intro t ht
    apply hs t
    rw [hts]
    cases pre with
    | nil => exact absurd rfl hpre
    | cons a l => simpa using ht
  obtain ⟨n, pre', st, hp, hst, -⟩ := objective_ok_of_alternates pre hpre hapre hspre
  obtain ⟨v, o', hv, hnf⟩ := foldlM_objectiveStep_not_finite post
    (applyOperator .DIVIDE st.1 0) .DIVIDE (applyOperator_divide_zero st.1)
  refine ⟨v, ?_, hnf⟩
  rw [hts, hp, List.append_assoc, List.cons_append, objective_number_cons,
    foldlM_objectiveStep_append, hst]
  simp only [List.cons_append, List.nil_append, foldlM_objectiveStep_cons,
    objectiveStep_operator, objectiveStep_number, hv]

/-! ## Claims on the fitness function -/

theorem parseGenotype_4_10_2 :
    parseGenotype [4, 10, 2] = [Gene.number 4, Gene.operator .PLUS, Gene.number 2] := by
  decide

theorem objective_4_plus_2 :
    objective [Gene.number 4, Gene.operator .PLUS, Gene.number 2] = .ok (Dbl.fin 6) := by
  simp only [objective_number_cons, foldlM_objectiveStep_cons, objectiveStep_operator,
    objectiveStep_number, foldlM_objectiveStep_nil, applyOperator, Dbl.add, Dbl.ofNat]
  norm_num

/-- C6, as stated, fails for the target 0 and for an infinite target.  The
genotype `[0]` evaluates to 0, equal to the target 0, and its fitness is 0;
the genotype `[4, 13, 0]` evaluates to `4 / 0 = +∞`, equal to the target
`+∞`, and its fitness is NaN. -/
theorem fitness_exact_match_not_infinite :
    (objective (parseGenotype [0]) = .ok (Dbl.fin 0) ∧
      fitnessValue [0] (Dbl.fin 0) = .ok (Dbl.fin 0) ∧
      fitness (Dbl.fin 0) (Dbl.fin 0) ≠ Dbl.pinf) ∧
    (objective (parseGenotype [4, 13, 0]) = .ok Dbl.pinf ∧
      fitnessValue [4, 13, 0] Dbl.pinf = .ok Dbl.nan ∧
      fitness Dbl.pinf Dbl.pinf ≠ Dbl.pinf) := by
  have h0 : parseGenotype [0] = [Gene.number 0] := by decide
  have h1 : parseGenotype [4, 13, 0] =
      [Gene.number 4, Gene.operator .DIVIDE, Gene.number 0] := by decide
  have e0 : objective [Gene.number 0] = .ok (Dbl.fin 0) := by
    simp only [objective_number_cons, foldlM_objectiveStep_nil, Dbl.ofNat]
    norm_num
  have e1 : objective [Gene.number 4, Gene.operator .DIVIDE, Gene.number 0] =
      .ok Dbl.pinf := by
    simp only [objective_number_cons, foldlM_objectiveStep_cons, objectiveStep_operator,
      objectiveStep_number, foldlM_objectiveStep_nil, applyOperator, Dbl.div, Dbl.ofNat]
    norm_num
  have f1 : fitness Dbl.pinf Dbl.pinf = Dbl.nan := by
    simp [fitness, Dbl.eq, Dbl.ne, Dbl.sub, Dbl.neg, Dbl.add, Dbl.fabs, Dbl.div]
  refine ⟨⟨?_, ?_, ?_⟩, ?_, ?_, ?_⟩
  · rw [h0, e0]
  · simp [fitnessValue, h0, e0, fitness_zero]
  · rw [fitness_zero]; simp
  · rw [h1, e1]
  · simp [fitnessValue, h1, e1, f1]
  · rw [f1]; simp

/-- C6, amended: for every genotype and every finite non-zero target, if the
value obtained by decoding the genotype and evaluating it equals the target
exactly, then its fitness is `+∞`.  The case of the specification: `[4, 10, 2]`
decodes to `[Digit 4, plus, Digit 2]`, evaluates to 6, and has fitness `+∞`
against the target 6. -/
theorem fitness_exact_match_infinite :
    (∀ (g : Sample) (t : ℚ), t ≠ 0 → objective (parseGenotype g) = .ok (Dbl.fin t) →
        fitnessValue g (Dbl.fin t) = .ok Dbl.pinf) ∧
    parseGenotype [4, 10, 2] = [Gene.number 4, Gene.operator .PLUS, Gene.number 2] ∧
    objective [Gene.number 4, Gene.operator .PLUS, Gene.number 2] = .ok (Dbl.fin 6) ∧
    fitness (Dbl.fin 6) (Dbl.fin 6) = Dbl.pinf := by
  refine ⟨?_, parseGenotype_4_10_2, objective_4_plus_2, fitness_fin_self 6 (by norm_num)⟩
  intro g t ht h
  unfold fitnessValue
  rw [h]
  simp only [fitness_fin_self t ht]

/-- Witness of the amended C6 at the genotype `[4, 10, 2]` and the target 6. -/
theorem fitness_exact_match_infinite_witness :
    fitnessValue [4, 10, 2] (Dbl.fin 6) = .ok Dbl.pinf :=
  fitness_exact_match_infinite.1 [4, 10, 2] 6 (by norm_num)
    (by rw [parseGenotype_4_10_2, objective_4_plus_2])

/-- C8: for every genotype whose decoded sequence contains a divide operator
followed by the digit 0, and every finite target, the decoded sequence
evaluates to a value whose fitness is 0 and is not `+∞`, whatever tokens
follow the division. -/
theorem fitness_divide_by_zero (g : Sample) (pre post : Genotype) (t : ℚ)
    (h : parseGenotype g = pre ++ [Gene.operator .DIVIDE, Gene.number 0] ++ post) :
    ∃ v, objective (parseGenotype g) = .ok v ∧
      fitness v (Dbl.fin t) = Dbl.fin 0 ∧ fitness v (Dbl.fin t) ≠ Dbl.pinf ∧
      fitnessValue g (Dbl.fin t) = .ok (Dbl.fin 0) := by
  obtain ⟨v, hv, hnf⟩ := objective_divide_zero (parseGenotype g) pre post
    (parseGenotype_alternates g) (parseGenotype_startsWithDigit g) h
  have hf := fitness_not_finite v t hnf
  refine ⟨v, hv, hf, ?_, ?_⟩
  · rw [hf]; simp
  · unfold fitnessValue
    rw [hv]
    simp only [hf]

/-- Witness of C8 at the genotype `[4, 13, 0, 10, 5]`, that is `4 / 0 + 5`,
and the target 42. -/
theorem fitness_divide_by_zero_witness :
    ∃ v, objective (parseGenotype [4, 13, 0, 10, 5]) = .ok v ∧
      fitness v (Dbl.fin 42) = Dbl.fin 0 ∧ fitness v (Dbl.fin 42) ≠ Dbl.pinf ∧
      fitnessValue [4, 13, 0, 10, 5] (Dbl.fin 42) = .ok (Dbl.fin 0) :=
  fitness_divide_by_zero [4, 13, 0, 10, 5] [Gene.number 4]
    [Gene.operator .PLUS, Gene.number 5] 42 (by decide)

/-! ## Claims on the selection engine -/

/-- C9: for every scored population and every negative count, `select` fails
(the bare `throw;` of line 137), and it does so before any random draw: the
generator is handed back in the state it was received, nothing consumed. -/
theorem select_negative_count (map : Multimap) (count : Int) (generator : Generator)
    (h : count < 0) :
    select map count generator = (.error .bareThrow, generator) ∧
      (select map count generator).2.consumed = generator.consumed := by
  unfold select
  rw [if_pos h]
  exact ⟨rfl, rfl⟩

/-- Witness of C9: the request `select scored (-1)` of the specification, on a
one-entry population. -/
theorem select_negative_count_witness :
    select [(Dbl.fin 1, [4, 10, 2])] (-1) { stream := fun _ => 0, consumed := 0 } =
        (.error .bareThrow, { stream := fun _ => 0, consumed := 0 }) ∧
      (select [(Dbl.fin 1, [4, 10, 2])] (-1) { stream := fun _ => 0, consumed := 0 }).2.consumed
        = 0 :=
  select_negative_count [(Dbl.fin 1, [4, 10, 2])] (-1) { stream := fun _ => 0, consumed := 0 }
    (by decide)

/-! ## Lemmas on the generation loop -/

/-- Decoding followed by evaluation always returns a value. -/
theorem objective_parseGenotype_ok (g : Sample) :
    ∃ v, objective (parseGenotype g) = .ok v := by
  by_cases hne : parseGenotype g = []
  · rw [hne]; exact ⟨_, rfl⟩
  · obtain ⟨n, rest, st, -, -, h⟩ := objective_ok_of_alternates (parseGenotype g) hne
      (parseGenotype_alternates g) (parseGenotype_startsWithDigit g)
    exact ⟨_, h⟩

theorem Dbl.eq_pinf_iff (a : Dbl) : Dbl.eq a Dbl.pinf = true ↔ a = Dbl.pinf := by
  cases a <;> simp [Dbl.eq]

/-- A solved generation prints "Found solution" and changes nothing else. -/
theorem generation_solved (samples : List Sample) (generator : Generator)
    (printed : List Printed) (scores : Multimap) (last : Dbl × Sample) (value : Dbl)
    (hscores : scorePopulation samples = .ok scores)
    (hlast : scores.getLast? = some last) (hinf : last.1 = Dbl.pinf)
    (hvalue : objective (parseGenotype last.2) = .ok value) :
    generation { samples := samples, generator := generator, printed := printed } =
      .ok { samples := samples, generator := generator,
            printed := printed ++ [Printed.foundSolution value] } := by
  unfold generation
  simp only [hscores, hlast, hvalue]
  rw [if_pos ((Dbl.eq_pinf_iff _).2 hinf)]

/-- From a solved generation on, every further generation is solved again. -/
theorem generations_solved (samples : List Sample) (generator : Generator)
    (scores : Multimap) (last : Dbl × Sample) (value : Dbl)
    (hscores : scorePopulation samples = .ok scores)
    (hlast : scores.getLast? = some last) (hinf : last.1 = Dbl.pinf)
    (hvalue : objective (parseGenotype last.2) = .ok value) :
    ∀ (budget : Nat) (printed : List Printed),
      generations budget { samples := samples, generator := generator, printed := printed } =
        .ok { samples := samples, generator := generator,
              printed := printed ++ List.replicate budget (Printed.foundSolution value) } := by
  intro budget
  induction budget with
  | zero => intro printed; simp [generations]
  | succ k ih =>
    intro printed
    unfold generations
    rw [generation_solved samples generator printed scores last value hscores hlast hinf
      hvalue]
    simp only [ih, List.replicate_succ, List.append_assoc, List.singleton_append]

/-- Every generation that completes prints exactly one line. -/
theorem generation_printed_length (st next : Driver) (h : generation st = .ok next) :
    next.printed.length = st.printed.length + 1 := by
  unfold generation at h
  split at h
  · cases h
  · split at h
    · cases h
    · split at h
      · cases h
      · split_ifs at h
        · cases h; simp
        · split at h
          · cases h
          · cases h; simp

theorem generations_printed_length (budget : Nat) :
    ∀ st final : Driver, generations budget st = .ok final →
      final.printed.length = st.printed.length + budget := by
  induction budget with
  | zero => intro st final h; cases h; rfl
  | succ k ih =>
    intro st final h
    unfold generations at h
    split at h
    · cases h
    · rename_i next hnext
      rw [ih next final h, generation_printed_length st next hnext]
      omega

theorem scorePopulation_one_and_six_times_seven :
    scorePopulation [[1], [6, 12, 7]] =
      .ok [(Dbl.fin (1 / 41), [1]), (Dbl.pinf, [6, 12, 7])] := by
  have p1 : parseGenotype [1] = [Gene.number 1] := by decide
  have p2 : parseGenotype [6, 12, 7] =
      [Gene.number 6, Gene.operator .MULTIPLY, Gene.number 7] := by decide
  have e1 : objective [Gene.number 1] = .ok (Dbl.fin 1) := by
    simp only [objective_number_cons, foldlM_objectiveStep_nil, Dbl.ofNat]
    norm_num
  have e2 : objective [Gene.number 6, Gene.operator .MULTIPLY, Gene.number 7] =
      .ok (Dbl.fin 42) := by
    simp only [objective_number_cons, foldlM_objectiveStep_cons, objectiveStep_operator,
      objectiveStep_number, foldlM_objectiveStep_nil, applyOperator, Dbl.mul, Dbl.ofNat]
    norm_num
  have f1 : fitnessValue [1] TARGET_NUMBER = .ok (Dbl.fin (1 / 41)) := by
    unfold fitnessValue TARGET_NUMBER
    rw [p1, e1]
    simp only [fitness_fin_ne 1 42 (by norm_num) (by norm_num)]
    norm_num [abs_of_pos]
  have f2 : fitnessValue [6, 12, 7] TARGET_NUMBER = .ok Dbl.pinf := by
    unfold fitnessValue TARGET_NUMBER
    rw [p2, e2]
    simp only [fitness_fin_self 42 (by norm_num)]
  have s1 : scoreStep [] [1] = .ok [(Dbl.fin (1 / 41), [1])] := by
    unfold scoreStep
    rw [f1]
    rfl
  have s2 : scoreStep [(Dbl.fin (1 / 41), [1])] [6, 12, 7] =
      .ok [(Dbl.fin (1 / 41), [1]), (Dbl.pinf, [6, 12, 7])] := by
    unfold scoreStep
    rw [f2]
    simp [Multimap.insert, Dbl.lt]
  unfold scorePopulation
  rw [List.foldlM_cons, s1]
  show List.foldlM scoreStep [(Dbl.fin (1 / 41), [1])] [[6, 12, 7]] = _
  rw [List.foldlM_cons, s2]
  rfl

/-! ## Claims on the evolution driver -/

/-- C10, as stated, fails: from the population `[[1], [6, 12, 7]]` the first
generation is Solved (`6 * 7 = 42`) and prints "Found solution 42", yet the
loop goes on and the run ends with ten such lines, one per generation. -/
theorem generationLoop_continues_after_solved :
    generation { samples := [[1], [6, 12, 7]],
                 generator := { stream := fun _ => 0, consumed := 0 },
                 printed := [] } =
      .ok { samples := [[1], [6, 12, 7]],
            generator := { stream := fun _ => 0, consumed := 0 },
            printed := [Printed.foundSolution (Dbl.fin 42)] } ∧
    generationLoop { samples := [[1], [6, 12, 7]],
                     generator := { stream := fun _ => 0, consumed := 0 },
                     printed := [] } =
      .ok { samples := [[1], [6, 12, 7]],
            generator := { stream := fun _ => 0, consumed := 0 },
            printed := List.replicate 10 (Printed.foundSolution (Dbl.fin 42)) } := by
  have p2 : parseGenotype [6, 12, 7] =
      [Gene.number 6, Gene.operator .MULTIPLY, Gene.number 7] := by decide
  have e2 : objective (parseGenotype [6, 12, 7]) = .ok (Dbl.fin 42) := by
    rw [p2]
    simp only [objective_number_cons, foldlM_objectiveStep_cons, objectiveStep_operator,
      objectiveStep_number, foldlM_objectiveStep_nil, applyOperator, Dbl.mul, Dbl.ofNat]
    norm_num
  exact ⟨generation_solved _ _ _ _ (Dbl.pinf, [6, 12, 7]) (Dbl.fin 42)
      scorePopulation_one_and_six_times_seven rfl rfl e2,
    generations_solved _ _ _ (Dbl.pinf, [6, 12, 7]) (Dbl.fin 42)
      scorePopulation_one_and_six_times_seven rfl rfl e2 10 []⟩

/-- C10, amended: Solved is absorbing but does not stop the loop.  When the
maximum fitness of the current generation is `+∞`, the best genotype
evaluates to some value and, for every number of further generations, each of
them prints "Found solution" with that value while the population and the
generator stay as they are; in particular the ten-generation loop prints ten
such lines.  Whenever the ten-generation loop completes, it has printed
exactly ten lines: exhausting the budget is its only exit. -/
theorem generationLoop_solved_absorbing :
    (∀ (st : Driver) (scores : Multimap) (last : Dbl × Sample),
        scorePopulation st.samples = .ok scores → scores.getLast? = some last →
        last.1 = Dbl.pinf →
        ∃ value, objective (parseGenotype last.2) = .ok value ∧
          (∀ budget : Nat, generations budget st =
            .ok { samples := st.samples, generator := st.generator,
                  printed := st.printed ++
                    List.replicate budget (Printed.foundSolution value) }) ∧
          generationLoop st =
            .ok { samples := st.samples, generator := st.generator,
                  printed := st.printed ++
                    List.replicate 10 (Printed.foundSolution value) }) ∧
    (∀ st final : Driver, generationLoop st = .ok final →
        final.printed.length = st.printed.length + 10) := by
  refine ⟨?_, fun st final h => generations_printed_length 10 st final h⟩
  intro st scores last hscores hlast hinf
  obtain ⟨value, hvalue⟩ := objective_parseGenotype_ok last.2
  have key := generations_solved st.samples st.generator scores last value hscores hlast
    hinf hvalue
  exact ⟨value, hvalue, fun budget => key budget st.printed, key 10 st.printed⟩

/-- Witness of the amended C10 at the population `[[1], [6, 12, 7]]`: the best
genotype evaluates, every further generation reports it again, and the
completed loop has printed ten lines. -/
theorem generationLoop_solved_absorbing_witness :
    (∃ value, objective (parseGenotype [6, 12, 7]) = .ok value ∧
      (∀ budget : Nat,
        generations budget { samples := [[1], [6, 12, 7]],
                             generator := { stream := fun _ => 0, consumed := 0 },
                             printed := [] } =
          .ok { samples := [[1], [6, 12, 7]],
                generator := { stream := fun _ => 0, consumed := 0 },
                printed := [] ++ List.replicate budget (Printed.foundSolution value) }) ∧
      generationLoop { samples := [[1], [6, 12, 7]],
                       generator := { stream := fun _ => 0, consumed := 0 },
                       printed := [] } =
        .ok { samples := [[1], [6, 12, 7]],
              generator := { stream := fun _ => 0, consumed := 0 },
              printed := [] ++ List.replicate 10 (Printed.foundSolution value) }) ∧
    (List.replicate 10 (Printed.foundSolution (Dbl.fin 42))).length =
      ([] : List Printed).length + 10 :=
  ⟨generationLoop_solved_absorbing.1
    { samples := [[1], [6, 12, 7]],
      generator := { stream := fun _ => 0, consumed := 0 },
      printed := [] }
    [(Dbl.fin (1 / 41), [1]), (Dbl.pinf, [6, 12, 7])] (Dbl.pinf, [6, 12, 7])
    scorePopulation_one_and_six_times_seven rfl rfl,
   generationLoop_solved_absorbing.2
    { samples := [[1], [6, 12, 7]],
      generator := { stream := fun _ => 0, consumed := 0 },
      printed := [] }
    { samples := [[1], [6, 12, 7]],
      generator := { stream := fun _ => 0, consumed := 0 },
      printed := List.replicate 10 (Printed.foundSolution (Dbl.fin 42)) }
    (generations_solved _ _ _ (Dbl.pinf, [6, 12, 7]) (Dbl.fin 42)
      scorePopulation_one_and_six_times_seven rfl rfl
      (by
        have p2 : parseGenotype [6, 12, 7] =
            [Gene.number 6, Gene.operator .MULTIPLY, Gene.number 7] := by decide
        rw [p2]
        simp only [objective_number_cons, foldlM_objectiveStep_cons,
          objectiveStep_operator, objectiveStep_number, foldlM_objectiveStep_nil,
          applyOperator, Dbl.mul, Dbl.ofNat]
        norm_num)
      10 [])⟩

/-! ## Further claims on the fitness function -/

/-- The result of `fabs` is a non-negative finite value, `+∞` or NaN. -/
theorem Dbl.fabs_range (x : Dbl) :
    (∃ q : ℚ, 0 ≤ q ∧ Dbl.fabs x = Dbl.fin q) ∨ Dbl.fabs x = Dbl.pinf ∨
      Dbl.fabs x = Dbl.nan := by
  cases x with
  | fin a => exact Or.inl ⟨|a|, abs_nonneg a, rfl⟩
  | pinf => exact Or.inr (Or.inl rfl)
  | ninf => exact Or.inr (Or.inl rfl)
  | nan => exact Or.inr (Or.inr rfl)

theorem Dbl.one_div_fin (q : ℚ) :
    Dbl.div (Dbl.fin 1) (Dbl.fin q) = if q = 0 then Dbl.pinf else Dbl.fin (1 / q) := by
  by_cases h : q = 0
  · simp [Dbl.div, h]
  · simp [Dbl.div, h]

/-- On the range of `fabs` the map `x ↦ 1.0 / x` reverses the strict order. -/
theorem Dbl.one_div_lt (a b : Dbl)
    (ha : (∃ q : ℚ, 0 ≤ q ∧ a = Dbl.fin q) ∨ a = Dbl.pinf ∨ a = Dbl.nan)
    (hb : (∃ q : ℚ, 0 ≤ q ∧ b = Dbl.fin q) ∨ b = Dbl.pinf ∨ b = Dbl.nan) :
    Dbl.lt (Dbl.div (Dbl.fin 1) b) (Dbl.div (Dbl.fin 1) a) = Dbl.lt a b := by
  rcases ha with ⟨p, hp, rfl⟩ | rfl | rfl <;> rcases hb with ⟨q, hq, rfl⟩ | rfl | rfl
  · rw [Dbl.one_div_fin p, Dbl.one_div_fin q]
    by_cases hp0 : p = 0 <;> by_cases hq0 : q = 0
    · simp [hp0, hq0, Dbl.lt]
    · have hq' : 0 < q := lt_of_le_of_ne hq (Ne.symm hq0)
      simp [hp0, hq0, Dbl.lt, hq']
    · have hp' : 0 < p := lt_of_le_of_ne hp (Ne.symm hp0)
      simp [hp0, hq0, Dbl.lt, not_lt.2 hp]
    · have hp' : 0 < p := lt_of_le_of_ne hp (Ne.symm hp0)
      have hq' : 0 < q := lt_of_le_of_ne hq (Ne.symm hq0)
      simp only [hp0, hq0, if_false, Dbl.lt, one_div]
      rw [decide_eq_decide]
      exact inv_lt_inv₀ hq' hp'
  · rw [Dbl.one_div_fin p]
    by_cases hp0 : p = 0
    · simp [hp0, Dbl.lt, Dbl.div]
    · have hp' : 0 < p := lt_of_le_of_ne hp (Ne.symm hp0)
      simp [hp0, Dbl.lt, Dbl.div, hp']
  · simp [Dbl.lt, Dbl.div]
  · rw [Dbl.one_div_fin q]
    by_cases hq0 : q = 0
    · simp [hq0, Dbl.lt, Dbl.div]
    · simp [hq0, Dbl.lt, Dbl.div, hq]
  · simp [Dbl.lt, Dbl.div]
  · simp [Dbl.lt, Dbl.div]
  · rw [Dbl.one_div_fin q]
    by_cases hq0 : q = 0
    · simp [hq0, Dbl.lt, Dbl.div]
    · simp [hq0, Dbl.lt, Dbl.div]
  · simp [Dbl.lt, Dbl.div]
  · simp [Dbl.lt, Dbl.div]

/-- C13: for every value and every finite target the fitness is 0, a positive
finite number or `+∞`; in particular it compares `>= 0.0`. -/
theorem fitness_nonneg (value : Dbl) (t : ℚ) :
    (fitness value (Dbl.fin t) = Dbl.fin 0 ∨
      (∃ q : ℚ, 0 < q ∧ fitness value (Dbl.fin t) = Dbl.fin q) ∨
      fitness value (Dbl.fin t) = Dbl.pinf) ∧
    Dbl.ge (fitness value (Dbl.fin t)) (Dbl.fin 0) = true := by
  have key : fitness value (Dbl.fin t) = Dbl.fin 0 ∨
      (∃ q : ℚ, 0 < q ∧ fitness value (Dbl.fin t) = Dbl.fin q) ∨
      fitness value (Dbl.fin t) = Dbl.pinf := by
    cases value with
    | nan => exact Or.inl (fitness_nan _)
    | pinf => exact Or.inl (fitness_not_finite _ t (by simp))
    | ninf => exact Or.inl (fitness_not_finite _ t (by simp))
    | fin v =>
      by_cases h0 : v = 0
      · rw [h0]; exact Or.inl (fitness_zero _)
      · by_cases hvt : v = t
        · rw [hvt]; exact Or.inr (Or.inr (fitness_fin_self t (hvt ▸ h0)))
        · refine Or.inr (Or.inl ⟨1 / |t - v|, ?_, fitness_fin_ne v t h0 hvt⟩)
          exact one_div_pos.2 (abs_pos.2 (sub_ne_zero.2 (Ne.symm hvt)))
  refine ⟨key, ?_⟩
  rcases key with h | ⟨q, hq, h⟩ | h
  · rw [h]; simp [Dbl.ge]
  · rw [h]; simp [Dbl.ge, hq.le]
  · rw [h]; rfl

/-- In exact arithmetic (`fitness` is `fitnessWith Dbl.fin`): for every target
and every two viable values (neither 0 nor NaN), the fitness of the first is
greater than the fitness of the second exactly when the first is closer to the
target: the comparison `fitness v1 target > fitness v2 target` has the same
outcome as `fabs (target - v1) < fabs (target - v2)`. -/
theorem fitness_gt_iff_closer (target v1 v2 : Dbl)
    (h1 : v1 ≠ Dbl.fin 0) (h1n : v1 ≠ Dbl.nan) (h2 : v2 ≠ Dbl.fin 0) (h2n : v2 ≠ Dbl.nan) :
    Dbl.gt (fitness v1 target) (fitness v2 target) =
      Dbl.lt (Dbl.fabs (Dbl.sub target v1)) (Dbl.fabs (Dbl.sub target v2)) := by
  rw [fitness_viable v1 target h1 h1n, fitness_viable v2 target h2 h2n]
  unfold Dbl.gt
  have r1 := Dbl.fabs_range (Dbl.sub target v1)
  have r2 := Dbl.fabs_range (Dbl.sub target v2)
  exact Dbl.one_div_lt _ _ r1 r2

/-! ## Further claims on the evaluator -/

theorem objective_concat_operator (ts : Genotype) (o : Operator) (hne : ts ≠ [])
    (ha : Alternates ts) (hs : StartsWithDigit ts) :
    ∃ v, objective ts = .ok v ∧ objective (ts ++ [Gene.operator o]) = .ok v := by
  obtain ⟨n, rest, st, hts, hst, hobj⟩ := objective_ok_of_alternates ts hne ha hs
  refine ⟨st.1, hobj, ?_⟩
  rw [hts, List.cons_append, objective_number_cons, foldlM_objectiveStep_append, hst]
  simp only [foldlM_objectiveStep_cons, objectiveStep_operator, foldlM_objectiveStep_nil]

/-- In an alternating sequence a digit that is not first follows an operator. -/
theorem operator_before_digit (ts pre post : Genotype) (d : Nat) (ha : Alternates ts)
    (h : ts = pre ++ Gene.number d :: post) :
    pre = [] ∨ ∃ pre' o, pre = pre' ++ [Gene.operator o] := by
  rcases List.eq_nil_or_concat pre with hp | ⟨pre', x, hp⟩
  · exact Or.inl hp
  · right
    cases x with
    | operator o => exact ⟨pre', o, by simpa using hp⟩
    | number m =>
      exfalso
      unfold Alternates at ha
      rw [h, hp, List.concat_eq_append, List.append_assoc] at ha
      have h2 := (List.chain'_append.1 ha).2.1
      simp only [List.singleton_append] at h2
      have h3 := (List.chain'_cons.1 h2).1
      exact h3 rfl

/-- C18: for every genotype, `objective` on `parseGenotype g` returns a value
and never reads an unset `m_number` or `lastOper`: the first token is a digit
token and every later digit token comes right after an operator token.  This
fails for arbitrary token sequences: two digit tokens in a row, or a leading
operator token, make `objective` read an unset value. -/
theorem objective_defined_on_decoded :
    (∀ g : Sample, ∃ v, objective (parseGenotype g) = .ok v) ∧
    (∀ g : Sample, parseGenotype g = [] ∨ ∃ d rest, parseGenotype g = Gene.number d :: rest) ∧
    (∀ (g : Sample) (pre post : Genotype) (d : Nat),
        parseGenotype g = pre ++ Gene.number d :: post →
        pre = [] ∨ ∃ pre' o, pre = pre' ++ [Gene.operator o]) ∧
    objective [Gene.number 1, Gene.number 2] = .error .uninitialisedRead ∧
    objective [Gene.operator .PLUS, Gene.number 1] = .error .uninitialisedRead := by
  refine ⟨objective_parseGenotype_ok, ?_, ?_, rfl, rfl⟩
  · intro g
    have h := parseGenotype_startsWithDigit g
    cases hts : parseGenotype g with
    | nil => exact Or.inl rfl
    | cons a rest =>
      right
      rw [hts] at h
      have ha := h a (by simp)
      cases a with
      | number d => exact ⟨d, rest, rfl⟩
      | operator o => simp [Gene.m_type] at ha
  · intro g pre post d h
    exact operator_before_digit _ pre post d (parseGenotype_alternates g) h

/-- Witness of C18 at the genotype `[4, 10, 2]`, whose second digit token
follows the operator token `plus`. -/
theorem objective_defined_on_decoded_witness :
    (∃ v, objective (parseGenotype [4, 10, 2]) = .ok v) ∧
    ([Gene.number 4, Gene.operator Operator.PLUS] = [] ∨
      ∃ pre' o, [Gene.number 4, Gene.operator Operator.PLUS] = pre' ++ [Gene.operator o]) :=
  ⟨objective_defined_on_decoded.1 [4, 10, 2],
   objective_defined_on_decoded.2.2.1 [4, 10, 2]
     [Gene.number 4, Gene.operator Operator.PLUS] [] 2 (by decide)⟩

/-- C19: a trailing operator is ignored by `objective`.  For every non-empty
alternating sequence `ts` that starts with a digit token and every operator
`o`, `ts` evaluates to some `v` and `ts ++ [Operator o]` evaluates to the
same `v`; the genotype `[4, 10]` decodes to `[Digit 4, plus]` and evaluates
to 4. -/
theorem objective_trailing_operator :
    (∀ (ts : Genotype) (o : Operator), ts ≠ [] → StartsWithDigit ts → Alternates ts →
        ∃ v, objective ts = .ok v ∧ objective (ts ++ [Gene.operator o]) = .ok v) ∧
    parseGenotype [4, 10] = [Gene.number 4, Gene.operator .PLUS] ∧
    objective (parseGenotype [4, 10]) = .ok (Dbl.fin 4) := by
  have hp : parseGenotype [4, 10] = [Gene.number 4, Gene.operator .PLUS] := by decide
  refine ⟨fun ts o hne hs ha => objective_concat_operator ts o hne ha hs, hp, ?_⟩
  rw [hp]
  simp only [objective_number_cons, foldlM_objectiveStep_cons, objectiveStep_operator,
    foldlM_objectiveStep_nil, Dbl.ofNat]
  norm_num

/-- Witness of C19: `[Digit 4, plus, Digit 2]` followed by a trailing
`multiply`. -/
theorem objective_trailing_operator_witness :
    ∃ v, objective [Gene.number 4, Gene.operator .PLUS, Gene.number 2] = .ok v ∧
      objective ([Gene.number 4, Gene.operator .PLUS, Gene.number 2] ++
        [Gene.operator .MULTIPLY]) = .ok v :=
  objective_trailing_operator.1 [Gene.number 4, Gene.operator .PLUS, Gene.number 2]
    .MULTIPLY (by simp)
    (by intro t ht; simp at ht; subst ht; rfl)
    (by unfold Alternates; simp [Gene.m_type])

/-! ## Lemmas on the multimap and the sampling loop -/

theorem Multimap.insert_eq_append (m : Multimap) (v : Dbl × Sample)
    (h : ∀ e ∈ m, Dbl.lt v.1 e.1 = false) : Multimap.insert m v = m ++ [v] := by
  induction m with
  | nil => rfl
  | cons e rest ih =>
    unfold Multimap.insert
    rw [if_neg (by simp [h e (List.mem_cons_self _ _)])]
    rw [ih (fun e' he' => h e' (List.mem_cons_of_mem _ he'))]
    rfl

theorem Multimap.find?_insert_of_not (p : Dbl × Sample → Bool) (m : Multimap)
    (v : Dbl × Sample) (hv : p v = false) :
    (Multimap.insert m v).find? p = m.find? p := by
  induction m with
  | nil => simp [Multimap.insert, hv]
  | cons e rest ih =>
    unfold Multimap.insert
    split_ifs
    · simp [List.find?_cons, hv]
    · simp only [List.find?_cons, ih]

theorem Multimap.insert_perm (m : Multimap) (v : Dbl × Sample) :
    (Multimap.insert m v).Perm (v :: m) := by
  induction m with
  | nil => exact List.Perm.refl _
  | cons e rest ih =>
    unfold Multimap.insert
    split_ifs
    · exact List.Perm.refl _
    · exact (List.Perm.cons e ih).trans (List.Perm.swap v e rest)

theorem foldl_insert_perm (f : Dbl × Sample → Dbl × Sample) (l : Multimap) :
    ∀ acc : Multimap,
      (l.foldl (fun n g => Multimap.insert n (f g)) acc).Perm (acc ++ l.map f) := by
  induction l with
  | nil => intro acc; simp
  | cons e rest ih =>
    intro acc
    rw [List.foldl_cons]
    refine (ih _).trans ?_
    rw [List.map_cons]
    refine (List.Perm.append_right _ (Multimap.insert_perm acc (f e))).trans ?_
    simp only [List.cons_append]
    exact List.perm_middle.symm

theorem foldl_insert_eq_append (f : Dbl × Sample → Dbl × Sample) (l : Multimap) :
    ∀ acc : Multimap,
      (acc ++ l.map f).Pairwise (fun a b => Dbl.lt b.1 a.1 = false) →
      l.foldl (fun n g => Multimap.insert n (f g)) acc = acc ++ l.map f := by
  induction l with
  | nil => intro acc _; simp
  | cons e rest ih =>
    intro acc h
    rw [List.foldl_cons]
    have hins : Multimap.insert acc (f e) = acc ++ [f e] := by
      apply Multimap.insert_eq_append
      intro x hx
      rw [List.map_cons, List.pairwise_append] at h
      exact h.2.2 x hx (f e) (List.mem_cons_self _ _)
    rw [hins, ih]
    · simp
    · simpa using h

/-- The sampling loop when every draw finds an entry: it returns one genotype
per draw, the one found for that draw, and consumes one number per draw. -/
theorem selectLoop_ok (accumulated : Multimap) :
    ∀ (k : Nat) (data : List Sample) (g : Generator),
      (∀ i, i < k → ∃ it, accumulated.find? (reaches (g.stream (g.consumed + i))) = some it) →
      ∃ picks : List Sample,
        selectLoop accumulated k data g =
          (.ok (data ++ picks), { stream := g.stream, consumed := g.consumed + k }) ∧
        picks.length = k ∧
        ∀ i, i < k → ∃ it,
          accumulated.find? (reaches (g.stream (g.consumed + i))) = some it ∧
            picks[i]? = some it.2 := by
  intro k
  induction k with
  | zero =>
    intro data g _
    exact ⟨[], by simp [selectLoop], rfl, fun i hi => absurd hi (Nat.not_lt_zero i)⟩
  | succ k ih =>
    intro data g h
    obtain ⟨it, hit⟩ := h 0 (Nat.succ_pos k)
    have hit0 : accumulated.find? (reaches (g.stream g.consumed)) = some it := by
      simpa using hit
    obtain ⟨picks, hsel, hlen, hpicks⟩ := ih (data ++ [it.2])
      { stream := g.stream, consumed := g.consumed + 1 }
      (fun i hi => by
        have := h (i + 1) (Nat.succ_lt_succ hi)
        simpa [Nat.add_assoc, Nat.add_comm 1 i] using this)
    refine ⟨it.2 :: picks, ?_, by simp [hlen], ?_⟩
    · have hfind : accumulated.find?
          (fun sample => Dbl.ge sample.1 (Dbl.fin g.draw.1)) = some it := hit0
      unfold selectLoop
      simp only [hfind]
      have hdraw : g.draw.2 = { stream := g.stream, consumed := g.consumed + 1 } := rfl
      rw [hdraw, hsel]
      simp [Nat.add_assoc, Nat.add_comm 1 k]
    · intro i hi
      cases i with
      | zero => exact ⟨it, hit0, by simp⟩
      | succ j =>
        obtain ⟨it', h1, h2⟩ := hpicks j (Nat.lt_of_succ_lt_succ hi)
        refine ⟨it', ?_, by simpa using h2⟩
        simpa [Nat.add_assoc, Nat.add_comm 1 j] using h1

/-! ## Lemmas on the sums built by `select` -/

theorem scoreSum_nil : scoreSum [] = 0 := rfl

theorem scoreSum_cons (e : ℚ × Sample) (es : List (ℚ × Sample)) :
    scoreSum (e :: es) = e.1 + scoreSum es := by
  simp [scoreSum]

theorem scoreSum_nonneg (es : List (ℚ × Sample)) (h : ∀ e ∈ es, 0 ≤ e.1) :
    0 ≤ scoreSum es := by
  induction es with
  | nil => simp [scoreSum]
  | cons e rest ih =>
    rw [scoreSum_cons]
    have h1 := h e (List.mem_cons_self _ _)
    have h2 := ih (fun x hx => h x (List.mem_cons_of_mem _ hx))
    linarith

theorem finiteMap_cons (e : ℚ × Sample) (es : List (ℚ × Sample)) :
    finiteMap (e :: es) = (Dbl.fin e.1, e.2) :: finiteMap es := rfl

theorem finitePart_finiteMap (es : List (ℚ × Sample)) : finitePart (finiteMap es) = es := by
  induction es with
  | nil => rfl
  | cons e rest ih =>
    show (Dbl.toRat (Dbl.fin e.1), e.2) :: finitePart (finiteMap rest) = e :: rest
    rw [ih]
    rfl

theorem finiteMap_finitePart (m : Multimap) (h : ∀ e ∈ m, ∃ q, e.1 = Dbl.fin q) :
    finiteMap (finitePart m) = m := by
  induction m with
  | nil => rfl
  | cons e rest ih =>
    obtain ⟨q, hq⟩ := h e (List.mem_cons_self _ _)
    show (Dbl.fin (Dbl.toRat e.1), e.2) :: finiteMap (finitePart rest) = e :: rest
    rw [ih (fun x hx => h x (List.mem_cons_of_mem _ hx)), hq]
    congr 1
    exact Prod.ext hq.symm rfl

theorem foldl_add_finiteMap (es : List (ℚ × Sample)) :
    ∀ a : ℚ, (finiteMap es).foldl (fun total genotype => Dbl.add total genotype.1)
      (Dbl.fin a) = Dbl.fin (a + scoreSum es) := by
  induction es with
  | nil => intro a; simp [finiteMap, scoreSum]
  | cons e rest ih =>
    intro a
    rw [finiteMap_cons, List.foldl_cons]
    show List.foldl _ (Dbl.fin (a + e.1)) (finiteMap rest) = _
    rw [ih, scoreSum_cons, add_assoc]

theorem fitnessTotal_finiteMap (es : List (ℚ × Sample)) :
    fitnessTotal (finiteMap es) = Dbl.fin (scoreSum es) := by
  unfold fitnessTotal
  rw [foldl_add_finiteMap, zero_add]

theorem Dbl.ge_zero_cases (x : Dbl) (h : Dbl.ge x (Dbl.fin 0) = true) :
    x = Dbl.pinf ∨ ∃ q : ℚ, 0 ≤ q ∧ x = Dbl.fin q := by
  cases x with
  | fin q => exact Or.inr ⟨q, by simpa [Dbl.ge] using h, rfl⟩
  | pinf => exact Or.inl rfl
  | ninf => simp [Dbl.ge] at h
  | nan => simp [Dbl.ge] at h

theorem foldl_add_pinf (m : Multimap) (h : ∀ e ∈ m, Dbl.ge e.1 (Dbl.fin 0) = true) :
    m.foldl (fun total genotype => Dbl.add total genotype.1) Dbl.pinf = Dbl.pinf := by
  induction m with
  | nil => rfl
  | cons e rest ih =>
    rw [List.foldl_cons]
    have hstep : Dbl.add Dbl.pinf e.1 = Dbl.pinf := by
      rcases Dbl.ge_zero_cases e.1 (h e (List.mem_cons_self _ _)) with he | ⟨q, -, he⟩
      · rw [he]; rfl
      · rw [he]; rfl
    rw [hstep]
    exact ih (fun x hx => h x (List.mem_cons_of_mem _ hx))

/-- Non-negative scores with a finite sum are all finite. -/
theorem finite_of_foldl_add (m : Multimap) (h : ∀ e ∈ m, Dbl.ge e.1 (Dbl.fin 0) = true) :
    ∀ a T : ℚ,
      m.foldl (fun total genotype => Dbl.add total genotype.1) (Dbl.fin a) = Dbl.fin T →
      ∃ entries : List (ℚ × Sample), m = finiteMap entries ∧ ∀ e ∈ entries, 0 ≤ e.1 := by
  induction m with
  | nil => intro a T _; exact ⟨[], rfl, fun e he => absurd he (List.not_mem_nil e)⟩
  | cons e rest ih =>
    intro a T hT
    rw [List.foldl_cons] at hT
    have hrest : ∀ x ∈ rest, Dbl.ge x.1 (Dbl.fin 0) = true :=
      fun x hx => h x (List.mem_cons_of_mem _ hx)
    rcases Dbl.ge_zero_cases e.1 (h e (List.mem_cons_self _ _)) with he | ⟨q, hq, he⟩
    · rw [he] at hT
      have : Dbl.add (Dbl.fin a) Dbl.pinf = Dbl.pinf := rfl
      rw [this, foldl_add_pinf rest hrest] at hT
      cases hT
    · rw [he] at hT
      have : Dbl.add (Dbl.fin a) (Dbl.fin q) = Dbl.fin (a + q) := rfl
      rw [this] at hT
      obtain ⟨entries, hm, hnn⟩ := ih hrest (a + q) T hT
      refine ⟨(q, e.2) :: entries, ?_, ?_⟩
      · rw [finiteMap_cons, ← hm]
        congr 1
        exact Prod.ext he rfl
      · intro x hx
        rcases List.mem_cons.1 hx with hx | hx
        · rw [hx]; exact hq
        · exact hnn x hx

theorem finite_of_fitnessTotal (m : Multimap) (T : ℚ)
    (h : ∀ e ∈ m, Dbl.ge e.1 (Dbl.fin 0) = true) (hT : fitnessTotal m = Dbl.fin T) :
    ∃ entries : List (ℚ × Sample),
      m = finiteMap entries ∧ (∀ e ∈ entries, 0 ≤ e.1) ∧ scoreSum entries = T := by
  obtain ⟨entries, hm, hnn⟩ := finite_of_foldl_add m h 0 T hT
  refine ⟨entries, hm, hnn, ?_⟩
  rw [hm, fitnessTotal_finiteMap] at hT
  exact Dbl.fin.inj hT

theorem scoreSum_normalisedEntries (T : ℚ) (es : List (ℚ × Sample)) :
    scoreSum (normalisedEntries T es) = scoreSum es / T := by
  induction es with
  | nil => simp [scoreSum, normalisedEntries]
  | cons e rest ih =>
    show scoreSum ((e.1 / T, e.2) :: normalisedEntries T rest) = _
    rw [scoreSum_cons, scoreSum_cons, ih, add_div]

theorem map_div_finiteMap (T : ℚ) (hT : T ≠ 0) (es : List (ℚ × Sample)) :
    (finiteMap es).map (fun g => (Dbl.div g.1 (Dbl.fin T), g.2)) =
      finiteMap (normalisedEntries T es) := by
  induction es with
  | nil => rfl
  | cons e rest ih =>
    rw [finiteMap_cons, List.map_cons, ih]
    show _ = (Dbl.fin (e.1 / T), e.2) :: finiteMap (normalisedEntries T rest)
    simp [Dbl.div, hT]

theorem normalisedFitness_perm (es : List (ℚ × Sample)) (hT : scoreSum es ≠ 0) :
    (normalisedFitness (finiteMap es)).Perm
      (finiteMap (normalisedEntries (scoreSum es) es)) := by
  unfold normalisedFitness
  rw [fitnessTotal_finiteMap]
  have h := foldl_insert_perm (fun g => (Dbl.div g.1 (Dbl.fin (scoreSum es)), g.2))
    (finiteMap es) []
  rw [List.nil_append, map_div_finiteMap _ hT] at h
  exact h

theorem normalisedFitness_sorted (es : List (ℚ × Sample))
    (hs : es.Pairwise (fun a b => a.1 ≤ b.1)) (hT : 0 < scoreSum es) :
    normalisedFitness (finiteMap es) = finiteMap (normalisedEntries (scoreSum es) es) := by
  unfold normalisedFitness
  rw [fitnessTotal_finiteMap]
  have h := foldl_insert_eq_append (fun g => (Dbl.div g.1 (Dbl.fin (scoreSum es)), g.2))
    (finiteMap es) []
  rw [List.nil_append, map_div_finiteMap _ hT.ne'] at h
  apply h
  unfold finiteMap normalisedEntries
  rw [List.pairwise_map, List.pairwise_map]
  refine hs.imp ?_
  intro a b hab
  simp only [Dbl.lt, decide_eq_false_iff_not, not_lt]
  exact div_le_div_of_nonneg_right hab hT.le

/-! ## Lemmas on the cumulative values -/

theorem cumulative_length (es : List (ℚ × Sample)) :
    ∀ a : ℚ, (cumulative a es).length = es.length := by
  induction es with
  | nil => intro a; rfl
  | cons e rest ih => intro a; simp [cumulative, ih]

theorem cumulative_ge (es : List (ℚ × Sample)) (h : ∀ e ∈ es, 0 ≤ e.1) :
    ∀ a : ℚ, ∀ x ∈ cumulative a es, a ≤ x.1 := by
  induction es with
  | nil => intro a x hx; cases hx
  | cons e rest ih =>
    intro a x hx
    have he := h e (List.mem_cons_self _ _)
    rcases List.mem_cons.1 hx with hx | hx
    · rw [hx]; simpa using he
    · have := ih (fun y hy => h y (List.mem_cons_of_mem _ hy)) (e.1 + a) x hx
      linarith

theorem cumulative_sorted (es : List (ℚ × Sample)) (h : ∀ e ∈ es, 0 ≤ e.1) :
    ∀ a : ℚ, (cumulative a es).Pairwise (fun x y => x.1 ≤ y.1) := by
  induction es with
  | nil => intro a; exact List.Pairwise.nil
  | cons e rest ih =>
    intro a
    have hrest : ∀ y ∈ rest, 0 ≤ y.1 := fun y hy => h y (List.mem_cons_of_mem _ hy)
    refine List.Pairwise.cons ?_ (ih hrest _)
    intro x hx
    exact cumulative_ge rest hrest (e.1 + a) x hx

theorem cumulative_last (es : List (ℚ × Sample)) (hne : es ≠ []) :
    ∀ a : ℚ, ∃ pre G, cumulative a es = pre ++ [(a + scoreSum es, G)] := by
  induction es with
  | nil => exact absurd rfl hne
  | cons e rest ih =>
    intro a
    by_cases hr : rest = []
    · refine ⟨[], e.2, ?_⟩
      rw [hr]
      simp [cumulative, scoreSum, add_comm]
    · obtain ⟨pre, G, hpre⟩ := ih hr (e.1 + a)
      refine ⟨(e.1 + a, e.2) :: pre, G, ?_⟩
      show (e.1 + a, e.2) :: cumulative (e.1 + a) rest = _
      rw [hpre, scoreSum_cons]
      simp [add_comm, add_left_comm, add_assoc]

theorem cumulative_getElem? (es : List (ℚ × Sample)) :
    ∀ (a : ℚ) (i : Nat),
      (cumulative a es)[i]? =
        es[i]?.map (fun e => (a + scoreSum (es.take (i + 1)), e.2)) := by
  induction es with
  | nil => intro a i; simp [cumulative]
  | cons e rest ih =>
    intro a i
    cases i with
    | zero => simp [cumulative, scoreSum, add_comm]
    | succ j =>
      simp only [cumulative, List.getElem?_cons_succ, List.take_succ_cons, scoreSum_cons, ih]
      congr 1
      funext x
      simp [add_comm, add_left_comm, add_assoc]

/-- The accumulation loop on non-negative scores appends the running sums in
order: every new key is at least as large as all keys before it. -/
theorem foldl_accumulateStep_nonneg (es : List (ℚ × Sample)) (h : ∀ e ∈ es, 0 ≤ e.1) :
    ∀ (A : Multimap) (a : ℚ), (∀ x ∈ A, ∃ c : ℚ, x.1 = Dbl.fin c ∧ c ≤ a) →
      (finiteMap es).foldl accumulateStep (A, Dbl.fin a) =
        (A ++ finiteMap (cumulative a es), Dbl.fin (a + scoreSum es)) := by
  induction es with
  | nil => intro A a _; simp [finiteMap, cumulative, scoreSum]
  | cons e rest ih =>
    intro A a hA
    have he := h e (List.mem_cons_self _ _)
    rw [finiteMap_cons, List.foldl_cons]
    have hstep : accumulateStep (A, Dbl.fin a) (Dbl.fin e.1, e.2) =
        (A ++ [(Dbl.fin (e.1 + a), e.2)], Dbl.fin (e.1 + a)) := by
      unfold accumulateStep
      show (Multimap.insert A (Dbl.fin (e.1 + a), e.2), Dbl.fin (e.1 + a)) = _
      rw [Multimap.insert_eq_append]
      intro x hx
      obtain ⟨c, hc, hca⟩ := hA x hx
      rw [hc]
      simp only [Dbl.lt, decide_eq_false_iff_not, not_lt]
      linarith
    rw [hstep, ih (fun y hy => h y (List.mem_cons_of_mem _ hy))]
    · rw [scoreSum_cons]
      show _ = (A ++ (Dbl.fin (e.1 + a), e.2) :: finiteMap (cumulative (e.1 + a) rest), _)
      simp [add_comm, add_left_comm, add_assoc]
    · intro x hx
      rcases List.mem_append.1 hx with hx | hx
      · obtain ⟨c, hc, hca⟩ := hA x hx
        exact ⟨c, hc, by linarith⟩
      · rw [List.mem_singleton] at hx
        rw [hx]
        exact ⟨e.1 + a, rfl, le_refl _⟩

/-- On non-negative scores with a positive finite total, the map
`accumulatedFitness` holds the running sums of the normalised scores, listed
in the order in which they were built, and these scores add up to 1. -/
theorem accumulatedFitness_nonneg (map : Multimap) (T : ℚ)
    (hnn : ∀ e ∈ map, Dbl.ge e.1 (Dbl.fin 0) = true)
    (hT : fitnessTotal map = Dbl.fin T) (hpos : 0 < T) :
    ∃ ns : List (ℚ × Sample), ns ≠ [] ∧ (∀ e ∈ ns, 0 ≤ e.1) ∧ scoreSum ns = 1 ∧
      accumulatedFitness map = finiteMap (cumulative 0 ns) := by
  obtain ⟨entries, hm, hnn', hsum⟩ := finite_of_fitnessTotal map T hnn hT
  have hsum0 : scoreSum entries ≠ 0 := by rw [hsum]; exact hpos.ne'
  have hperm := normalisedFitness_perm entries hsum0
  rw [← hm, hsum] at hperm
  have hfin : ∀ e ∈ normalisedFitness map, ∃ q, e.1 = Dbl.fin q := by
    intro e he
    have he' := hperm.mem_iff.1 he
    unfold finiteMap at he'
    obtain ⟨x, -, hx⟩ := List.mem_map.1 he'
    exact ⟨x.1, by rw [← hx]⟩
  have hns : finiteMap (finitePart (normalisedFitness map)) = normalisedFitness map :=
    finiteMap_finitePart _ hfin
  have hperm' : (finitePart (normalisedFitness map)).Perm (normalisedEntries T entries) := by
    have := hperm.map (fun e : Dbl × Sample => (e.1.toRat, e.2))
    have h2 : List.map (fun e : Dbl × Sample => (e.1.toRat, e.2))
        (finiteMap (normalisedEntries T entries)) = normalisedEntries T entries :=
      finitePart_finiteMap _
    rw [h2] at this
    exact this
  have hnonneg : ∀ e ∈ finitePart (normalisedFitness map), 0 ≤ e.1 := by
    intro e he
    have he' := hperm'.mem_iff.1 he
    unfold normalisedEntries at he'
    obtain ⟨x, hx, hxe⟩ := List.mem_map.1 he'
    rw [← hxe]
    exact div_nonneg (hnn' x hx) hpos.le
  have hone : scoreSum (finitePart (normalisedFitness map)) = 1 := by
    unfold scoreSum
    rw [(hperm'.map Prod.fst).sum_eq]
    have := scoreSum_normalisedEntries T entries
    unfold scoreSum at this
    rw [this]
    have h3 : (List.map Prod.fst entries).sum = T := hsum
    rw [h3]
    exact div_self hpos.ne'
  have hne : finitePart (normalisedFitness map) ≠ [] := by
    intro hnil
    rw [hnil] at hone
    simp [scoreSum] at hone
  refine ⟨finitePart (normalisedFitness map), hne, hnonneg, hone, ?_⟩
  unfold accumulatedFitness
  rw [← hns, foldl_accumulateStep_nonneg _ hnonneg [] 0 (fun x hx => absurd hx (List.not_mem_nil x))]
  simp [hns]

/-- A draw below 1 finds an entry among running sums that end at 1. -/
theorem find?_cumulative (ns : List (ℚ × Sample)) (hne : ns ≠ []) (hone : scoreSum ns = 1)
    (u : ℚ) (hu : u < 1) :
    ∃ it, (finiteMap (cumulative 0 ns)).find? (reaches u) = some it := by
  obtain ⟨pre, G, hpre⟩ := cumulative_last ns hne 0
  rcases hf : (finiteMap (cumulative 0 ns)).find? (reaches u) with _ | it
  · exfalso
    rw [List.find?_eq_none] at hf
    have hmem : (Dbl.fin (0 + scoreSum ns), G) ∈ finiteMap (cumulative 0 ns) := by
      rw [hpre]
      unfold finiteMap
      simp
    have := hf _ hmem
    rw [hone] at this
    simp [reaches, Dbl.ge] at this
    linarith
  · exact ⟨it, rfl⟩

/-! ## Further claims on the selection engine -/

/-- In exact arithmetic (`select` is `selectWith Dbl.fin`): for every non-empty
scored population whose scores are non-negative with a positive finite total,
every count `>= 0` and every stream of draws from `[0, 1)`, `select` returns a
sequence of exactly `count` genotypes (the empty sequence for `count = 0`),
having consumed `count` draws.  The running sums end at exactly 1 only without
rounding. -/
theorem select_returns_count (map : Multimap) (T : ℚ) (count : Int) (g : Generator)
    (_hne : map ≠ [])
    (hnn : ∀ e ∈ map, Dbl.ge e.1 (Dbl.fin 0) = true)
    (hT : fitnessTotal map = Dbl.fin T) (hpos : 0 < T)
    (hcount : 0 ≤ count)
    (hdraws : ∀ n, 0 ≤ g.stream n ∧ g.stream n < 1) :
    ∃ data : List Sample,
      select map count g =
        (.ok data, { stream := g.stream, consumed := g.consumed + count.toNat }) ∧
      (data.length : Int) = count ∧ (count = 0 → data = []) := by
  obtain ⟨ns, hns, -, hone, hacc⟩ := accumulatedFitness_nonneg map T hnn hT hpos
  obtain ⟨picks, hsel, hlen, -⟩ := selectLoop_ok (finiteMap (cumulative 0 ns)) count.toNat []
    g (fun i _ => find?_cumulative ns hns hone _ (hdraws _).2)
  refine ⟨picks, ?_, ?_, ?_⟩
  · unfold select
    rw [if_neg (not_lt.2 hcount), hacc, hsel, List.nil_append]
  · rw [hlen]
    exact Int.toNat_of_nonneg hcount
  · intro h0
    rw [h0] at hlen
    exact List.length_eq_zero.1 hlen

/-- The exact-arithmetic statement at the population `{(1, [1]), (3, [2])}`,
two draws, every draw equal to 1/2. -/
theorem select_returns_count_witness :
    ∃ data : List Sample,
      select [(Dbl.fin 1, [1]), (Dbl.fin 3, [2])] 2 { stream := fun _ => 1 / 2, consumed := 0 } =
        (.ok data, { stream := fun _ => 1 / 2, consumed := 0 + (2 : Int).toNat }) ∧
      (data.length : Int) = 2 ∧ ((2 : Int) = 0 → data = []) :=
  select_returns_count [(Dbl.fin 1, [1]), (Dbl.fin 3, [2])] 4 2
    { stream := fun _ => 1 / 2, consumed := 0 }
    (by simp)
    (by
      intro e he
      simp only [List.mem_cons, List.mem_singleton, List.not_mem_nil, or_false] at he
      rcases he with rfl | rfl <;> simp [Dbl.ge])
    (by
      simp only [fitnessTotal, List.foldl_cons, List.foldl_nil, Dbl.add]
      norm_num)
    (by norm_num) (by norm_num)
    (by intro n; constructor <;> norm_num)

/-- C12: for every single-entry scored population `{(s, G)}` with a finite
positive score `s`, every count `>= 0` and every stream of draws from `[0, 1)`,
`select` returns exactly `count` copies of `G`; with score 1 and count 5 these
are 5 copies of `G`. -/
theorem select_single_entry (s : ℚ) (G : Sample) (count : Int) (g : Generator)
    (hs : 0 < s) (hcount : 0 ≤ count)
    (hdraws : ∀ n, 0 ≤ g.stream n ∧ g.stream n < 1) :
    select [(Dbl.fin s, G)] count g =
      (.ok (List.replicate count.toNat G),
        { stream := g.stream, consumed := g.consumed + count.toNat }) := by
  have hacc : accumulatedFitness [(Dbl.fin s, G)] = [(Dbl.fin 1, G)] := by
    simp [accumulatedFitness, normalisedFitness, fitnessTotal, accumulateStep,
      Multimap.insert, Dbl.add, Dbl.div, hs.ne']
  have hfind : ∀ u : ℚ, u < 1 →
      List.find? (reaches u) [(Dbl.fin 1, G)] = some (Dbl.fin 1, G) := by
    intro u hu
    simp [List.find?, reaches, Dbl.ge, hu.le]
  obtain ⟨picks, hsel, hlen, hpicks⟩ := selectLoop_ok [(Dbl.fin 1, G)] count.toNat [] g
    (fun i _ => ⟨_, hfind _ (hdraws _).2⟩)
  have hrep : picks = List.replicate count.toNat G := by
    rw [List.eq_replicate_iff]
    refine ⟨hlen, ?_⟩
    intro b hb
    obtain ⟨i, hi, hib⟩ := List.mem_iff_getElem.1 hb
    obtain ⟨it, hit, hpi⟩ := hpicks i (by rw [← hlen]; exact hi)
    rw [hfind _ (hdraws _).2] at hit
    rw [List.getElem?_eq_getElem hi, hib] at hpi
    cases hit
    exact Option.some.inj hpi
  unfold select
  rw [if_neg (not_lt.2 hcount), hacc, hsel, List.nil_append, hrep]

/-- Witness of C12: the case of the specification, `select {(1.0, G)} 5` with
`G = [4, 10, 2]`, gives 5 copies of `G`. -/
theorem select_single_entry_witness :
    select [(Dbl.fin 1, [4, 10, 2])] 5 { stream := fun _ => 1 / 2, consumed := 0 } =
      (.ok (List.replicate (5 : Int).toNat [4, 10, 2]),
        { stream := fun _ => 1 / 2, consumed := 0 + (5 : Int).toNat }) :=
  select_single_entry 1 [4, 10, 2] 5 { stream := fun _ => 1 / 2, consumed := 0 }
    (by norm_num) (by norm_num) (by intro n; constructor <;> norm_num)

/-- C20: for every non-empty scored population whose scores are all `>= 0`
with a positive finite total, the cumulative values in `accumulatedFitness`
are non-decreasing in iteration order and the last one is 1, so every draw in
`[0, 1)` finds an entry whose cumulative value is `>=` the draw: the scan of
line 184 does not end on the end iterator. -/
theorem accumulated_scan_finds (map : Multimap) (T : ℚ)
    (_hne : map ≠ [])
    (hnn : ∀ e ∈ map, Dbl.ge e.1 (Dbl.fin 0) = true)
    (hT : fitnessTotal map = Dbl.fin T) (hpos : 0 < T) :
    (accumulatedFitness map).Pairwise (fun a b => Dbl.ge b.1 a.1 = true) ∧
    (∃ pre G, accumulatedFitness map = pre ++ [(Dbl.fin 1, G)]) ∧
    (∀ u : ℚ, 0 ≤ u → u < 1 →
      ∃ it, (accumulatedFitness map).find? (fun sample => Dbl.ge sample.1 (Dbl.fin u))
          = some it ∧ Dbl.ge it.1 (Dbl.fin u) = true) := by
  obtain ⟨ns, hns, hnonneg, hone, hacc⟩ := accumulatedFitness_nonneg map T hnn hT hpos
  rw [hacc]
  refine ⟨?_, ?_, ?_⟩
  · unfold finiteMap
    rw [List.pairwise_map]
    refine (cumulative_sorted ns hnonneg 0).imp ?_
    intro a b hab
    simpa [Dbl.ge] using hab
  · obtain ⟨pre, G, hpre⟩ := cumulative_last ns hns 0
    refine ⟨finiteMap pre, G, ?_⟩
    rw [hpre, hone]
    simp [finiteMap]
  · intro u _ hu
    obtain ⟨it, hit⟩ := find?_cumulative ns hns hone u hu
    have hreach : reaches u it = true := List.find?_some hit
    exact ⟨it, hit, hreach⟩

/-- Witness of C20 at the population `{(1, [1]), (3, [2])}`. -/
theorem accumulated_scan_finds_witness :
    (accumulatedFitness [(Dbl.fin 1, [1]), (Dbl.fin 3, [2])]).Pairwise
      (fun a b => Dbl.ge b.1 a.1 = true) ∧
    (∃ pre G, accumulatedFitness [(Dbl.fin 1, [1]), (Dbl.fin 3, [2])] =
      pre ++ [(Dbl.fin 1, G)]) ∧
    (∀ u : ℚ, 0 ≤ u → u < 1 →
      ∃ it, (accumulatedFitness [(Dbl.fin 1, [1]), (Dbl.fin 3, [2])]).find?
          (fun sample => Dbl.ge sample.1 (Dbl.fin u)) = some it ∧
        Dbl.ge it.1 (Dbl.fin u) = true) :=
  accumulated_scan_finds [(Dbl.fin 1, [1]), (Dbl.fin 3, [2])] 4
    (by simp)
    (by
      intro e he
      simp only [List.mem_cons, List.mem_singleton, List.not_mem_nil, or_false] at he
      rcases he with rfl | rfl <;> simp [Dbl.ge])
    (by
      simp only [fitnessTotal, List.foldl_cons, List.foldl_nil, Dbl.add]
      norm_num)
    (by norm_num)

/-! ## Lemmas on the cumulative-distribution rule -/

theorem Multimap.mem_insert (m : Multimap) (v x : Dbl × Sample) :
    x ∈ Multimap.insert m v ↔ x = v ∨ x ∈ m := by
  rw [(Multimap.insert_perm m v).mem_iff, List.mem_cons]

/-- For a draw `u >= 0` on scores in ascending order, scanning the map
`accumulatedFitness` gives the same entry as scanning the running sums in the
order in which they were built: a running sum that reaches `u` is at least as
large as every running sum built before it, so it is inserted last. -/
theorem find?_foldl_accumulateStep (u : ℚ) (hu : 0 ≤ u) (es : List (ℚ × Sample)) :
    ∀ (A : Multimap) (a : ℚ), es.Pairwise (fun x y => x.1 ≤ y.1) →
      (0 < a → ∀ e ∈ es, 0 ≤ e.1) →
      (∀ x ∈ A, ∃ c : ℚ, x.1 = Dbl.fin c ∧ c ≤ max a 0) →
      ((finiteMap es).foldl accumulateStep (A, Dbl.fin a)).1.find? (reaches u) =
        (A ++ finiteMap (cumulative a es)).find? (reaches u) := by
  induction es with
  | nil => intro A a _ _ _; simp [finiteMap, cumulative]
  | cons e rest ih =>
    intro A a hs hpos hA
    rw [finiteMap_cons, List.foldl_cons]
    have hstep : accumulateStep (A, Dbl.fin a) (Dbl.fin e.1, e.2) =
        (Multimap.insert A (Dbl.fin (e.1 + a), e.2), Dbl.fin (e.1 + a)) := rfl
    rw [hstep]
    have hs' := List.pairwise_cons.1 hs
    have hneg : ¬ 0 ≤ e.1 → a ≤ 0 := by
      intro he
      by_contra hcon
      exact he (hpos (not_le.1 hcon) e (List.mem_cons_self _ _))
    have hpos' : 0 < e.1 + a → ∀ y ∈ rest, 0 ≤ y.1 := by
      intro h y hy
      by_cases he : 0 ≤ e.1
      · exact le_trans he (hs'.1 y hy)
      · have := hneg he
        linarith [not_le.1 he]
    have hmax : max a 0 ≤ max (e.1 + a) 0 := by
      by_cases he : 0 ≤ e.1
      · exact max_le_max (by linarith) le_rfl
      · rw [max_eq_right (hneg he)]
        exact le_max_right _ _
    have hA' : ∀ x ∈ Multimap.insert A (Dbl.fin (e.1 + a), e.2),
        ∃ c : ℚ, x.1 = Dbl.fin c ∧ c ≤ max (e.1 + a) 0 := by
      intro x hx
      rcases (Multimap.mem_insert _ _ _).1 hx with hx | hx
      · rw [hx]; exact ⟨e.1 + a, rfl, le_max_left _ _⟩
      · obtain ⟨c, hc, hca⟩ := hA x hx
        exact ⟨c, hc, le_trans hca hmax⟩
    rw [ih _ _ hs'.2 hpos' hA']
    have hcum : finiteMap (cumulative a (e :: rest)) =
        (Dbl.fin (e.1 + a), e.2) :: finiteMap (cumulative (e.1 + a) rest) := rfl
    rw [hcum]
    by_cases hp : reaches u (Dbl.fin (e.1 + a), e.2) = true
    · have hge : u ≤ e.1 + a := by simpa [reaches, Dbl.ge] using hp
      have hins : Multimap.insert A (Dbl.fin (e.1 + a), e.2) =
          A ++ [(Dbl.fin (e.1 + a), e.2)] := by
        apply Multimap.insert_eq_append
        intro x hx
        obtain ⟨c, hc, hca⟩ := hA x hx
        rw [hc]
        simp only [Dbl.lt, decide_eq_false_iff_not, not_lt]
        have := le_trans hca hmax
        rw [max_eq_left (le_trans hu hge)] at this
        exact this
      rw [hins, List.append_assoc, List.singleton_append]
    · have hp' : reaches u (Dbl.fin (e.1 + a), e.2) = false := by simpa using hp
      rw [List.find?_append, List.find?_append, Multimap.find?_insert_of_not _ _ _ hp',
        List.find?_cons, hp']

/-- The entry found by `find?` has an index, and nothing before that index
satisfies the test. -/
theorem find?_index {α : Type} (p : α → Bool) (xs : List α) (b : α)
    (h : xs.find? p = some b) :
    ∃ i : Nat, xs[i]? = some b ∧ p b = true ∧
      ∀ j : Nat, j < i → ∀ x, xs[j]? = some x → p x = false := by
  obtain ⟨hb, as, bs, hxs, has⟩ := List.find?_eq_some.1 h
  refine ⟨as.length, ?_, hb, ?_⟩
  · rw [hxs, List.getElem?_append_right (le_refl _)]
    simp
  · intro j hj x hx
    rw [hxs, List.getElem?_append_left hj] at hx
    obtain ⟨hj', hx'⟩ := List.getElem?_eq_some.1 hx
    have hmem : x ∈ as := List.mem_iff_getElem.2 ⟨j, hj', hx'⟩
    simpa using has x hmem

theorem normalisedEntries_take (T : ℚ) (es : List (ℚ × Sample)) (n : Nat) :
    (normalisedEntries T es).take n = normalisedEntries T (es.take n) := by
  unfold normalisedEntries
  rw [List.map_take]

/-- The running sum of index `i` of the normalised scores is the cumulative
value `c_i` of the specification. -/
theorem cumulative_normalised_getElem? (es : List (ℚ × Sample)) (i : Nat) :
    (finiteMap (cumulative 0 (normalisedEntries (scoreSum es) es)))[i]? =
      es[i]?.map (fun e => (Dbl.fin (cumulativeValue es i), e.2)) := by
  unfold finiteMap
  rw [List.getElem?_map, cumulative_getElem?, normalisedEntries_take,
    scoreSum_normalisedEntries]
  unfold normalisedEntries cumulativeValue
  rw [List.getElem?_map]
  cases es[i]? with
  | none => rfl
  | some e => simp

/-- One scan of `accumulatedFitness` on finite scores in ascending order with
a positive total: the entry found for a draw `u` in `[0, 1)` is the one of
least index whose cumulative value reaches `u`. -/
theorem find?_accumulated_sorted (es : List (ℚ × Sample))
    (hs : es.Pairwise (fun a b => a.1 ≤ b.1)) (hT : 0 < scoreSum es)
    (u : ℚ) (hu0 : 0 ≤ u) (hu1 : u < 1) :
    ∃ (i : Nat) (e : ℚ × Sample), es[i]? = some e ∧ u ≤ cumulativeValue es i ∧
      (∀ j : Nat, j < i → cumulativeValue es j < u) ∧
      (accumulatedFitness (finiteMap es)).find? (reaches u) =
        some (Dbl.fin (cumulativeValue es i), e.2) := by
  have hsorted : (normalisedEntries (scoreSum es) es).Pairwise (fun a b => a.1 ≤ b.1) := by
    unfold normalisedEntries
    rw [List.pairwise_map]
    exact hs.imp (fun hab => div_le_div_of_nonneg_right hab hT.le)
  have hacc : (accumulatedFitness (finiteMap es)).find? (reaches u) =
      (finiteMap (cumulative 0 (normalisedEntries (scoreSum es) es))).find? (reaches u) := by
    unfold accumulatedFitness
    rw [normalisedFitness_sorted es hs hT]
    have := find?_foldl_accumulateStep u hu0 (normalisedEntries (scoreSum es) es) [] 0
      hsorted (fun h => absurd h (lt_irrefl 0))
      (fun x hx => absurd hx (List.not_mem_nil x))
    simpa using this
  have hone : scoreSum (normalisedEntries (scoreSum es) es) = 1 := by
    rw [scoreSum_normalisedEntries]
    exact div_self hT.ne'
  have hne : normalisedEntries (scoreSum es) es ≠ [] := by
    intro hnil
    rw [hnil] at hone
    simp [scoreSum] at hone
  obtain ⟨it, hit⟩ := find?_cumulative _ hne hone u hu1
  obtain ⟨i, hi, hp, hbefore⟩ := find?_index _ _ _ hit
  rw [cumulative_normalised_getElem?] at hi
  obtain ⟨e, he, hite⟩ := Option.map_eq_some'.1 hi
  have hilt : i < es.length := (List.getElem?_eq_some.1 he).1
  refine ⟨i, e, he, ?_, ?_, ?_⟩
  · rw [← hite] at hp
    simpa [reaches, Dbl.ge] using hp
  · intro j hj
    have hjlt : j < es.length := lt_trans hj hilt
    have hxj := cumulative_normalised_getElem? es j
    rw [List.getElem?_eq_getElem hjlt, Option.map_some'] at hxj
    have := hbefore j hj _ hxj
    simpa [reaches, Dbl.ge] using this
  · rw [hacc, hit, hite]

/-- The function `select` on finite scores in ascending order with a positive
total: every returned genotype is the one the cumulative-distribution rule
picks for the draw of the same rank. -/
theorem select_sorted_rule (es : List (ℚ × Sample)) (count : Nat) (g : Generator)
    (hs : es.Pairwise (fun a b => a.1 ≤ b.1)) (hT : 0 < scoreSum es)
    (hdraws : ∀ k, k < count →
      0 ≤ g.stream (g.consumed + k) ∧ g.stream (g.consumed + k) < 1) :
    ∃ data : List Sample,
      select (finiteMap es) count g =
        (.ok data, { stream := g.stream, consumed := g.consumed + count }) ∧
      data.length = count ∧
      ∀ k, k < count → ∃ (i : Nat) (e : ℚ × Sample), es[i]? = some e ∧
        g.stream (g.consumed + k) ≤ cumulativeValue es i ∧
        (∀ j : Nat, j < i → cumulativeValue es j < g.stream (g.consumed + k)) ∧
        data[k]? = some e.2 := by
  obtain ⟨picks, hsel, hlen, hpicks⟩ := selectLoop_ok (accumulatedFitness (finiteMap es))
    count [] g
    (fun k hk => by
      obtain ⟨i, e, -, -, -, hf⟩ := find?_accumulated_sorted es hs hT _
        (hdraws k hk).1 (hdraws k hk).2
      exact ⟨_, hf⟩)
  refine ⟨picks, ?_, hlen, ?_⟩
  · unfold select
    rw [if_neg (by omega), Int.toNat_ofNat, hsel, List.nil_append]
  · intro k hk
    obtain ⟨i, e, he, hle, hlt, hf⟩ := find?_accumulated_sorted es hs hT _
      (hdraws k hk).1 (hdraws k hk).2
    obtain ⟨it, hit, hpk⟩ := hpicks k hk
    rw [hf] at hit
    cases hit
    exact ⟨i, e, he, hle, hlt, hpk⟩

/-- C15: each draw of `select` follows the cumulative-distribution rule.  With
the entries in ascending score order, a positive total `T` and the cumulative
values `c_i = (s_1 + ... + s_i) / T` in exact arithmetic, `select` returns one
genotype per draw, and the genotype of rank `k` is that of the entry with the
least index `i` such that `c_i >= u_k`, where `u_k` in `[0, 1)` is the draw of
rank `k`: it depends on that draw only. -/
theorem select_cumulative_rule (entries : List (ℚ × Sample)) (count : Nat) (g : Generator)
    (hsorted : entries.Pairwise (fun a b => a.1 ≤ b.1)) (hT : 0 < scoreSum entries)
    (hdraws : ∀ k, k < count →
      0 ≤ g.stream (g.consumed + k) ∧ g.stream (g.consumed + k) < 1) :
    ∃ data : List Sample,
      select (finiteMap entries) count g =
        (.ok data, { stream := g.stream, consumed := g.consumed + count }) ∧
      data.length = count ∧
      ∀ k, k < count → ∃ (i : Nat) (e : ℚ × Sample), entries[i]? = some e ∧
        g.stream (g.consumed + k) ≤ cumulativeValue entries i ∧
        (∀ j : Nat, j < i → cumulativeValue entries j < g.stream (g.consumed + k)) ∧
        data[k]? = some e.2 :=
  select_sorted_rule entries count g hsorted hT hdraws

/-- Witness of C15: the population `{(1, [1]), (3, [2])}`, two draws, every
draw equal to 1/2. -/
theorem select_cumulative_rule_witness :
    ∃ data : List Sample,
      select (finiteMap [(1, [1]), (3, [2])]) (2 : Nat)
          { stream := fun _ => 1 / 2, consumed := 0 } =
        (.ok data, { stream := fun _ => 1 / 2, consumed := 0 + 2 }) ∧
      data.length = 2 ∧
      ∀ k, k < 2 → ∃ (i : Nat) (e : ℚ × Sample),
        ([(1, [1]), (3, [2])] : List (ℚ × Sample))[i]? = some e ∧
        (1 / 2 : ℚ) ≤ cumulativeValue [(1, [1]), (3, [2])] i ∧
        (∀ j : Nat, j < i → cumulativeValue [(1, [1]), (3, [2])] j < 1 / 2) ∧
        data[k]? = some e.2 :=
  select_cumulative_rule [(1, [1]), (3, [2])] 2 { stream := fun _ => 1 / 2, consumed := 0 }
    (by simp)
    (by simp only [scoreSum, List.map_cons, List.map_nil, List.sum_cons, List.sum_nil]
        norm_num)
    (by intro k _; constructor <;> norm_num)

theorem selectLoop_length (accumulated : Multimap) :
    ∀ (k : Nat) (data out : List Sample) (g g' : Generator),
      selectLoop accumulated k data g = (.ok out, g') → out.length = data.length + k := by
  intro k
  induction k with
  | zero =>
    intro data out g g' h
    simp only [selectLoop, Prod.mk.injEq, Except.ok.injEq] at h
    rw [← h.1]
    rfl
  | succ k ih =>
    intro data out g g' h
    unfold selectLoop at h
    simp only at h
    split at h
    · simp at h
    · rw [ih _ _ _ _ h]
      simp
      omega

theorem select_length (map : Multimap) (count : Int) (g g' : Generator)
    (out : List Sample) (hcount : 0 ≤ count) (h : select map count g = (.ok out, g')) :
    out.length = count.toNat := by
  unfold select at h
  rw [if_neg (not_lt.2 hcount)] at h
  rw [selectLoop_length _ _ _ _ _ _ h]
  simp

/-- A generation that completes either leaves the population alone or
replaces it by two genotypes; when it is not solved it replaces it. -/
theorem generation_samples (st next : Driver) (h : generation st = .ok next) :
    (next.samples = st.samples ∨ next.samples.length = 2) ∧
    (∀ scores last, scorePopulation st.samples = .ok scores →
      scores.getLast? = some last → last.1 ≠ Dbl.pinf → next.samples.length = 2) := by
  unfold generation at h
  split at h
  · cases h
  · rename_i scores hscores
    split at h
    · cases h
    · rename_i last hlast
      split at h
      · cases h
      · split_ifs at h with hinf
        · cases h
          refine ⟨Or.inl rfl, ?_⟩
          intro scores' last' hs' hl' hne
          rw [hscores] at hs'
          cases hs'
          rw [hlast] at hl'
          cases hl'
          exact absurd ((Dbl.eq_pinf_iff _).1 hinf) hne
        · split at h
          · cases h
          · rename_i data generator hsel
            cases h
            have hlen : data.length = 2 :=
              select_length scores 2 st.generator generator data (by norm_num) hsel
            exact ⟨Or.inr hlen, fun _ _ _ _ _ => hlen⟩

theorem generations_samples_length (budget : Nat) :
    ∀ st final : Driver, st.samples.length = 2 → generations budget st = .ok final →
      final.samples.length = 2 := by
  induction budget with
  | zero => intro st final hlen h; cases h; exact hlen
  | succ k ih =>
    intro st final hlen h
    unfold generations at h
    split at h
    · cases h
    · rename_i next hnext
      apply ih next final _ h
      rcases (generation_samples st next hnext).1 with hs | hs
      · rw [hs]; exact hlen
      · exact hs

/-- C17: after any generation that is not Solved and whose selection
succeeds, the population consists of exactly 2 genotypes, and it still has
exactly 2 genotypes after any number of further generations, whatever the
size of the initial population. -/
theorem population_collapses_to_two (st next : Driver) (scores : Multimap)
    (last : Dbl × Sample)
    (hscores : scorePopulation st.samples = .ok scores)
    (hlast : scores.getLast? = some last) (hunsolved : last.1 ≠ Dbl.pinf)
    (hgen : generation st = .ok next) :
    next.samples.length = 2 ∧
      ∀ (budget : Nat) (final : Driver), generations budget next = .ok final →
        final.samples.length = 2 := by
  have hlen := (generation_samples st next hgen).2 scores last hscores hlast hunsolved
  exact ⟨hlen, fun budget final h => generations_samples_length budget next final hlen h⟩

theorem scorePopulation_three_ones :
    scorePopulation [[1], [1], [1]] =
      .ok [(Dbl.fin (1 / 41), [1]), (Dbl.fin (1 / 41), [1]), (Dbl.fin (1 / 41), [1])] := by
  have p1 : parseGenotype [1] = [Gene.number 1] := by decide
  have e1 : objective [Gene.number 1] = .ok (Dbl.fin 1) := by
    simp only [objective_number_cons, foldlM_objectiveStep_nil, Dbl.ofNat]
    norm_num
  have f1 : fitnessValue [1] TARGET_NUMBER = .ok (Dbl.fin (1 / 41)) := by
    unfold fitnessValue TARGET_NUMBER
    rw [p1, e1]
    simp only [fitness_fin_ne 1 42 (by norm_num) (by norm_num)]
    norm_num [abs_of_pos]
  have step : ∀ scores : Multimap, (∀ x ∈ scores, x.1 = Dbl.fin (1 / 41)) →
      scoreStep scores [1] = .ok (scores ++ [(Dbl.fin (1 / 41), [1])]) := by
    intro scores h
    unfold scoreStep
    rw [f1]
    simp only
    rw [Multimap.insert_eq_append]
    intro x hx
    rw [h x hx]
    simp [Dbl.lt]
  unfold scorePopulation
  rw [List.foldlM_cons, step [] (fun x hx => absurd hx (List.not_mem_nil x))]
  show List.foldlM scoreStep [(Dbl.fin (1 / 41), [1])] [[1], [1]] = _
  rw [List.foldlM_cons, step _ (by simp)]
  show List.foldlM scoreStep [(Dbl.fin (1 / 41), [1]), (Dbl.fin (1 / 41), [1])] [[1]] = _
  rw [List.foldlM_cons, step _ (by simp)]
  rfl

theorem select_three_ones :
    select [(Dbl.fin (1 / 41), [1]), (Dbl.fin (1 / 41), [1]), (Dbl.fin (1 / 41), [1])] 2
        { stream := fun _ => 1 / 2, consumed := 0 } =
      (.ok [[1], [1]], { stream := fun _ => 1 / 2, consumed := 2 }) := by
  obtain ⟨data, hsel, hlen, hrule⟩ := select_sorted_rule
    [(1 / 41, [1]), (1 / 41, [1]), (1 / 41, [1])] 2
    { stream := fun _ => 1 / 2, consumed := 0 }
    (by simp)
    (by simp only [scoreSum, List.map_cons, List.map_nil, List.sum_cons, List.sum_nil]
        norm_num)
    (by intro k _; constructor <;> norm_num)
  have hdata : data = List.replicate 2 [1] := by
    rw [List.eq_replicate_iff]
    refine ⟨hlen, ?_⟩
    intro b hb
    obtain ⟨k, hk, hkb⟩ := List.mem_iff_getElem.1 hb
    obtain ⟨i, e, he, -, -, hd⟩ := hrule k (by rw [← hlen]; exact hk)
    rw [List.getElem?_eq_getElem hk, hkb] at hd
    obtain ⟨hi, hie⟩ := List.getElem?_eq_some.1 he
    have hmem : e ∈ ([(1 / 41, [1]), (1 / 41, [1]), (1 / 41, [1])] : List (ℚ × Sample)) :=
      List.mem_iff_getElem.2 ⟨i, hi, hie⟩
    have he1 : e.2 = [1] := by
      simp only [List.mem_cons, List.mem_singleton, List.not_mem_nil, or_false, or_self]
        at hmem
      rw [hmem]
    rw [← he1]
    exact Option.some.inj hd
  have hmap : finiteMap [(1 / 41, [1]), (1 / 41, [1]), (1 / 41, [1])] =
      [(Dbl.fin (1 / 41), [1]), (Dbl.fin (1 / 41), [1]), (Dbl.fin (1 / 41), [1])] := rfl
  have hcast : ((2 : Nat) : Int) = 2 := rfl
  rw [hmap, hcast, hdata] at hsel
  exact hsel

theorem generation_three_ones :
    generation { samples := [[1], [1], [1]],
                 generator := { stream := fun _ => 1 / 2, consumed := 0 },
                 printed := [] } =
      .ok { samples := [[1], [1]],
            generator := { stream := fun _ => 1 / 2, consumed := 2 },
            printed := [Printed.bestValue (Dbl.fin 1)] } := by
  have p1 : parseGenotype [1] = [Gene.number 1] := by decide
  have e1 : objective (parseGenotype [1]) = .ok (Dbl.fin 1) := by
    rw [p1]
    simp only [objective_number_cons, foldlM_objectiveStep_nil, Dbl.ofNat]
    norm_num
  unfold generation
  simp only [scorePopulation_three_ones]
  have hlast : List.getLast?
      [(Dbl.fin (1 / 41), ([1] : Sample)), (Dbl.fin (1 / 41), [1]), (Dbl.fin (1 / 41), [1])] =
      some (Dbl.fin (1 / 41), [1]) := rfl
  simp only [hlast, e1, select_three_ones]
  rw [if_neg (by simp [Dbl.eq])]
  rfl

/-- Witness of C17: a population of three genotypes `[1]`; its first
generation is not solved (best fitness 1/41), selection succeeds, and the
population has two genotypes from then on. -/
theorem population_collapses_to_two_witness :
    ([[1], [1]] : List Sample).length = 2 ∧
      ∀ (budget : Nat) (final : Driver),
        generations budget
            { samples := [[1], [1]],
              generator := { stream := fun _ => 1 / 2, consumed := 2 },
              printed := [Printed.bestValue (Dbl.fin 1)] } = .ok final →
          final.samples.length = 2 :=
  population_collapses_to_two
    { samples := [[1], [1], [1]],
      generator := { stream := fun _ => 1 / 2, consumed := 0 },
      printed := [] }
    { samples := [[1], [1]],
      generator := { stream := fun _ => 1 / 2, consumed := 2 },
      printed := [Printed.bestValue (Dbl.fin 1)] }
    [(Dbl.fin (1 / 41), [1]), (Dbl.fin (1 / 41), [1]), (Dbl.fin (1 / 41), [1])]
    (Dbl.fin (1 / 41), [1])
    scorePopulation_three_ones rfl (by simp) generation_three_ones

/-! ## Lemmas on rounding -/

theorem Dbl.round_fin (x : Dbl) : Dbl.round Dbl.fin x = x := by
  cases x <;> rfl

/-- The exact fitness is the fitness with the identity as rounding. -/
theorem fitnessWith_fin (objectiveValue target : Dbl) :
    fitnessWith Dbl.fin objectiveValue target = fitness objectiveValue target := by
  unfold fitnessWith fitness
  simp only [Dbl.round_fin]

/-- The integer nearest to `x`, the even one at a tie, is what `roundHalfEven`
returns. -/
theorem roundHalfEven_eq (x : ℚ) (n : ℤ) (hlo : (n : ℚ) - 1 / 2 ≤ x) (hhi : x ≤ n + 1 / 2)
    (hlo' : x = n - 1 / 2 → n % 2 = 0) (hhi' : x = n + 1 / 2 → n % 2 = 0) :
    roundHalfEven x = n := by
  have hf1 : (⌊x⌋ : ℚ) ≤ x := Int.floor_le x
  have hf2 : x < ⌊x⌋ + 1 := Int.lt_floor_add_one x
  have hge : n - 1 ≤ ⌊x⌋ := by
    have : (n : ℚ) - 1 < ⌊x⌋ + 1 := by linarith
    have : ((n - 1 : ℤ) : ℚ) < ((⌊x⌋ + 1 : ℤ) : ℚ) := by push_cast; linarith
    have := Int.cast_lt.1 this
    omega
  have hle : ⌊x⌋ ≤ n := by
    have : (⌊x⌋ : ℚ) < n + 1 := by linarith
    have : ((⌊x⌋ : ℤ) : ℚ) < ((n + 1 : ℤ) : ℚ) := by push_cast; linarith
    have := Int.cast_lt.1 this
    omega
  unfold roundHalfEven
  rcases (by omega : ⌊x⌋ = n ∨ ⌊x⌋ = n - 1) with hfl | hfl
  · have hx : x - ⌊x⌋ ≤ 1 / 2 := by rw [hfl]; linarith
    by_cases h1 : x - ⌊x⌋ < 1 / 2
    · rw [if_pos h1, hfl]
    · have heq : x = n + 1 / 2 := by
        have : x - ⌊x⌋ = 1 / 2 := le_antisymm hx (not_lt.1 h1)
        rw [hfl] at this
        linarith
      rw [if_neg h1, if_neg (by rw [hfl]; linarith), hfl, if_pos (hhi' heq)]
  · have hcast : (⌊x⌋ : ℚ) = n - 1 := by rw [hfl]; push_cast; ring
    have hx : 1 / 2 ≤ x - ⌊x⌋ := by rw [hcast]; linarith
    by_cases h1 : 1 / 2 < x - ⌊x⌋
    · rw [if_neg (not_lt.2 hx), if_pos h1, hfl]
      ring
    · have heq : x = n - 1 / 2 := by
        have : x - ⌊x⌋ = 1 / 2 := le_antisymm (not_lt.1 h1) hx
        rw [hcast] at this
        linarith
      have hodd : ¬ (n - 1) % 2 = 0 := by
        have := hlo' heq
        omega
      rw [if_neg (not_lt.2 hx), if_neg h1, hfl, if_neg hodd]
      ring

theorem binade_eq (q : ℚ) (e : ℤ) (hq : 0 < q) (he : -1022 ≤ e)
    (hlo : (2 : ℚ) ^ e ≤ q) (hhi : q < (2 : ℚ) ^ (e + 1)) : binade q = e := by
  have h1 : e ≤ Int.log 2 q := by
    have := (@Int.zpow_le_iff_le_log ℚ _ _ 2 (by norm_num) e q hq).1
    exact this (by simpa using hlo)
  have h2 : Int.log 2 q < e + 1 := by
    have := (@Int.lt_zpow_iff_log_lt ℚ _ _ 2 (by norm_num) (e + 1) q hq).1
    exact this (by simpa using hhi)
  unfold binade
  rw [max_eq_left (by omega)]
  omega

/-- Value of `round64` at a positive rational `q` of the normal range: with
`2 ^ e <= q < 2 ^ (e + 1)`, the result is the multiple `n * 2 ^ (e - 52)` of
the unit in the last place that is nearest to `q`, the one with `n` even at a
tie. -/
theorem round64_eq (q : ℚ) (e n : ℤ) (r : ℚ) (hq : 0 < q) (he : -1022 ≤ e)
    (hlo : (2 : ℚ) ^ e ≤ q) (hhi : q < (2 : ℚ) ^ (e + 1))
    (hr : r = n * (2 : ℚ) ^ (e - 52))
    (h1 : (n : ℚ) - 1 / 2 ≤ q / 2 ^ (e - 52)) (h2 : q / 2 ^ (e - 52) ≤ n + 1 / 2)
    (t1 : q / 2 ^ (e - 52) = n - 1 / 2 → n % 2 = 0)
    (t2 : q / 2 ^ (e - 52) = n + 1 / 2 → n % 2 = 0)
    (hfin : r < (2 : ℚ) ^ (1024 : ℤ)) : round64 q = Dbl.fin r := by
  unfold round64
  rw [if_neg (not_lt.2 hq.le)]
  unfold roundMagnitude nearest
  rw [binade_eq q e hq he hlo hhi, roundHalfEven_eq _ n h1 h2 t1 t2, ← hr,
    if_neg (not_le.2 hfin)]

/-- The map `accumulatedFitness` of a two-entry population, given the value
of every rounded operation on the way: the total `T`, the two normalised
scores `na <= nb` and the two running sums `c0 <= c1`. -/
theorem accumulatedFitnessWith_two (rnd : ℚ → Dbl) (a b T na nb c0 c1 : ℚ) (Ga Gb : Sample)
    (h1 : rnd a = Dbl.fin a) (h2 : rnd (a + b) = Dbl.fin T) (hT : T ≠ 0)
    (h3 : rnd (a / T) = Dbl.fin na) (h4 : rnd (b / T) = Dbl.fin nb) (h5 : na ≤ nb)
    (h6 : rnd na = Dbl.fin c0) (h7 : rnd (nb + c0) = Dbl.fin c1) (h8 : c0 ≤ c1) :
    accumulatedFitnessWith rnd [(Dbl.fin a, Ga), (Dbl.fin b, Gb)] =
      [(Dbl.fin c0, Ga), (Dbl.fin c1, Gb)] := by
  have hTot : fitnessTotalWith rnd [(Dbl.fin a, Ga), (Dbl.fin b, Gb)] = Dbl.fin T := by
    simp [fitnessTotalWith, Dbl.add, Dbl.round, h1, h2]
  have hNorm : normalisedFitnessWith rnd [(Dbl.fin a, Ga), (Dbl.fin b, Gb)] =
      [(Dbl.fin na, Ga), (Dbl.fin nb, Gb)] := by
    unfold normalisedFitnessWith
    rw [hTot]
    simp [Dbl.div, Dbl.round, hT, h3, h4, Multimap.insert, Dbl.lt, not_lt.2 h5]
  unfold accumulatedFitnessWith
  rw [hNorm]
  simp [accumulateStepWith, Dbl.add, Dbl.round, h6, h7, Multimap.insert, Dbl.lt, not_lt.2 h8]

theorem round64_neg (q : ℚ) (hq : 0 < q) : round64 (-q) = Dbl.neg (round64 q) := by
  unfold round64
  rw [if_pos (by linarith), if_neg (not_lt.2 hq.le), neg_neg]

theorem fitnessWith_zero (rnd : ℚ → Dbl) (target : Dbl) :
    fitnessWith rnd (Dbl.fin 0) target = Dbl.fin 0 := by
  simp [fitnessWith, Dbl.eq]

theorem fitnessWith_nan (rnd : ℚ → Dbl) (target : Dbl) :
    fitnessWith rnd Dbl.nan target = Dbl.fin 0 := by
  simp [fitnessWith, Dbl.eq, Dbl.ne]

theorem fitnessWith_viable (rnd : ℚ → Dbl) (value target : Dbl)
    (h0 : value ≠ Dbl.fin 0) (hn : value ≠ Dbl.nan) :
    fitnessWith rnd value target =
      Dbl.round rnd (Dbl.div (Dbl.fin 1) (Dbl.fabs (Dbl.round rnd (Dbl.sub target value)))) := by
  cases value with
  | nan => exact absurd rfl hn
  | pinf => simp [fitnessWith, Dbl.eq, Dbl.ne]
  | ninf => simp [fitnessWith, Dbl.eq, Dbl.ne]
  | fin q =>
    have hq : q ≠ 0 := fun h => h0 (by rw [h])
    simp [fitnessWith, Dbl.eq, Dbl.ne, hq]

/-- The fitness of a finite non-zero `v` against a finite target `t`, given
the value `d` of the rounded difference and the value `f` of the rounded
quotient. -/
theorem fitnessWith_fin_eq (rnd : ℚ → Dbl) (v t d f : ℚ) (hv : v ≠ 0)
    (hd : rnd (t - v) = Dbl.fin d) (hd0 : d ≠ 0) (hf : rnd (1 / |d|) = Dbl.fin f) :
    fitnessWith rnd (Dbl.fin v) (Dbl.fin t) = Dbl.fin f := by
  rw [fitnessWith_viable rnd _ _ (by simpa using hv) (by simp)]
  have hsub : Dbl.sub (Dbl.fin t) (Dbl.fin v) = Dbl.fin (t - v) := by
    simp [Dbl.sub, Dbl.neg, Dbl.add, sub_eq_add_neg]
  rw [hsub]
  have habs : |d| ≠ 0 := abs_ne_zero.2 hd0
  simp only [Dbl.round, hd, Dbl.fabs, Dbl.div, habs, if_false, hf]

/-! ## Values of `round64` used below -/

theorem round64_two : round64 2 = Dbl.fin 2 :=
  round64_eq (2) (1) 4503599627370496 _ (by norm_num) (by norm_num)
    (by norm_num) (by norm_num) (by norm_num) (by norm_num) (by norm_num)
    (by intro _; norm_num)
    (by intro _; norm_num) (by norm_num)

theorem round64_half : round64 (1 / 2) = Dbl.fin (1 / 2) :=
  round64_eq (1 / 2) (-1) 4503599627370496 _ (by norm_num) (by norm_num)
    (by norm_num) (by norm_num) (by norm_num) (by norm_num) (by norm_num)
    (by intro _; norm_num)
    (by intro _; norm_num) (by norm_num)

theorem round64_363 : round64 363 = Dbl.fin 363 :=
  round64_eq (363) (8) 6385963534123008 _ (by norm_num) (by norm_num)
    (by norm_num) (by norm_num) (by norm_num) (by norm_num) (by norm_num)
    (by intro _; norm_num)
    (by intro _; norm_num) (by norm_num)

theorem round64_75 : round64 75 = Dbl.fin 75 :=
  round64_eq (75) (6) 5277655813324800 _ (by norm_num) (by norm_num)
    (by norm_num) (by norm_num) (by norm_num) (by norm_num) (by norm_num)
    (by intro _; norm_num)
    (by intro _; norm_num) (by norm_num)

theorem round64_inv_363 : round64 (1 / 363) = Dbl.fin (99252884349763 / 2 ^ 55) :=
  round64_eq (1 / 363) (-9) 6352184598384832 _ (by norm_num) (by norm_num)
    (by norm_num) (by norm_num) (by norm_num) (by norm_num) (by norm_num)
    (by intro _; norm_num)
    (by intro _; norm_num) (by norm_num)

theorem round64_inv_75 : round64 (1 / 75) = Dbl.fin (7686143364045647 / 2 ^ 59) :=
  round64_eq (1 / 75) (-7) 7686143364045647 _ (by norm_num) (by norm_num)
    (by norm_num) (by norm_num) (by norm_num) (by norm_num) (by norm_num)
    (by intro h; norm_num at h)
    (by intro h; norm_num at h) (by norm_num)

theorem round64_scoreA : round64 (99252884349763 / 2 ^ 55) = Dbl.fin (99252884349763 / 2 ^ 55) :=
  round64_eq (99252884349763 / 2 ^ 55) (-9) 6352184598384832 _ (by norm_num) (by norm_num)
    (by norm_num) (by norm_num) (by norm_num) (by norm_num) (by norm_num)
    (by intro _; norm_num)
    (by intro _; norm_num) (by norm_num)

theorem round64_scoreSum : round64 (99252884349763 / 2 ^ 55 + 7686143364045647 / 2 ^ 59) = Dbl.fin (72454605575327 / 2 ^ 52) :=
  round64_eq (99252884349763 / 2 ^ 55 + 7686143364045647 / 2 ^ 59) (-6) 4637094756820928 _ (by norm_num) (by norm_num)
    (by norm_num) (by norm_num) (by norm_num) (by norm_num) (by norm_num)
    (by intro _; norm_num)
    (by intro _; norm_num) (by norm_num)

theorem round64_normA : round64 (99252884349763 / 2 ^ 55 / (72454605575327 / 2 ^ 52)) = Dbl.fin (3084657279020887 / 2 ^ 54) :=
  round64_eq (99252884349763 / 2 ^ 55 / (72454605575327 / 2 ^ 52)) (-3) 6169314558041774 _ (by norm_num) (by norm_num)
    (by norm_num) (by norm_num) (by norm_num) (by norm_num) (by norm_num)
    (by intro _; norm_num)
    (by intro _; norm_num) (by norm_num)

theorem round64_normB : round64 (7686143364045647 / 2 ^ 59 / (72454605575327 / 2 ^ 52)) = Dbl.fin (7464870615230547 / 2 ^ 53) :=
  round64_eq (7686143364045647 / 2 ^ 59 / (72454605575327 / 2 ^ 52)) (-1) 7464870615230547 _ (by norm_num) (by norm_num)
    (by norm_num) (by norm_num) (by norm_num) (by norm_num) (by norm_num)
    (by intro h; norm_num at h)
    (by intro h; norm_num at h) (by norm_num)

theorem round64_normA_again : round64 (3084657279020887 / 2 ^ 54) = Dbl.fin (3084657279020887 / 2 ^ 54) :=
  round64_eq (3084657279020887 / 2 ^ 54) (-3) 6169314558041774 _ (by norm_num) (by norm_num)
    (by norm_num) (by norm_num) (by norm_num) (by norm_num) (by norm_num)
    (by intro _; norm_num)
    (by intro _; norm_num) (by norm_num)

theorem round64_norm_sum : round64 (7464870615230547 / 2 ^ 53 + 3084657279020887 / 2 ^ 54) = Dbl.fin (4503599627370495 / 2 ^ 52) :=
  round64_eq (7464870615230547 / 2 ^ 53 + 3084657279020887 / 2 ^ 54) (-1) 9007199254740990 _ (by norm_num) (by norm_num)
    (by norm_num) (by norm_num) (by norm_num) (by norm_num) (by norm_num)
    (by intro _; norm_num)
    (by intro _; norm_num) (by norm_num)

theorem round64_draw : round64 (9007199254740991 / 2 ^ 53) = Dbl.fin (9007199254740991 / 2 ^ 53) :=
  round64_eq (9007199254740991 / 2 ^ 53) (-1) 9007199254740991 _ (by norm_num) (by norm_num)
    (by norm_num) (by norm_num) (by norm_num) (by norm_num) (by norm_num)
    (by intro h; norm_num at h)
    (by intro h; norm_num at h) (by norm_num)

theorem round64_v1 : round64 (2251799813685249 / 2 ^ 51) = Dbl.fin (2251799813685249 / 2 ^ 51) :=
  round64_eq (2251799813685249 / 2 ^ 51) (0) 4503599627370498 _ (by norm_num) (by norm_num)
    (by norm_num) (by norm_num) (by norm_num) (by norm_num) (by norm_num)
    (by intro _; norm_num)
    (by intro _; norm_num) (by norm_num)

theorem round64_v2 : round64 (4503599627370497 / 2 ^ 52) = Dbl.fin (4503599627370497 / 2 ^ 52) :=
  round64_eq (4503599627370497 / 2 ^ 52) (0) 4503599627370497 _ (by norm_num) (by norm_num)
    (by norm_num) (by norm_num) (by norm_num) (by norm_num) (by norm_num)
    (by intro h; norm_num at h)
    (by intro h; norm_num at h) (by norm_num)

theorem round64_d1 : round64 (3 - 2251799813685249 / 2 ^ 51) = Dbl.fin (4503599627370495 / 2 ^ 51) :=
  round64_eq (3 - 2251799813685249 / 2 ^ 51) (0) 9007199254740990 _ (by norm_num) (by norm_num)
    (by norm_num) (by norm_num) (by norm_num) (by norm_num) (by norm_num)
    (by intro _; norm_num)
    (by intro _; norm_num) (by norm_num)

theorem round64_d2 : round64 (3 - 4503599627370497 / 2 ^ 52) = Dbl.fin (9007199254740991 / 2 ^ 52) :=
  round64_eq (3 - 4503599627370497 / 2 ^ 52) (0) 9007199254740991 _ (by norm_num) (by norm_num)
    (by norm_num) (by norm_num) (by norm_num) (by norm_num) (by norm_num)
    (by intro h; norm_num at h)
    (by intro h; norm_num at h) (by norm_num)

theorem round64_inv_d1 : round64 (1 / (4503599627370495 / 2 ^ 51)) = Dbl.fin (4503599627370497 / 2 ^ 53) :=
  round64_eq (1 / (4503599627370495 / 2 ^ 51)) (-1) 4503599627370497 _ (by norm_num) (by norm_num)
    (by norm_num) (by norm_num) (by norm_num) (by norm_num) (by norm_num)
    (by intro h; norm_num at h)
    (by intro h; norm_num at h) (by norm_num)

theorem round64_inv_d2 : round64 (1 / (9007199254740991 / 2 ^ 52)) = Dbl.fin (4503599627370497 / 2 ^ 53) :=
  round64_eq (1 / (9007199254740991 / 2 ^ 52)) (-1) 4503599627370497 _ (by norm_num) (by norm_num)
    (by norm_num) (by norm_num) (by norm_num) (by norm_num) (by norm_num)
    (by intro h; norm_num at h)
    (by intro h; norm_num at h) (by norm_num)

/-! ## Claims that depend on rounding -/

/-- C7: `fitness value target` is 0 when `value` is 0 or NaN, and for every
other value it is the quotient `1.0 / fabs (target - value)` as `double`
computes it, the difference and the quotient each rounded, whatever the
rounding; in binary64 `fitness 0 42 = 0` and `fitness 40 42 = 1/2`. -/
theorem fitness_formula :
    (∀ (rnd : ℚ → Dbl) (target : Dbl), fitnessWith rnd (Dbl.fin 0) target = Dbl.fin 0 ∧
        fitnessWith rnd Dbl.nan target = Dbl.fin 0) ∧
    (∀ (rnd : ℚ → Dbl) (value target : Dbl), value ≠ Dbl.fin 0 → value ≠ Dbl.nan →
        fitnessWith rnd value target =
          Dbl.round rnd
            (Dbl.div (Dbl.fin 1) (Dbl.fabs (Dbl.round rnd (Dbl.sub target value))))) ∧
    fitnessWith round64 (Dbl.fin 0) (Dbl.fin 42) = Dbl.fin 0 ∧
    fitnessWith round64 (Dbl.fin 40) (Dbl.fin 42) = Dbl.fin (1 / 2) := by
  refine ⟨fun rnd target => ⟨fitnessWith_zero rnd target, fitnessWith_nan rnd target⟩,
    fitnessWith_viable, fitnessWith_zero _ _, ?_⟩
  refine fitnessWith_fin_eq round64 40 42 2 (1 / 2) (by norm_num) ?_ (by norm_num) ?_
  · have h : (42 : ℚ) - 40 = 2 := by norm_num
    rw [h]
    exact round64_two
  · have h : |(2 : ℚ)| = 2 := abs_of_pos (by norm_num)
    rw [h]
    exact round64_half

/-- Witness of C7 at the value 40 and the target 42, in binary64. -/
theorem fitness_formula_witness :
    fitnessWith round64 (Dbl.fin 40) (Dbl.fin 42) =
      Dbl.round round64
        (Dbl.div (Dbl.fin 1)
          (Dbl.fabs (Dbl.round round64 (Dbl.sub (Dbl.fin 42) (Dbl.fin 40))))) :=
  fitness_formula.2.1 round64 (Dbl.fin 40) (Dbl.fin 42) (by simp) (by simp)

theorem accumulatedFitnessWith_363_75 (Ga Gb : Sample) :
    accumulatedFitnessWith round64 [(Dbl.fin (99252884349763 / 2 ^ 55), Ga), (Dbl.fin (7686143364045647 / 2 ^ 59), Gb)] =
      [(Dbl.fin (3084657279020887 / 2 ^ 54), Ga), (Dbl.fin (4503599627370495 / 2 ^ 52), Gb)] :=
  accumulatedFitnessWith_two round64 _ _ _ _ _ _ _ Ga Gb round64_scoreA round64_scoreSum
    (by norm_num) round64_normA round64_normB (by norm_num) round64_normA_again
    round64_norm_sum (by norm_num)

theorem fitnessWith_405 :
    fitnessWith round64 (Dbl.fin 405) (Dbl.fin 42) = Dbl.fin (99252884349763 / 2 ^ 55) := by
  refine fitnessWith_fin_eq round64 405 42 (-363) _ (by norm_num) ?_ (by norm_num) ?_
  · have h : (42 : ℚ) - 405 = -363 := by norm_num
    rw [h, round64_neg 363 (by norm_num), round64_363]
    rfl
  · have h : |(-363 : ℚ)| = 363 := by rw [abs_neg]; exact abs_of_pos (by norm_num)
    rw [h]
    exact round64_inv_363

theorem fitnessWith_117 :
    fitnessWith round64 (Dbl.fin 117) (Dbl.fin 42) = Dbl.fin (7686143364045647 / 2 ^ 59) := by
  refine fitnessWith_fin_eq round64 117 42 (-75) _ (by norm_num) ?_ (by norm_num) ?_
  · have h : (42 : ℚ) - 117 = -75 := by norm_num
    rw [h, round64_neg 75 (by norm_num), round64_75]
    rfl
  · have h : |(-75 : ℚ)| = 75 := by rw [abs_neg]; exact abs_of_pos (by norm_num)
    rw [h]
    exact round64_inv_75

/-- C11, at a failing input.  The genotypes `[9, 12, 9, 12, 5]` and
`[9, 10, 4, 12, 9]` evaluate to 405 and 117 and score the binary64 values of
`1/363` and `1/75` against the target 42.  For the population of these two,
the cumulative values of `select` are `0.17123287671232873` and
`0.9999999999999998 = 1 - 2^-52`, so the draw `0.9999999999999999 = 1 - 2^-53`,
a `double` of `[0, 1)`, finds no entry: `find_if` returns the end iterator,
line 185 dereferences it, and no genotype is returned. -/
theorem select_runs_off_the_end :
    objective (parseGenotype [9, 12, 9, 12, 5]) = .ok (Dbl.fin 405) ∧
    objective (parseGenotype [9, 10, 4, 12, 9]) = .ok (Dbl.fin 117) ∧
    fitnessWith round64 (Dbl.fin 405) (Dbl.fin 42) = Dbl.fin (99252884349763 / 2 ^ 55) ∧
    fitnessWith round64 (Dbl.fin 117) (Dbl.fin 42) = Dbl.fin (7686143364045647 / 2 ^ 59) ∧
    accumulatedFitnessWith round64
        [(Dbl.fin (99252884349763 / 2 ^ 55), [9, 12, 9, 12, 5]), (Dbl.fin (7686143364045647 / 2 ^ 59), [9, 10, 4, 12, 9])] =
      [(Dbl.fin (3084657279020887 / 2 ^ 54), [9, 12, 9, 12, 5]), (Dbl.fin (4503599627370495 / 2 ^ 52), [9, 10, 4, 12, 9])] ∧
    round64 (9007199254740991 / 2 ^ 53) = Dbl.fin (9007199254740991 / 2 ^ 53) ∧
    (0 : ℚ) ≤ 9007199254740991 / 2 ^ 53 ∧ (9007199254740991 / 2 ^ 53 : ℚ) < 1 ∧
    selectWith round64
        [(Dbl.fin (99252884349763 / 2 ^ 55), [9, 12, 9, 12, 5]), (Dbl.fin (7686143364045647 / 2 ^ 59), [9, 10, 4, 12, 9])] 1
        { stream := fun _ => 9007199254740991 / 2 ^ 53, consumed := 0 } =
      (.error .endIterator, { stream := fun _ => 9007199254740991 / 2 ^ 53, consumed := 1 }) := by
  have p1 : parseGenotype [9, 12, 9, 12, 5] =
      [Gene.number 9, Gene.operator .MULTIPLY, Gene.number 9, Gene.operator .MULTIPLY,
        Gene.number 5] := by decide
  have p2 : parseGenotype [9, 10, 4, 12, 9] =
      [Gene.number 9, Gene.operator .PLUS, Gene.number 4, Gene.operator .MULTIPLY,
        Gene.number 9] := by decide
  refine ⟨?_, ?_, fitnessWith_405, fitnessWith_117, accumulatedFitnessWith_363_75 _ _,
    round64_draw, by norm_num, by norm_num, ?_⟩
  · rw [p1]
    simp only [objective_number_cons, foldlM_objectiveStep_cons, objectiveStep_operator,
      objectiveStep_number, foldlM_objectiveStep_nil, applyOperator, Dbl.mul, Dbl.ofNat]
    norm_num
  · rw [p2]
    simp only [objective_number_cons, foldlM_objectiveStep_cons, objectiveStep_operator,
      objectiveStep_number, foldlM_objectiveStep_nil, applyOperator, Dbl.mul, Dbl.add,
      Dbl.ofNat]
    norm_num
  · unfold selectWith
    rw [if_neg (by norm_num), accumulatedFitnessWith_363_75]
    have hfind : List.find?
        (fun sample : Dbl × Sample => Dbl.ge sample.1 (Dbl.fin (9007199254740991 / 2 ^ 53)))
        [(Dbl.fin (3084657279020887 / 2 ^ 54), [9, 12, 9, 12, 5]), (Dbl.fin (4503599627370495 / 2 ^ 52), [9, 10, 4, 12, 9])] =
        none := by
      rw [List.find?_eq_none]
      intro x hx
      simp only [List.mem_cons, List.mem_singleton, List.not_mem_nil, or_false] at hx
      rcases hx with rfl | rfl <;> simp [Dbl.ge] <;> norm_num
    show selectLoop _ 1 [] _ = _
    unfold selectLoop
    simp only [Generator.draw, hfind]

/-- C14, as stated, fails in binary64.  Against the target 3 the viable values
`v1 = 1 + 2^-51` and `v2 = 1 + 2^-52` (both of type `double`) are at the
distances `2 - 2^-51 < 2 - 2^-52`, computed without rounding error, yet both
get the fitness `0.5000000000000001`: the closer value is not fitter. -/
theorem fitness_equal_at_different_distances :
    round64 (2251799813685249 / 2 ^ 51) = Dbl.fin (2251799813685249 / 2 ^ 51) ∧ round64 (4503599627370497 / 2 ^ 52) = Dbl.fin (4503599627370497 / 2 ^ 52) ∧
    Dbl.lt (Dbl.fabs (Dbl.sub (Dbl.fin 3) (Dbl.fin (2251799813685249 / 2 ^ 51))))
      (Dbl.fabs (Dbl.sub (Dbl.fin 3) (Dbl.fin (4503599627370497 / 2 ^ 52)))) = true ∧
    fitnessWith round64 (Dbl.fin (2251799813685249 / 2 ^ 51)) (Dbl.fin 3) = Dbl.fin (4503599627370497 / 2 ^ 53) ∧
    fitnessWith round64 (Dbl.fin (4503599627370497 / 2 ^ 52)) (Dbl.fin 3) = Dbl.fin (4503599627370497 / 2 ^ 53) ∧
    Dbl.gt (fitnessWith round64 (Dbl.fin (2251799813685249 / 2 ^ 51)) (Dbl.fin 3))
      (fitnessWith round64 (Dbl.fin (4503599627370497 / 2 ^ 52)) (Dbl.fin 3)) = false := by
  have f1 : fitnessWith round64 (Dbl.fin (2251799813685249 / 2 ^ 51)) (Dbl.fin 3) = Dbl.fin (4503599627370497 / 2 ^ 53) := by
    refine fitnessWith_fin_eq round64 _ 3 (4503599627370495 / 2 ^ 51) _ (by norm_num) round64_d1
      (by norm_num) ?_
    have h : |(4503599627370495 / 2 ^ 51 : ℚ)| = 4503599627370495 / 2 ^ 51 := abs_of_pos (by norm_num)
    rw [h]
    exact round64_inv_d1
  have f2 : fitnessWith round64 (Dbl.fin (4503599627370497 / 2 ^ 52)) (Dbl.fin 3) = Dbl.fin (4503599627370497 / 2 ^ 53) := by
    refine fitnessWith_fin_eq round64 _ 3 (9007199254740991 / 2 ^ 52) _ (by norm_num) round64_d2
      (by norm_num) ?_
    have h : |(9007199254740991 / 2 ^ 52 : ℚ)| = 9007199254740991 / 2 ^ 52 := abs_of_pos (by norm_num)
    rw [h]
    exact round64_inv_d2
  refine ⟨round64_v1, round64_v2, ?_, f1, f2, ?_⟩
  · simp only [Dbl.sub, Dbl.neg, Dbl.add, Dbl.fabs, Dbl.lt, decide_eq_true_eq]
    norm_num [abs_of_pos]
  · rw [f1, f2]
    simp [Dbl.gt, Dbl.lt]

theorem roundHalfEven_close (x : ℚ) :
    (roundHalfEven x : ℚ) - 1 / 2 ≤ x ∧ x ≤ roundHalfEven x + 1 / 2 := by
  have hf1 : (⌊x⌋ : ℚ) ≤ x := Int.floor_le x
  have hf2 : x < ⌊x⌋ + 1 := Int.lt_floor_add_one x
  unfold roundHalfEven
  split_ifs with h1 h2 h3
  · constructor <;> linarith
  · push_cast
    constructor <;> linarith
  · constructor <;> linarith
  · push_cast
    constructor <;> linarith

theorem roundHalfEven_intCast (m : ℤ) : roundHalfEven (m : ℚ) = m :=
  roundHalfEven_eq _ m (by linarith) (by linarith)
    (fun h => by linarith) (fun h => by linarith)

theorem roundHalfEven_mono (x y : ℚ) (h : x ≤ y) : roundHalfEven x ≤ roundHalfEven y := by
  by_contra hlt
  have hlt' : roundHalfEven y + 1 ≤ roundHalfEven x := by omega
  have hc : ((roundHalfEven y + 1 : ℤ) : ℚ) ≤ (roundHalfEven x : ℚ) := Int.cast_le.2 hlt'
  push_cast at hc
  have hx := (roundHalfEven_close x).1
  have hy := (roundHalfEven_close y).2
  have hxy : x = y := le_antisymm h (by linarith)
  rw [hxy] at hlt
  exact hlt (le_refl _)

theorem nearest_zero : nearest 0 = 0 := by
  unfold nearest
  rw [zero_div]
  have : roundHalfEven 0 = 0 := by
    have := roundHalfEven_intCast 0
    simpa using this
  rw [this]
  simp

theorem nearest_nonneg (q : ℚ) (hq : 0 ≤ q) : 0 ≤ nearest q := by
  unfold nearest
  have hu : (0 : ℚ) < 2 ^ (binade q - 52) := zpow_pos (by norm_num) _
  have h0 : roundHalfEven 0 ≤ roundHalfEven (q / 2 ^ (binade q - 52)) :=
    roundHalfEven_mono _ _ (div_nonneg hq hu.le)
  have hz : roundHalfEven 0 = 0 := by
    have := roundHalfEven_intCast 0
    simpa using this
  rw [hz] at h0
  exact mul_nonneg (by exact_mod_cast h0) hu.le

theorem binade_mono (p q : ℚ) (hp : 0 < p) (h : p ≤ q) : binade p ≤ binade q :=
  max_le_max (Int.log_mono_right hp h) le_rfl

theorem binade_ge (q : ℚ) : -1022 ≤ binade q := le_max_right _ _

theorem two_zpow_52 : (2 : ℚ) ^ (52 : ℤ) = ((4503599627370496 : ℤ) : ℚ) := by norm_num

theorem two_zpow_53 : (2 : ℚ) ^ (53 : ℤ) = ((9007199254740992 : ℤ) : ℚ) := by norm_num

/-- Above the subnormal range the rounded value stays in the binade from
below. -/
theorem nearest_ge_zpow (q : ℚ) (hq : 0 < q) (hb : -1022 < binade q) :
    (2 : ℚ) ^ binade q ≤ nearest q := by
  have hlog : Int.log 2 q = binade q := by
    unfold binade at hb ⊢
    rcases le_total (Int.log 2 q) (-1022) with h | h
    · rw [max_eq_right h] at hb
      exact absurd hb (lt_irrefl _)
    · rw [max_eq_left h]
  have h2 : (2 : ℚ) ^ binade q ≤ q := by
    have := @Int.zpow_log_le_self ℚ _ _ 2 q (by norm_num) hq
    rw [hlog] at this
    simpa using this
  have hu : (0 : ℚ) < 2 ^ (binade q - 52) := zpow_pos (by norm_num) _
  have hsplit : (2 : ℚ) ^ binade q = 2 ^ (52 : ℤ) * 2 ^ (binade q - 52) := by
    rw [← zpow_add₀ (by norm_num : (2 : ℚ) ≠ 0)]
    congr 1
    ring
  have hx : (2 : ℚ) ^ (52 : ℤ) ≤ q / 2 ^ (binade q - 52) := by
    rw [le_div_iff₀ hu, ← hsplit]
    exact h2
  have hr : (4503599627370496 : ℤ) ≤ roundHalfEven (q / 2 ^ (binade q - 52)) := by
    have := roundHalfEven_mono _ _ hx
    rw [two_zpow_52, roundHalfEven_intCast] at this
    exact this
  unfold nearest
  rw [hsplit, two_zpow_52]
  exact mul_le_mul_of_nonneg_right (Int.cast_le.2 hr) hu.le

/-- The rounded value does not leave the binade from above. -/
theorem nearest_le_zpow (p : ℚ) : nearest p ≤ (2 : ℚ) ^ (binade p + 1) := by
  have hlog : Int.log 2 p ≤ binade p := le_max_left _ _
  have h1 : p < (2 : ℚ) ^ (Int.log 2 p + 1) := by
    have := @Int.lt_zpow_succ_log_self ℚ _ _ 2 (by norm_num) p
    simpa using this
  have h2 : p ≤ (2 : ℚ) ^ (binade p + 1) :=
    le_trans h1.le (zpow_le_zpow_right₀ (by norm_num) (by omega))
  have hu : (0 : ℚ) < 2 ^ (binade p - 52) := zpow_pos (by norm_num) _
  have hsplit : (2 : ℚ) ^ (binade p + 1) = 2 ^ (53 : ℤ) * 2 ^ (binade p - 52) := by
    rw [← zpow_add₀ (by norm_num : (2 : ℚ) ≠ 0)]
    congr 1
    ring
  have hx : p / 2 ^ (binade p - 52) ≤ (2 : ℚ) ^ (53 : ℤ) := by
    rw [div_le_iff₀ hu, ← hsplit]
    exact h2
  have hr : roundHalfEven (p / 2 ^ (binade p - 52)) ≤ (9007199254740992 : ℤ) := by
    have := roundHalfEven_mono _ _ hx
    rw [two_zpow_53, roundHalfEven_intCast] at this
    exact this
  unfold nearest
  rw [hsplit, two_zpow_53]
  exact mul_le_mul_of_nonneg_right (Int.cast_le.2 hr) hu.le

/-- Rounding to the nearest representable magnitude is monotone. -/
theorem nearest_mono (p q : ℚ) (hp : 0 ≤ p) (h : p ≤ q) : nearest p ≤ nearest q := by
  rcases eq_or_lt_of_le hp with hp0 | hp0
  · rw [← hp0, nearest_zero]
    exact nearest_nonneg q (le_trans hp h)
  · have hq0 : 0 < q := lt_of_lt_of_le hp0 h
    rcases eq_or_lt_of_le (binade_mono p q hp0 h) with hb | hb
    · unfold nearest
      rw [hb]
      have hu : (0 : ℚ) < 2 ^ (binade q - 52) := zpow_pos (by norm_num) _
      have := roundHalfEven_mono _ _ (div_le_div_of_nonneg_right h hu.le)
      exact mul_le_mul_of_nonneg_right (Int.cast_le.2 this) hu.le
    · have h1 := nearest_le_zpow p
      have h2 := nearest_ge_zpow q hq0 (lt_of_le_of_lt (binade_ge p) hb)
      have h3 : (2 : ℚ) ^ (binade p + 1) ≤ 2 ^ binade q :=
        zpow_le_zpow_right₀ (by norm_num) (by omega)
      linarith

theorem roundMagnitude_range (q : ℚ) (hq : 0 ≤ q) :
    roundMagnitude q = Dbl.pinf ∨ ∃ r : ℚ, 0 ≤ r ∧ roundMagnitude q = Dbl.fin r := by
  unfold roundMagnitude
  split_ifs
  · exact Or.inl rfl
  · exact Or.inr ⟨nearest q, nearest_nonneg q hq, rfl⟩

theorem roundMagnitude_mono (p q : ℚ) (hp : 0 ≤ p) (h : p ≤ q) :
    Dbl.ge (roundMagnitude q) (roundMagnitude p) = true := by
  have hn := nearest_mono p q hp h
  unfold roundMagnitude
  split_ifs with h1 h2 h2
  · rfl
  · rfl
  · exact absurd (le_trans h2 hn) h1
  · simpa [Dbl.ge] using hn

theorem roundMagnitude_zero : roundMagnitude 0 = Dbl.fin 0 := by
  unfold roundMagnitude
  rw [nearest_zero, if_neg (by norm_num)]

theorem round64_of_nonneg (q : ℚ) (hq : 0 ≤ q) : round64 q = roundMagnitude q := by
  unfold round64
  rw [if_neg (not_lt.2 hq)]

/-- The magnitude of a rounded value is the rounded magnitude. -/
theorem fabs_round64 (q : ℚ) : Dbl.fabs (round64 q) = roundMagnitude |q| := by
  unfold round64
  by_cases hq : q < 0
  · rw [if_pos hq, abs_of_neg hq]
    rcases roundMagnitude_range (-q) (by linarith) with h | ⟨r, hr, h⟩
    · rw [h]; rfl
    · rw [h]
      simp [Dbl.neg, Dbl.fabs, abs_of_nonneg hr]
  · rw [if_neg hq, abs_of_nonneg (not_lt.1 hq)]
    rcases roundMagnitude_range q (not_lt.1 hq) with h | ⟨r, hr, h⟩
    · rw [h]; rfl
    · rw [h]
      simp [Dbl.fabs, abs_of_nonneg hr]

theorem Dbl.lt_false_of_ge (a b : Dbl) (h : Dbl.ge b a = true) : Dbl.lt b a = false := by
  cases a <;> cases b <;> simp_all [Dbl.ge, Dbl.lt]

theorem reciprocal64_pinf : reciprocal64 Dbl.pinf = Dbl.fin 0 := by
  show round64 0 = Dbl.fin 0
  rw [round64_of_nonneg 0 (le_refl _), roundMagnitude_zero]

theorem reciprocal64_zero : reciprocal64 (Dbl.fin 0) = Dbl.pinf := by
  simp [reciprocal64, Dbl.div, Dbl.round]

theorem reciprocal64_pos (r : ℚ) (hr : 0 < r) :
    reciprocal64 (Dbl.fin r) = roundMagnitude (1 / r) := by
  have h : Dbl.div (Dbl.fin 1) (Dbl.fin r) = Dbl.fin (1 / r) := by
    simp [Dbl.div, hr.ne']
  unfold reciprocal64
  rw [h]
  show round64 (1 / r) = _
  exact round64_of_nonneg _ (by positivity)

/-- A magnitude: `+∞` or a non-negative finite value. -/
theorem reciprocal64_range (d : Dbl)
    (hd : d = Dbl.pinf ∨ ∃ r : ℚ, 0 ≤ r ∧ d = Dbl.fin r) :
    reciprocal64 d = Dbl.pinf ∨ ∃ f : ℚ, 0 ≤ f ∧ reciprocal64 d = Dbl.fin f := by
  rcases hd with rfl | ⟨r, hr, rfl⟩
  · exact Or.inr ⟨0, le_refl _, reciprocal64_pinf⟩
  · rcases eq_or_lt_of_le hr with h0 | h0
    · rw [← h0]; exact Or.inl reciprocal64_zero
    · rw [reciprocal64_pos r h0]
      exact roundMagnitude_range _ (by positivity)

/-- The rounded reciprocal reverses the order of magnitudes, weakly. -/
theorem reciprocal64_anti (d1 d2 : Dbl)
    (h1 : d1 = Dbl.pinf ∨ ∃ r : ℚ, 0 ≤ r ∧ d1 = Dbl.fin r)
    (h2 : d2 = Dbl.pinf ∨ ∃ r : ℚ, 0 ≤ r ∧ d2 = Dbl.fin r)
    (h : Dbl.ge d2 d1 = true) :
    Dbl.ge (reciprocal64 d1) (reciprocal64 d2) = true := by
  rcases h1 with rfl | ⟨r1, hr1, rfl⟩
  · rcases h2 with rfl | ⟨r2, hr2, rfl⟩
    · rw [reciprocal64_pinf]; simp [Dbl.ge]
    · simp [Dbl.ge] at h
  · rcases h2 with rfl | ⟨r2, hr2, rfl⟩
    · rw [reciprocal64_pinf]
      rcases reciprocal64_range (Dbl.fin r1) (Or.inr ⟨r1, hr1, rfl⟩) with hx | ⟨f, hf, hx⟩
      · rw [hx]; rfl
      · rw [hx]; simpa [Dbl.ge] using hf
    · have h12 : r1 ≤ r2 := by simpa [Dbl.ge] using h
      rcases eq_or_lt_of_le hr1 with h0 | h0
      · rw [← h0, reciprocal64_zero]
        rcases reciprocal64_range (Dbl.fin r2) (Or.inr ⟨r2, hr2, rfl⟩) with hx | ⟨f, hf, hx⟩
        · rw [hx]; rfl
        · rw [hx]; rfl
      · have h0' : 0 < r2 := lt_of_lt_of_le h0 h12
        rw [reciprocal64_pos r1 h0, reciprocal64_pos r2 h0']
        exact roundMagnitude_mono _ _ (by positivity) (one_div_le_one_div_of_le h0 h12)

/-- In binary64 a strictly larger fitness is a strictly smaller distance to
the target, for viable values. -/
theorem fitnessWith_gt_closer (target v1 v2 : Dbl)
    (h1 : v1 ≠ Dbl.fin 0) (h1n : v1 ≠ Dbl.nan) (h2 : v2 ≠ Dbl.fin 0) (h2n : v2 ≠ Dbl.nan)
    (hgt : Dbl.gt (fitnessWith round64 v1 target) (fitnessWith round64 v2 target) = true) :
    Dbl.lt (Dbl.fabs (Dbl.sub target v1)) (Dbl.fabs (Dbl.sub target v2)) = true := by
  rw [fitnessWith_viable round64 v1 target h1 h1n,
    fitnessWith_viable round64 v2 target h2 h2n] at hgt
  change Dbl.lt
    (reciprocal64 (Dbl.fabs (Dbl.round round64 (Dbl.sub target v2))))
    (reciprocal64 (Dbl.fabs (Dbl.round round64 (Dbl.sub target v1)))) = true at hgt
  generalize Dbl.sub target v1 = x1 at hgt ⊢
  generalize Dbl.sub target v2 = x2 at hgt ⊢
  have hinf : ∀ d : Dbl, (d = Dbl.pinf ∨ ∃ r : ℚ, 0 ≤ r ∧ d = Dbl.fin r) →
      Dbl.lt (reciprocal64 d) (Dbl.fin 0) = false := by
    intro d hd
    rcases reciprocal64_range d hd with hx | ⟨f, hf, hx⟩
    · rw [hx]; rfl
    · rw [hx]; simpa [Dbl.lt] using hf
  have hnan : reciprocal64 Dbl.nan = Dbl.nan := rfl
  by_contra hcon
  have hcon' : Dbl.lt (Dbl.fabs x1) (Dbl.fabs x2) = false := by simpa using hcon
  have hfalse : Dbl.lt
      (reciprocal64 (Dbl.fabs (Dbl.round round64 x2)))
      (reciprocal64 (Dbl.fabs (Dbl.round round64 x1))) = false := by
    cases x1 with
    | nan =>
      show Dbl.lt _ (reciprocal64 Dbl.nan) = false
      rw [hnan]
      cases reciprocal64 (Dbl.fabs (Dbl.round round64 x2)) <;> rfl
    | pinf =>
      show Dbl.lt _ (reciprocal64 Dbl.pinf) = false
      rw [reciprocal64_pinf]
      cases x2 with
      | nan =>
        show Dbl.lt (reciprocal64 Dbl.nan) _ = false
        rw [hnan]
        rfl
      | pinf => exact hinf _ (Or.inl rfl)
      | ninf => exact hinf _ (Or.inl rfl)
      | fin q2 =>
        show Dbl.lt (reciprocal64 (Dbl.fabs (round64 q2))) _ = false
        rw [fabs_round64]
        exact hinf _ (roundMagnitude_range _ (abs_nonneg q2))
    | ninf =>
      show Dbl.lt _ (reciprocal64 Dbl.pinf) = false
      rw [reciprocal64_pinf]
      cases x2 with
      | nan =>
        show Dbl.lt (reciprocal64 Dbl.nan) _ = false
        rw [hnan]
        rfl
      | pinf => exact hinf _ (Or.inl rfl)
      | ninf => exact hinf _ (Or.inl rfl)
      | fin q2 =>
        show Dbl.lt (reciprocal64 (Dbl.fabs (round64 q2))) _ = false
        rw [fabs_round64]
        exact hinf _ (roundMagnitude_range _ (abs_nonneg q2))
    | fin q1 =>
      cases x2 with
      | nan =>
        show Dbl.lt (reciprocal64 Dbl.nan) _ = false
        rw [hnan]
        cases reciprocal64 (Dbl.fabs (Dbl.round round64 (Dbl.fin q1))) <;> rfl
      | pinf => simp [Dbl.fabs, Dbl.lt] at hcon'
      | ninf => simp [Dbl.fabs, Dbl.lt] at hcon'
      | fin q2 =>
        have hle : |q2| ≤ |q1| := by simpa [Dbl.fabs, Dbl.lt] using hcon'
        show Dbl.lt (reciprocal64 (Dbl.fabs (round64 q2)))
          (reciprocal64 (Dbl.fabs (round64 q1))) = false
        rw [fabs_round64, fabs_round64]
        apply Dbl.lt_false_of_ge
        exact reciprocal64_anti _ _ (roundMagnitude_range _ (abs_nonneg q2))
          (roundMagnitude_range _ (abs_nonneg q1))
          (roundMagnitude_mono _ _ (abs_nonneg q2) hle)
  rw [hfalse] at hgt
  cases hgt

theorem Dbl.ge_pinf_of_range (d : Dbl)
    (hd : d = Dbl.pinf ∨ ∃ r : ℚ, 0 ≤ r ∧ d = Dbl.fin r) : Dbl.ge Dbl.pinf d = true := by
  rcases hd with rfl | ⟨r, -, rfl⟩ <;> rfl

/-- In binary64 a strictly smaller distance to the target gives a fitness
that is at least as large, for viable values. -/
theorem fitnessWith_closer_ge (target v1 v2 : Dbl)
    (h1 : v1 ≠ Dbl.fin 0) (h1n : v1 ≠ Dbl.nan) (h2 : v2 ≠ Dbl.fin 0) (h2n : v2 ≠ Dbl.nan)
    (hlt : Dbl.lt (Dbl.fabs (Dbl.sub target v1)) (Dbl.fabs (Dbl.sub target v2)) = true) :
    Dbl.ge (fitnessWith round64 v1 target) (fitnessWith round64 v2 target) = true := by
  rw [fitnessWith_viable round64 v1 target h1 h1n,
    fitnessWith_viable round64 v2 target h2 h2n]
  change Dbl.ge
    (reciprocal64 (Dbl.fabs (Dbl.round round64 (Dbl.sub target v1))))
    (reciprocal64 (Dbl.fabs (Dbl.round round64 (Dbl.sub target v2)))) = true
  generalize Dbl.sub target v1 = x1 at hlt ⊢
  generalize Dbl.sub target v2 = x2 at hlt ⊢
  cases x1 with
  | nan => cases x2 <;> simp [Dbl.fabs, Dbl.lt] at hlt
  | pinf => cases x2 <;> simp [Dbl.fabs, Dbl.lt] at hlt
  | ninf => cases x2 <;> simp [Dbl.fabs, Dbl.lt] at hlt
  | fin q1 =>
    have hr1 := roundMagnitude_range |q1| (abs_nonneg q1)
    cases x2 with
    | nan => simp [Dbl.fabs, Dbl.lt] at hlt
    | pinf =>
      show Dbl.ge (reciprocal64 (Dbl.fabs (round64 q1))) (reciprocal64 Dbl.pinf) = true
      rw [fabs_round64]
      exact reciprocal64_anti _ _ hr1 (Or.inl rfl) (Dbl.ge_pinf_of_range _ hr1)
    | ninf =>
      show Dbl.ge (reciprocal64 (Dbl.fabs (round64 q1))) (reciprocal64 Dbl.pinf) = true
      rw [fabs_round64]
      exact reciprocal64_anti _ _ hr1 (Or.inl rfl) (Dbl.ge_pinf_of_range _ hr1)
    | fin q2 =>
      have hle : |q1| < |q2| := by simpa [Dbl.fabs, Dbl.lt] using hlt
      show Dbl.ge (reciprocal64 (Dbl.fabs (round64 q1)))
        (reciprocal64 (Dbl.fabs (round64 q2))) = true
      rw [fabs_round64, fabs_round64]
      exact reciprocal64_anti _ _ hr1 (roundMagnitude_range _ (abs_nonneg q2))
        (roundMagnitude_mono _ _ (abs_nonneg q1) hle.le)

theorem round64_twelve : round64 12 = Dbl.fin 12 :=
  round64_eq (12) (3) 6755399441055744 _ (by norm_num) (by norm_num)
    (by norm_num) (by norm_num) (by norm_num) (by norm_num) (by norm_num)
    (by intro _; norm_num)
    (by intro _; norm_num) (by norm_num)

theorem round64_twelfth : round64 (1 / 12) = Dbl.fin (6004799503160661 / 2 ^ 56) :=
  round64_eq (1 / 12) (-4) 6004799503160661 _ (by norm_num) (by norm_num)
    (by norm_num) (by norm_num) (by norm_num) (by norm_num) (by norm_num)
    (by intro h; norm_num at h)
    (by intro h; norm_num at h) (by norm_num)

theorem fitnessWith_40 : fitnessWith round64 (Dbl.fin 40) (Dbl.fin 42) = Dbl.fin (1 / 2) := by
  refine fitnessWith_fin_eq round64 40 42 2 (1 / 2) (by norm_num) ?_ (by norm_num) ?_
  · have h : (42 : ℚ) - 40 = 2 := by norm_num
    rw [h]
    exact round64_two
  · have h : |(2 : ℚ)| = 2 := abs_of_pos (by norm_num)
    rw [h]
    exact round64_half

theorem fitnessWith_30 :
    fitnessWith round64 (Dbl.fin 30) (Dbl.fin 42) = Dbl.fin (6004799503160661 / 2 ^ 56) := by
  refine fitnessWith_fin_eq round64 30 42 12 _ (by norm_num) ?_ (by norm_num) ?_
  · have h : (42 : ℚ) - 30 = 12 := by norm_num
    rw [h]
    exact round64_twelve
  · have h : |(12 : ℚ)| = 12 := abs_of_pos (by norm_num)
    rw [h]
    exact round64_twelfth

/-- C14, amended: larger fitness means closer to target, not conversely.  For
every target and every two viable values (neither 0 nor NaN): in binary64,
`fitness v1 target > fitness v2 target` implies
`|target - v1| < |target - v2|`, and `|target - v1| < |target - v2|` implies
`fitness v1 target >= fitness v2 target`; in exact arithmetic
`fitness v1 target > fitness v2 target` has the same outcome as
`|target - v1| < |target - v2|`. -/
theorem fitness_gt_implies_closer :
    (∀ target v1 v2 : Dbl, v1 ≠ Dbl.fin 0 → v1 ≠ Dbl.nan → v2 ≠ Dbl.fin 0 → v2 ≠ Dbl.nan →
      Dbl.gt (fitnessWith round64 v1 target) (fitnessWith round64 v2 target) = true →
      Dbl.lt (Dbl.fabs (Dbl.sub target v1)) (Dbl.fabs (Dbl.sub target v2)) = true) ∧
    (∀ target v1 v2 : Dbl, v1 ≠ Dbl.fin 0 → v1 ≠ Dbl.nan → v2 ≠ Dbl.fin 0 → v2 ≠ Dbl.nan →
      Dbl.lt (Dbl.fabs (Dbl.sub target v1)) (Dbl.fabs (Dbl.sub target v2)) = true →
      Dbl.ge (fitnessWith round64 v1 target) (fitnessWith round64 v2 target) = true) ∧
    (∀ target v1 v2 : Dbl, v1 ≠ Dbl.fin 0 → v1 ≠ Dbl.nan → v2 ≠ Dbl.fin 0 → v2 ≠ Dbl.nan →
      Dbl.gt (fitnessWith Dbl.fin v1 target) (fitnessWith Dbl.fin v2 target) =
        Dbl.lt (Dbl.fabs (Dbl.sub target v1)) (Dbl.fabs (Dbl.sub target v2))) :=
  ⟨fitnessWith_gt_closer, fitnessWith_closer_ge,
   fun target v1 v2 h1 h1n h2 h2n => by
    rw [fitnessWith_fin, fitnessWith_fin]
    exact fitness_gt_iff_closer target v1 v2 h1 h1n h2 h2n⟩

/-- Witness of the amended C14: against the target 42 the value 40, of fitness
`1/2`, is fitter than the value 30, of fitness `0.08333333333333333`, and
closer. -/
theorem fitness_gt_implies_closer_witness :
    Dbl.lt (Dbl.fabs (Dbl.sub (Dbl.fin 42) (Dbl.fin 40)))
        (Dbl.fabs (Dbl.sub (Dbl.fin 42) (Dbl.fin 30))) = true ∧
    Dbl.ge (fitnessWith round64 (Dbl.fin 40) (Dbl.fin 42))
        (fitnessWith round64 (Dbl.fin 30) (Dbl.fin 42)) = true ∧
    Dbl.gt (fitnessWith Dbl.fin (Dbl.fin 40) (Dbl.fin 42))
        (fitnessWith Dbl.fin (Dbl.fin 30) (Dbl.fin 42)) =
      Dbl.lt (Dbl.fabs (Dbl.sub (Dbl.fin 42) (Dbl.fin 40)))
        (Dbl.fabs (Dbl.sub (Dbl.fin 42) (Dbl.fin 30))) :=
  have hgt : Dbl.gt (fitnessWith round64 (Dbl.fin 40) (Dbl.fin 42))
      (fitnessWith round64 (Dbl.fin 30) (Dbl.fin 42)) = true := by
    rw [fitnessWith_40, fitnessWith_30]
    simp only [Dbl.gt, Dbl.lt, decide_eq_true_eq]
    norm_num
  have hlt := fitness_gt_implies_closer.1 (Dbl.fin 42) (Dbl.fin 40) (Dbl.fin 30)
    (by simp) (by simp) (by simp) (by simp) hgt
  ⟨hlt,
   fitness_gt_implies_closer.2.1 (Dbl.fin 42) (Dbl.fin 40) (Dbl.fin 30)
    (by simp) (by simp) (by simp) (by simp) hlt,
   fitness_gt_implies_closer.2.2 (Dbl.fin 42) (Dbl.fin 40) (Dbl.fin 30)
    (by simp) (by simp) (by simp) (by simp)⟩

end NeuralNet
